import Mathlib

/-!
# Verification of the SimEng out-of-order pipeline core

A shallow embedding of the pipeline engine of the SimEng processor
simulator: the pipeline-buffer transport primitive
(`src/include/simeng/pipeline/PipelineBuffer.hh`), the load/store queue
(`src/lib/pipeline/LoadStoreQueue.cc`), the reorder buffer
(`src/outoforder/ReorderBuffer.cc`), the memory management unit
(`src/lib/memory/MMU.cc`) and the dispatch/issue unit
(`src/lib/pipeline/DispatchIssueUnit.cc`).

Machine integers (`uint64_t`, `uint16_t`, ...) are modelled as `Nat`.
Wherever the C++ arithmetic can wrap around and the wraparound is
observable, the reduction modulo `2 ^ 64` is written explicitly;
elsewhere the quantities involved are bounded far below the word size
(packet sizes are `uint16_t` values, byte counts of a single access) and
plain `Nat` arithmetic coincides with the machine arithmetic.

C++ standard containers are modelled as lists: a `std::map` becomes an
association list kept sorted by key (the iteration order of `std::map`),
a `std::unordered_map` becomes an association list with unspecified
order, `std::deque` / `std::vector` / `std::queue` become plain lists
with the front of the container at the head of the list.
-/

set_option autoImplicit false

namespace SimEng

/-! ## Memory access targets and address overlap -/

/-- `simeng::memory::MemoryAccessTarget`: a virtual address (`uint64_t`)
and an access size in bytes (`uint16_t`). -/
structure MemoryAccessTarget where
  vaddr : Nat
  size : Nat
  deriving DecidableEq, Repr

/-- `requestsOverlap` (LoadStoreQueue.cc lines 12-18): two regions overlap
unless one ends at or before the start of the other.  The additions are
`uint64_t` additions, hence the reduction modulo `2 ^ 64`. -/
def requestsOverlap (a b : MemoryAccessTarget) : Bool :=
  !(decide ((a.vaddr + a.size) % 2 ^ 64 ≤ b.vaddr) ||
    decide ((b.vaddr + b.size) % 2 ^ 64 ≤ a.vaddr))

/-! ## Instructions

The fields of `simeng::Instruction` that the LSQ, the ROB and the MMU
read or write.  Getter calls in the C++ (`getSequenceId()`,
`getGeneratedAddresses()`, ...) become field projections. -/

/-- A register identifier `{type, tag}`. -/
structure Register where
  type : Nat
  tag : Nat
  deriving DecidableEq, Repr

/-- The portion of `simeng::Instruction`'s state observed by the
components under verification. -/
structure Instruction where
  /-- `getSequenceId()`: unique monotonic id assigned at rename. -/
  sequenceId : Nat
  /-- `getInstructionId()`: macro-op id assigned at decode. -/
  instructionId : Nat
  /-- `getMicroOpIndex()`. -/
  microOpIndex : Nat
  /-- `getInstructionAddress()`. -/
  instructionAddress : Nat
  /-- `getGeneratedAddresses()`. -/
  generatedAddresses : List MemoryAccessTarget
  /-- `getLSQLatency()`. -/
  lsqLatency : Nat
  /-- `isLoad()`. -/
  isLoad : Bool
  /-- `isStore()`. -/
  isStore : Bool
  /-- `isStoreData()`. -/
  isStoreData : Bool
  /-- `isStoreCond()`. -/
  isStoreCond : Bool
  /-- `isLoadReserved()`. -/
  isLoadReserved : Bool
  /-- `canCommit()` / commit-ready flag. -/
  canCommit : Bool
  /-- `exceptionEncountered()`. -/
  exceptionEncountered : Bool
  /-- `isFlushed()`. -/
  isFlushed : Bool
  /-- `hasExecuted()`. -/
  hasExecuted : Bool
  /-- `isCondResultReady()`. -/
  isCondResultReady : Bool
  /-- `getDestinationRegisters()`. -/
  destinationRegisters : List Register
  deriving DecidableEq, Repr

/-- A placeholder instruction for building concrete witness states. -/
def Instruction.blank : Instruction where
  sequenceId := 0
  instructionId := 0
  microOpIndex := 0
  instructionAddress := 0
  generatedAddresses := []
  lsqLatency := 0
  isLoad := false
  isStore := false
  isStoreData := false
  isStoreCond := false
  isLoadReserved := false
  canCommit := false
  exceptionEncountered := false
  isFlushed := false
  hasExecuted := false
  isCondResultReady := false
  destinationRegisters := []

/-! ## PipelineBuffer (PipelineBuffer.hh)

The C++ class holds a single `std::vector` of `width * 2` slots plus a
`headIsStart` toggle.  We keep the two rows of `width` slots separately:
row 0 is `buffer[0 .. width)`, row 1 is `buffer[width .. 2*width)`. -/

namespace PipelineBuffer

/-- State of `simeng::pipeline::PipelineBuffer<T>`. -/
structure State (T : Type) where
  /-- Slots `buffer[0 .. width)`. -/
  row0 : List T
  /-- Slots `buffer[width .. 2*width)`. -/
  row1 : List T
  /-- `headIsStart`: offset selector, flipped by `tick()`. -/
  headIsStart : Bool
  /-- `isStalled_`. -/
  isStalled : Bool
  deriving Repr

variable {T : Type}

/-- `tick()`: do nothing if stalled, otherwise flip `headIsStart`. -/
def tick (b : State T) : State T :=
  if b.isStalled then b else { b with headIsStart := !b.headIsStart }

/-- `getTailSlots()`: `&buffer[headIsStart * width]`. -/
def getTailSlots (b : State T) : List T :=
  if b.headIsStart then b.row1 else b.row0

/-- `getHeadSlots()`: `&buffer[!headIsStart * width]`. -/
def getHeadSlots (b : State T) : List T :=
  if b.headIsStart then b.row0 else b.row1

/-- Writing value `v` to tail slot `i` (`getTailSlots()[i] = v`). -/
def writeTail (b : State T) (i : Nat) (v : T) : State T :=
  if b.headIsStart then { b with row1 := b.row1.set i v }
  else { b with row0 := b.row0.set i v }

/-- `stall(bool)`. -/
def stall (b : State T) (s : Bool) : State T :=
  { b with isStalled := s }

end PipelineBuffer

/-! ## Association-list helpers

`std::map<uint64_t, V>` is modelled as an association list sorted by
strictly increasing key — the map's iteration order.
`std::unordered_map` uses the same representation; the claims below only
ever observe lookups of single keys, never the iteration order. -/

/-- `m[k].push_back(v)`: append `v` to the entry for key `k`, creating
the entry (at its sorted position) if absent. -/
def mapPushBack {α : Type} (k : Nat) (v : α) :
    List (Nat × List α) → List (Nat × List α)
  | [] => [(k, [v])]
  | (k', l) :: rest =>
    if k < k' then (k, [v]) :: (k', l) :: rest
    else if k = k' then (k', l ++ [v]) :: rest
    else (k', l) :: mapPushBack k v rest

/-- `m.emplace(k, v)`: insert `(k, v)` only if `k` is absent. -/
def mapEmplace {α : Type} (k : Nat) (v : α) :
    List (Nat × α) → List (Nat × α)
  | [] => [(k, v)]
  | (k', v') :: rest =>
    if k < k' then (k, v) :: (k', v') :: rest
    else if k = k' then (k', v') :: rest
    else (k', v') :: mapEmplace k v rest

/-- `m[k] = v`: insert or overwrite. -/
def mapInsert {α : Type} (k : Nat) (v : α) :
    List (Nat × α) → List (Nat × α)
  | [] => [(k, v)]
  | (k', v') :: rest =>
    if k < k' then (k, v) :: (k', v') :: rest
    else if k = k' then (k', v) :: rest
    else (k', v') :: mapInsert k v rest

/-- `m.find(k)`, as an optional value. -/
def mapFind {α : Type} (k : Nat) : List (Nat × α) → Option α
  | [] => none
  | (k', v) :: rest => if k = k' then some v else mapFind k rest

/-- `m.erase(k)`. -/
def mapErase {α : Type} (k : Nat) : List (Nat × α) → List (Nat × α)
  | [] => []
  | (k', v) :: rest =>
    if k = k' then rest else (k', v) :: mapErase k rest

/-- Keys strictly increase along the list: the `std::map` invariant. -/
abbrev mapSorted {α : Type} (m : List (Nat × α)) : Prop :=
  List.Pairwise (fun a b => a.1 < b.1) m

/-! ## LoadStoreQueue (LoadStoreQueue.cc) -/

namespace LSQ

/-- A `storeQueue_` entry: the store instruction and the data attached
by `supplyStoreData` (one byte-vector per generated address). -/
abbrev StoreEntry := Instruction × List (List Nat)

/-- The LSQ state touched by `startLoad` / `commitStore` / `commitLoad`
and the request-dispatch phase of `tick`. -/
structure State where
  /-- `loadQueue_` (program order, oldest first). -/
  loadQueue : List Instruction
  /-- `storeQueue_` (program order, oldest first). -/
  storeQueue : List StoreEntry
  /-- `requestedLoads_`: `std::map` from sequence id to
  `(instruction, uint64_t)` (the second component is always emplaced
  as `0`). -/
  requestedLoads : List (Nat × (Instruction × Nat))
  /-- `conflictionMap_`: store sequence id to the loads blocked on it. -/
  conflictionMap : List (Nat × List Instruction)
  /-- `requestLoadQueue_`: due cycle to load requests ready then. -/
  requestLoadQueue : List (Nat × List Instruction)
  /-- `requestStoreQueue_`: due cycle to store requests ready then. -/
  requestStoreQueue : List (Nat × List Instruction)
  /-- `completedRequests_` (front of the queue at the head). -/
  completedRequests : List Instruction
  /-- `violatingLoad_`. -/
  violatingLoad : Option Instruction
  /-- `tickCounter_`. -/
  tickCounter : Nat
  deriving Repr

/-- An LSQ state with everything empty. -/
def State.empty : State where
  loadQueue := []
  storeQueue := []
  requestedLoads := []
  conflictionMap := []
  requestLoadQueue := []
  requestStoreQueue := []
  completedRequests := []
  violatingLoad := none
  tickCounter := 0

/-- Does any generated address of the store `uop` overlap any address in
`lds`?  (The two nested loops of `startLoad` and `commitStore`.) -/
def overlapsAny (strAddresses ldAddresses : List MemoryAccessTarget) : Bool :=
  strAddresses.any fun sa => ldAddresses.any fun la => requestsOverlap sa la

/-- The reverse walk of `storeQueue_` in `startLoad` (lines 98-119):
starting from the youngest store, return the first store that is older
than the load (`store.seq < seqId`) and whose addresses overlap the
load's.  Stores that are older but do not overlap are skipped. -/
def findConflict (seqId : Nat) (ldAddresses : List MemoryAccessTarget)
    (storeQueue : List StoreEntry) : Option Instruction :=
  (storeQueue.reverse.find? fun e =>
    decide (e.1.sequenceId < seqId) &&
      overlapsAny e.1.generatedAddresses ldAddresses).map (·.1)

/-- `startLoad(insn)` (lines 85-131).  `inorder` is
`completionOrder_ == CompletionOrder::INORDER`.  The call
`insn->execute()` in the no-address branch mutates the shared
instruction; it is modelled by storing an executed copy. -/
def startLoad (inorder : Bool) (s : State) (insn : Instruction) : State :=
  if insn.generatedAddresses.length = 0 then
    { s with completedRequests :=
        s.completedRequests ++ [{ insn with hasExecuted := true }] }
  else
    let s1 :=
      if inorder then
        { s with completedRequests := s.completedRequests ++ [insn] }
      else s
    match findConflict insn.sequenceId insn.generatedAddresses s1.storeQueue with
    | some store =>
        { s1 with conflictionMap :=
            mapPushBack store.sequenceId insn s1.conflictionMap }
    | none =>
        { s1 with
          requestLoadQueue :=
            mapPushBack (s1.tickCounter + insn.lsqLatency) insn
              s1.requestLoadQueue,
          requestedLoads :=
            mapEmplace insn.sequenceId (insn, 0) s1.requestedLoads }

/-- The scan over `requestedLoads_` in `commitStore` (lines 213-235),
folded left over the map's (key-sorted) iteration order with the
running `violatingLoad_` as accumulator. -/
def scanViolations (uop : Instruction) :
    List (Nat × (Instruction × Nat)) → Option Instruction → Option Instruction
  | [], acc => acc
  | (_, (ld, _)) :: rest, acc =>
    -- skip loads younger than the oldest violating load found so far
    if (match acc with
        | some v => decide (v.sequenceId < ld.sequenceId)
        | none => false) then
      scanViolations uop rest acc
    else if ld.sequenceId ≠ uop.sequenceId &&
        overlapsAny uop.generatedAddresses ld.generatedAddresses then
      scanViolations uop rest (some ld)
    else
      scanViolations uop rest acc

/-- `commitStore(uop)` (lines 197-260).  The asserts at entry (a
non-empty store queue whose front is `uop`) become hypotheses of the
theorems about reachable calls.  Returns `violatingLoad_ != nullptr`
and the new state. -/
def commitStore (s : State) (uop : Instruction) : Bool × State :=
  if uop.generatedAddresses.length = 0 then
    -- early exit: pop the store queue and report no violation
    (false, { s with storeQueue := s.storeQueue.tail })
  else
    let v := scanViolations uop s.requestedLoads none
    let s1 := { s with violatingLoad := v }
    let s2 :=
      match mapFind uop.sequenceId s1.conflictionMap with
      | some ldVec =>
          { s1 with
            requestLoadQueue :=
              ldVec.foldl
                (fun q (ld : Instruction) =>
                  mapPushBack (s1.tickCounter + 1 + ld.lsqLatency) ld q)
                s1.requestLoadQueue,
            requestedLoads :=
              ldVec.foldl
                (fun m (ld : Instruction) =>
                  mapEmplace ld.sequenceId (ld, 0) m)
                s1.requestedLoads,
            conflictionMap := mapErase uop.sequenceId s1.conflictionMap }
      | none => s1
    (v.isSome, { s2 with storeQueue := s2.storeQueue.tail })

/-- The walk of `loadQueue_` in `commitLoad` (lines 269-283): remove the
first entry flagged `isLoad()`, reporting it. -/
def removeFirstLoad : List Instruction → List Instruction × Option Instruction
  | [] => ([], none)
  | e :: rest =>
    if e.isLoad then (rest, some e)
    else
      let p := removeFirstLoad rest
      (e :: p.1, p.2)

/-- `commitLoad(uop)` (lines 262-284): erase the first load-flagged
entry of the load queue and its `requestedLoads_` entry. -/
def commitLoad (s : State) (_uop : Instruction) : State :=
  let p := removeFirstLoad s.loadQueue
  match p.2 with
  | some e =>
      { s with
        loadQueue := p.1,
        requestedLoads := mapErase e.sequenceId s.requestedLoads }
  | none => s

/-- The per-load condition of the `commitStore` scan (lines 222-232): a
load generated by a different instruction, one of whose addresses
overlaps one of the store's. -/
def violMatch (uop ld : Instruction) : Bool :=
  decide (ld.sequenceId ≠ uop.sequenceId) &&
    overlapsAny uop.generatedAddresses ld.generatedAddresses

end LSQ

/-! ## ReorderBuffer (ReorderBuffer.cc)

`ReorderBuffer::commit` interacts with the register alias table only
through `rat.commit(reg)`; the RAT is therefore a type parameter `ρ`
with an update function, exactly the reference the C++ class holds.
`raiseException(uop)` is modelled by reporting the raised instruction in
the result. -/

namespace ROB

/-- The `ReorderBuffer` members read or written by `commit`. -/
structure State where
  /-- `buffer` (head = oldest instruction). -/
  buffer : List Instruction
  /-- `shouldFlush_`. -/
  shouldFlush : Bool
  /-- `flushAfter` (read back by `getFlushSeqId()`). -/
  flushAfter : Nat
  /-- `pc` (read back by `getFlushAddress()`). -/
  pc : Nat
  deriving Repr

/-- Result of a `commit` call: the return value `n`, the new ROB and LSQ
states, the new RAT, and the instructions passed to `raiseException`. -/
structure CommitResult (ρ : Type) where
  n : Nat
  rob : State
  lsq : LSQ.State
  rat : ρ
  raised : List Instruction

/-- The commit walk (ReorderBuffer.cc lines 28-62).  `fuel` is the
remaining iteration budget `maxCommits - n`; the empty-buffer branch is
unreachable because `maxCommits ≤ buffer.size()`.  On a memory-order
violation the flush-after id is `load->getSequenceId() - 1` in
`uint64_t` arithmetic, and the violating load is non-null because
`commitStore` returned `true` (the `getD` default is dead code). -/
def commitLoop {ρ : Type} (ratCommit : ρ → Register → ρ) :
    Nat → Nat → State → LSQ.State → ρ → CommitResult ρ
  | 0, count, rob, lsq, rat => ⟨count, rob, lsq, rat, []⟩
  | fuel + 1, count, rob, lsq, rat =>
    match rob.buffer with
    | [] => ⟨count, rob, lsq, rat, []⟩
    | uop :: rest =>
      if !uop.canCommit then ⟨count, rob, lsq, rat, []⟩
      else if uop.exceptionEncountered then
        ⟨count + 1, { rob with buffer := rest }, lsq, rat, [uop]⟩
      else
        let rat' := uop.destinationRegisters.foldl ratCommit rat
        if uop.isStore then
          let res := LSQ.commitStore lsq uop
          if res.1 then
            let load := res.2.violatingLoad.getD Instruction.blank
            ⟨count + 1,
              { buffer := rest, shouldFlush := true,
                flushAfter := (load.sequenceId + (2 ^ 64 - 1)) % 2 ^ 64,
                pc := load.instructionAddress },
              res.2, rat', []⟩
          else
            commitLoop ratCommit fuel (count + 1) { rob with buffer := rest }
              res.2 rat'
        else if uop.isLoad then
          commitLoop ratCommit fuel (count + 1) { rob with buffer := rest }
            (LSQ.commitLoad lsq uop) rat'
        else
          commitLoop ratCommit fuel (count + 1) { rob with buffer := rest }
            lsq rat'

/-- `commit(maxCommitSize)`: reset `shouldFlush_`, then walk at most
`min maxCommitSize buffer.size()` instructions from the head. -/
def commit {ρ : Type} (ratCommit : ρ → Register → ρ) (maxCommitSize : Nat)
    (rob : State) (lsq : LSQ.State) (rat : ρ) : CommitResult ρ :=
  commitLoop ratCommit (min maxCommitSize rob.buffer.length) 0
    { rob with shouldFlush := false } lsq rat

end ROB

/-! ## LoadStoreQueue: the request-dispatch phase of `tick`
(LoadStoreQueue.cc lines 351-452)

The loop interleaves `requestLoadQueue_` and `requestStoreQueue_`
dispatches to the MMU.  The MMU is the state parameter `μ` with its two
admission functions (`requestRead` / `requestWrite`), exactly the
`mmu_` collaborator the C++ calls into.  The loop is written with an
explicit iteration budget `fuel`; every property proved below holds for
every budget. -/

namespace LSQ

/-- One admission call made during the dispatch phase: request type,
due cycle of its queue entry, the instruction, and whether the MMU
accepted it. -/
structure DispatchEvent where
  isStore : Bool
  due : Nat
  insn : Instruction
  accepted : Bool
  deriving Repr, DecidableEq

/-- Result of draining one `request[Load|Store]Queue_` entry. -/
structure SendResult (μ : Type) where
  remaining : List Instruction
  mmu : μ
  events : List DispatchEvent
  rejected : Bool

/-- The inner `while (itInsn != itReq->second.end())` loop (lines
395-438): issue the entry's instructions to the MMU until one is
rejected; a rejection keeps the instruction (and the rest of the
entry) queued and reports `exceededLimits` for this type. -/
def sendEntry {μ : Type} (request : μ → Instruction → Bool × μ)
    (isStore : Bool) (due : Nat) :
    μ → List Instruction → SendResult μ
  | mmu, [] => ⟨[], mmu, [], false⟩
  | mmu, i :: rest =>
    let r := request mmu i
    if r.1 then
      let res := sendEntry request isStore due r.2 rest
      ⟨res.remaining, res.mmu, ⟨isStore, due, i, true⟩ :: res.events,
        res.rejected⟩
    else ⟨i :: rest, r.2, [⟨isStore, due, i, false⟩], true⟩

/-- The loop state: the two request queues, the two `exceededLimits`
flags, and the MMU. -/
structure DispatchState (μ : Type) where
  loadQ : List (Nat × List Instruction)
  storeQ : List (Nat × List Instruction)
  exceededLoad : Bool
  exceededStore : Bool
  mmu : μ

/-- The outer `while (requestLoadQueue_.size() + requestStoreQueue_.size()
> 0)` loop (lines 358-452), returning the final state and the admission
calls in program order.  Choice rule: the available queue with the
earliest due cycle, the store queue on a tie; stop when neither queue is
available or the chosen entry is not yet due. -/
def dispatchLoop {μ : Type} (read write : μ → Instruction → Bool × μ)
    (now : Nat) :
    Nat → DispatchState μ → DispatchState μ × List DispatchEvent
  | 0, s => (s, [])
  | fuel + 1, s =>
    if s.loadQ.length + s.storeQ.length = 0 then (s, [])
    else
      let earliestLoad : Bool × Nat :=
        match s.loadQ with
        | [] => (false, 0)
        | e :: _ => if s.exceededLoad then (false, 0) else (true, e.1)
      let earliestStore : Bool × Nat :=
        match s.storeQ with
        | [] => (false, 0)
        | e :: _ => if s.exceededStore then (false, 0) else (true, e.1)
      let chooseLoad : Bool :=
        if earliestLoad.1 then
          !(earliestStore.1 && decide (earliestStore.2 ≤ earliestLoad.2))
        else false
      if !earliestLoad.1 && !earliestStore.1 then (s, [])
      else if chooseLoad then
        match s.loadQ with
        | [] => (s, [])
        | (due, insns) :: qrest =>
          if due ≤ now then
            let r := sendEntry read false due s.mmu insns
            let s' : DispatchState μ :=
              { s with
                loadQ :=
                  if r.remaining.length = 0 then qrest
                  else (due, r.remaining) :: qrest,
                exceededLoad := s.exceededLoad || r.rejected,
                mmu := r.mmu }
            let next := dispatchLoop read write now fuel s'
            (next.1, r.events ++ next.2)
          else (s, [])
      else
        match s.storeQ with
        | [] => (s, [])
        | (due, insns) :: qrest =>
          if due ≤ now then
            let r := sendEntry write true due s.mmu insns
            let s' : DispatchState μ :=
              { s with
                storeQ :=
                  if r.remaining.length = 0 then qrest
                  else (due, r.remaining) :: qrest,
                exceededStore := s.exceededStore || r.rejected,
                mmu := r.mmu }
            let next := dispatchLoop read write now fuel s'
            (next.1, r.events ++ next.2)
          else (s, [])

/-- The dispatch phase of `tick()` on an LSQ state: `tickCounter_` has
just been incremented, and both `exceededLimits` flags start clear. -/
def tickDispatch {μ : Type} (read write : μ → Instruction → Bool × μ)
    (fuel : Nat) (s : State) (mmu : μ) :
    DispatchState μ × List DispatchEvent :=
  dispatchLoop read write (s.tickCounter + 1) fuel
    ⟨s.requestLoadQueue, s.requestStoreQueue, false, false, mmu⟩

/-- The ordering discipline claimed for two admission calls `e` made
before `e'` in the same tick: a load runs before a store only when
strictly earlier-due (stores win ties), a store before a load only when
at-or-before the load's due cycle, and a rejected call of a type is the
last call of that type. -/
def DispatchOrdered (e e' : DispatchEvent) : Prop :=
  (e.isStore = false → e'.isStore = true → e.due < e'.due) ∧
  (e.isStore = true → e'.isStore = false → e.due ≤ e'.due) ∧
  (e.isStore = e'.isStore → e.accepted = true)

/-- The specification of the per-tick dispatch trace from state `s`:
every admission call is for an entry due at or before `now` and drawn
from the corresponding request queue; an already-exceeded type makes no
further calls; and every pair of calls obeys `DispatchOrdered`. -/
def DispatchSpec {μ : Type} (now : Nat) (s : DispatchState μ)
    (evs : List DispatchEvent) : Prop :=
  (∀ e ∈ evs, e.due ≤ now ∧
    (e.isStore = false → e.due ∈ s.loadQ.map Prod.fst) ∧
    (e.isStore = true → e.due ∈ s.storeQ.map Prod.fst)) ∧
  (s.exceededLoad = true → ∀ e ∈ evs, e.isStore = true) ∧
  (s.exceededStore = true → ∀ e ∈ evs, e.isStore = false) ∧
  List.Pairwise DispatchOrdered evs

/-- Completeness of a tick's dispatch from initial state `s0` to final
state `f` with admission-call trace `evs`: a type whose
`exceededLimits` flag is still clear at the end has no ready (due)
entry left in its queue — its due requests were all dispatched — and a
set flag is explained by an actual rejected admission call of that
type in the trace (or was already set at entry).  In particular an MMU
rejection of one type never stops the other type's due requests from
being dispatched. -/
def DispatchComplete {μ : Type} (now : Nat) (s0 f : DispatchState μ)
    (evs : List DispatchEvent) : Prop :=
  (f.exceededLoad = false → ∀ p ∈ f.loadQ, now < p.1) ∧
  (f.exceededStore = false → ∀ p ∈ f.storeQ, now < p.1) ∧
  (f.exceededLoad = true → s0.exceededLoad = true ∨
    ∃ e ∈ evs, e.isStore = false ∧ e.accepted = false) ∧
  (f.exceededStore = true → s0.exceededStore = true ∨
    ∃ e ∈ evs, e.isStore = true ∧ e.accepted = false)

end LSQ

/-! ## MMU (MMU.cc)

The page-table collaborator `translate_(vaddr, tid)` is a parameter
returning one of the four fault-code outcomes decoded in
`issueRequest`.  Packets sent out of the data port are collected in a
`sent` log; packets whose translation is pending are parked in
`pendingRequests_`. -/

namespace MMU

/-- `simeng::memory::MemPacket` (MemPacket.cc): a request/response with
its data-abort (`faulty`), `ignored`, `untimed`, atomic and
instruction-read markers, its failure status for conditional stores,
and its payload bytes. -/
structure MemPacket where
  vaddr : Nat
  paddr : Nat
  size : Nat
  insnSeqId : Nat
  packetOrderId : Nat
  packetSplitId : Nat
  isWrite : Bool
  payload : List Nat
  atomic : Bool
  instrRead : Bool
  untimed : Bool
  faulty : Bool
  ignored : Bool
  failed : Bool
  deriving DecidableEq, Repr

/-- `MemPacket::createReadRequest`. -/
def MemPacket.createReadRequest (vaddr size seqId orderId : Nat) : MemPacket :=
  ⟨vaddr, 0, size, seqId, orderId, 0, false, [], false, false, false, false,
    false, false⟩

/-- `MemPacket::createWriteRequest`. -/
def MemPacket.createWriteRequest (vaddr size seqId orderId : Nat)
    (payload : List Nat) : MemPacket :=
  ⟨vaddr, 0, size, seqId, orderId, 0, true, payload, false, false, false,
    false, false, false⟩

/-- Modelled from the spec: `downAlign(addr, align)` (defined in a
utility header that is not part of the provided sources) — "the nearest
multiple of `align` at or below `addr`"; the spec's splitting predicate
is `downAlign(vaddr, cacheLineWidth) == downAlign(vaddr + size - 1,
cacheLineWidth)`. -/
def downAlign (addr align : Nat) : Nat := addr - addr % align

/-- `MMU::isAligned` (lines 317-334): the access does not cross a
cache-line boundary.  The source asserts `size != 0`. -/
def isAligned (clw : Nat) (t : MemoryAccessTarget) : Bool :=
  downAlign t.vaddr clw == downAlign (t.vaddr + t.size - 1) clw

/-- The splitting loop of `createReadMemPackets` (lines 347-364).
`fuel` bounds the iteration count; `target.size` steps always
suffice because each region is non-empty when the line width is
positive. -/
def createReadMemPacketsGo (clw seqId orderId : Nat) :
    Nat → Nat → Nat → Nat → List MemPacket
  | 0, _, _, _ => []
  | fuel + 1, nextAddr, remSize, splitId =>
    if remSize = 0 then []
    else
      let regSize := min (downAlign nextAddr clw + clw - nextAddr) remSize
      { MemPacket.createReadRequest nextAddr regSize seqId orderId with
          packetSplitId := splitId } ::
        createReadMemPacketsGo clw seqId orderId fuel (nextAddr + regSize)
          (remSize - regSize) (splitId + 1)

/-- `MMU::createReadMemPackets` (lines 336-368), as the list of packets
appended to the output vector.  (The source also pre-sizes
`readResponses_` to the split count; the response bookkeeping is
modelled in `portReceive`.) -/
def createReadMemPackets (clw : Nat) (t : MemoryAccessTarget)
    (seqId orderId : Nat) : List MemPacket :=
  if isAligned clw t then
    [MemPacket.createReadRequest t.vaddr t.size seqId orderId]
  else createReadMemPacketsGo clw seqId orderId t.size t.vaddr t.size 0

/-- The splitting loop of `createWriteMemPackets` (lines 384-402):
each split takes the leading `regSize` bytes of the remaining data. -/
def createWriteMemPacketsGo (clw seqId orderId : Nat) :
    Nat → Nat → Nat → Nat → List Nat → List MemPacket
  | 0, _, _, _, _ => []
  | fuel + 1, nextAddr, remSize, splitId, remData =>
    if remSize = 0 then []
    else
      let regSize := min (downAlign nextAddr clw + clw - nextAddr) remSize
      { MemPacket.createWriteRequest nextAddr regSize seqId orderId
          (remData.take regSize) with packetSplitId := splitId } ::
        createWriteMemPacketsGo clw seqId orderId fuel (nextAddr + regSize)
          (remSize - regSize) (splitId + 1) (remData.drop regSize)

/-- `MMU::createWriteMemPackets` (lines 370-404). -/
def createWriteMemPackets (clw : Nat) (t : MemoryAccessTarget)
    (data : List Nat) (seqId orderId : Nat) : List MemPacket :=
  if isAligned clw t then
    [MemPacket.createWriteRequest t.vaddr t.size seqId orderId data]
  else createWriteMemPacketsGo clw seqId orderId t.size t.vaddr t.size 0 data

/-- The packets of one `requestRead` call, one split list per generated
address, with ascending `packetOrderId`. -/
def readPacketsOf (clw : Nat) (uop : Instruction) : List MemPacket :=
  (uop.generatedAddresses.enum.map fun p =>
    createReadMemPackets clw p.2 uop.sequenceId p.1).flatten

/-- The packets of one instruction-carrying `requestWrite` call.  Each
data element is truncated to its target's size
(`std::vector<char> dt(wdata, wdata + target.size)`). -/
def writePacketsOf (clw : Nat) (uop : Instruction)
    (data : List (List Nat)) : List MemPacket :=
  ((uop.generatedAddresses.zip data).enum.map fun p =>
    createWriteMemPackets clw p.2.1 (p.2.2.take p.2.1.size) uop.sequenceId
      p.1).flatten

/-- The inner merge loop of `supplyLoadInsnData` (lines 433-445): stop
with no data on the first faulty split, otherwise concatenate. -/
def mergePayloadsGo : List MemPacket → List Nat → Option (List Nat)
  | [], merged => some merged
  | p :: ps, merged =>
    if p.faulty then none else mergePayloadsGo ps (merged ++ p.payload)

/-- One `packetOrderId`'s reassembly (lines 415-448): the value
supplied to the instruction for that address — `none` models the empty
`RegisterValue()` supplied on a data abort.  The source asserts the
packet vector is non-empty. -/
def mergeResponses (pktVec : List MemPacket) : Nat × Option (List Nat) :=
  match pktVec with
  | [] => (0, none)
  | p0 :: rest =>
    if p0.faulty then (p0.vaddr, none)
    else (p0.vaddr, mergePayloadsGo rest p0.payload)

/-- `MMU::supplyLoadInsnData` (lines 406-455), as the per-address
values supplied to the load, ordered by `packetOrderId` (outer list)
with each vector's packets ordered by `packetSplitId`. -/
def supplyLoadInsnData (responses : List (List MemPacket)) :
    List (Nat × Option (List Nat)) :=
  responses.map mergeResponses

/-- The packets' addresses are contiguous and ascending starting at
`a`: each packet begins exactly where the previous one ended. -/
def contiguousFrom : Nat → List MemPacket → Bool
  | _, [] => true
  | a, p :: ps => (p.vaddr == a) && contiguousFrom (a + p.size) ps

/-- The bandwidth/request-limit configuration (MMU.cc lines 10-42). -/
structure Config where
  loadBandwidth : Nat
  storeBandwidth : Nat
  requestLimit : Nat
  loadRequestLimit : Nat
  storeRequestLimit : Nat
  exclusive : Bool
  cacheLineWidth : Nat
  deriving Repr

/-- Outcome of `translate_(vaddr, tid)`, decoded from the fault-code
masks in `issueRequest`. -/
inductive Translation where
  | ok (paddr : Nat)
  | dataAbort
  | pending
  | ignored

/-- The MMU members touched by the modelled operations.
`pendingDataRequests_` is a `uint64_t` counter (arithmetic modulo
`2 ^ 64`).  `readResponses_[seq][order][split]` placement is modelled
as a per-sequence receive log: the claims below never observe the
inner order.  `sent` collects packets sent out of the data port. -/
structure State where
  loads : List (List MemPacket)
  stores : List (List MemPacket)
  pendingDataRequests : Nat
  requestedLoads : List (Nat × (Instruction × Nat))
  requestedStores : List (Nat × (Instruction × Nat × Bool))
  readResponses : List (Nat × List MemPacket)
  pendingRequests : List (Nat × List MemPacket)
  completedInstrReads : List ((Nat × Nat) × Option (List Nat) × Nat)
  sent : List MemPacket
  numInsnReads : Nat
  numDataReads : Nat
  numDataWrites : Nat

/-- An MMU state with nothing in flight. -/
def State.empty : State :=
  ⟨[], [], 0, [], [], [], [], [], [], 0, 0, 0⟩

/-- `uint64_t` decrement. -/
def dec64 (x : Nat) : Nat := (x + (2 ^ 64 - 1)) % 2 ^ 64

/-- `uint64_t` addition. -/
def add64 (x n : Nat) : Nat := (x + n) % 2 ^ 64

/-- The response-port receiver registered in `initPort` (lines
234-281). -/
def portReceive (s : State) (pkt : MemPacket) : State :=
  if pkt.instrRead then
    if pkt.faulty || pkt.ignored then
      { s with completedInstrReads := s.completedInstrReads ++
          [((pkt.vaddr, pkt.size), none, pkt.insnSeqId)] }
    else
      { s with completedInstrReads := s.completedInstrReads ++
          [((pkt.vaddr, pkt.size), some pkt.payload, pkt.insnSeqId)] }
  else
    let s1 := { s with pendingDataRequests := dec64 s.pendingDataRequests }
    if !pkt.isWrite then
      match mapFind pkt.insnSeqId s1.requestedLoads with
      | some (insn, remaining) =>
        let s2 := { s1 with
          readResponses := mapPushBack pkt.insnSeqId pkt s1.readResponses,
          requestedLoads :=
            mapInsert pkt.insnSeqId (insn, remaining - 1) s1.requestedLoads }
        if remaining - 1 = 0 then
          -- supplyLoadInsnData: data delivered to the instruction,
          -- entries removed from both maps
          { s2 with
            requestedLoads := mapErase pkt.insnSeqId s2.requestedLoads,
            readResponses := mapErase pkt.insnSeqId s2.readResponses }
        else s2
      | none => s1
    else
      match mapFind pkt.insnSeqId s1.requestedStores with
      | none => s1
      | some (insn, remaining, failed) =>
        { s1 with
          requestedStores :=
            mapInsert pkt.insnSeqId
              (insn, remaining - 1, failed || pkt.failed)
              s1.requestedStores }

/-- `MMU::issueRequest` (lines 283-315): translate, then fault, park,
mark-ignored or send. -/
def issueRequest (translate : Nat → Nat → Translation) (tid : Nat)
    (s : State) (pkt : MemPacket) : State :=
  match translate pkt.vaddr tid with
  | .dataAbort => portReceive s { pkt with faulty := true }
  | .pending =>
      { s with pendingRequests := mapPushBack pkt.vaddr pkt s.pendingRequests }
  | .ignored =>
      let p := { pkt with ignored := true }
      if p.instrRead then
        { s with sent := s.sent ++ [p], numInsnReads := s.numInsnReads + 1 }
      else if !p.isWrite then
        { s with sent := s.sent ++ [p], numDataReads := s.numDataReads + 1 }
      else
        { s with sent := s.sent ++ [p], numDataWrites := s.numDataWrites + 1 }
  | .ok paddr =>
      let p := { pkt with paddr := paddr }
      if p.instrRead then
        { s with sent := s.sent ++ [p], numInsnReads := s.numInsnReads + 1 }
      else if !p.isWrite then
        { s with sent := s.sent ++ [p], numDataReads := s.numDataReads + 1 }
      else
        { s with sent := s.sent ++ [p], numDataWrites := s.numDataWrites + 1 }

/-- `MMU::requestRead` (lines 109-139). -/
def requestRead (cfg : Config) (s : State) (uop : Instruction) :
    Bool × State :=
  if cfg.exclusive && s.stores.length != 0 then (false, s)
  else if !cfg.exclusive &&
      s.loads.length + s.stores.length ≥ cfg.requestLimit then (false, s)
  else if s.loads.length ≥ cfg.loadRequestLimit then (false, s)
  else
    let pkts0 := readPacketsOf cfg.cacheLineWidth uop
    let pkts :=
      if uop.isLoadReserved then pkts0.map fun p => { p with atomic := true }
      else pkts0
    (true, { s with
      loads := s.loads ++ [pkts],
      pendingDataRequests := add64 s.pendingDataRequests pkts.length,
      requestedLoads :=
        mapInsert uop.sequenceId (uop, pkts.length) s.requestedLoads })

/-- `MMU::requestWrite(uop, data)` (lines 141-179). -/
def requestWrite (cfg : Config) (s : State) (uop : Instruction)
    (data : List (List Nat)) : Bool × State :=
  if cfg.exclusive && s.loads.length != 0 then (false, s)
  else if !cfg.exclusive &&
      s.loads.length + s.stores.length ≥ cfg.requestLimit then (false, s)
  else if s.stores.length ≥ cfg.storeRequestLimit then (false, s)
  else
    let pkts0 := writePacketsOf cfg.cacheLineWidth uop data
    let pkts :=
      if uop.isStoreCond then pkts0.map fun p => { p with atomic := true }
      else pkts0
    (true, { s with
      stores := s.stores ++ [pkts],
      pendingDataRequests := add64 s.pendingDataRequests pkts.length,
      requestedStores :=
        mapInsert uop.sequenceId (uop, pkts.length, false)
          s.requestedStores })

/-- The untimed `MMU::requestWrite(target, data)` (lines 181-197):
split, fire immediately, then bump the pending-data counter. -/
def requestWriteUntimed (cfg : Config)
    (translate : Nat → Nat → Translation) (tid : Nat) (s : State)
    (t : MemoryAccessTarget) (data : List Nat) : State :=
  let pktVec :=
    createWriteMemPackets cfg.cacheLineWidth t (data.take t.size) 0 0
  let s1 := pktVec.foldl (issueRequest translate tid) s
  { s1 with
    pendingDataRequests := add64 s1.pendingDataRequests pktVec.length }

/-- `MMU::requestInstrRead` (lines 199-208): an untimed
instruction-read packet fired directly; the pending-data counter is
never touched. -/
def requestInstrRead (translate : Nat → Nat → Translation) (tid : Nat)
    (s : State) (t : MemoryAccessTarget) : State :=
  issueRequest translate tid s
    { MemPacket.createReadRequest t.vaddr t.size 0 0 with
        untimed := true, instrRead := true }

/-- `MMU::hasPendingRequests` (line 229). -/
def hasPendingRequests (s : State) : Bool := s.pendingDataRequests != 0

/-- Result of draining one instruction's packet vector in
`processRequests`. -/
structure ProcResult where
  state : State
  used : Nat
  remaining : List MemPacket
  issued : List MemPacket
  stopped : Bool

/-- The store-commit bookkeeping for the last packet of a store
instruction (lines 77-91): non-conditional stores become commit-ready
(an instruction mutation) and leave `requestedStores_`. -/
def lastStorePacket (s : State) (pkt : MemPacket) : State :=
  match mapFind pkt.insnSeqId s.requestedStores with
  | some (insn, _, _) =>
    if !insn.isStoreCond then
      { s with requestedStores := mapErase pkt.insnSeqId s.requestedStores }
    else s
  | none => s

/-- The inner packet loop of `processRequests` (lines 71-100). -/
def procInsn (translate : Nat → Nat → Translation) (tid : Nat)
    (isStore : Bool) (limit : Nat) :
    Nat → List MemPacket → State → ProcResult
  | used, [], s => ⟨s, used, [], [], false⟩
  | used, pkt :: rest, s =>
    if used + pkt.size ≤ limit then
      let s1 :=
        if isStore && rest.isEmpty then lastStorePacket s pkt else s
      let s2 := issueRequest translate tid s1 pkt
      let k := procInsn translate tid isStore limit (used + pkt.size) rest s2
      ⟨k.state, k.used, k.remaining, pkt :: k.issued, k.stopped⟩
    else ⟨s, used, pkt :: rest, [], true⟩

/-- The outer instruction loop of `processRequests` (lines 65-107). -/
def procAll (translate : Nat → Nat → Translation) (tid : Nat)
    (isStore : Bool) (limit : Nat) :
    List (List MemPacket) → Nat → State →
      State × List (List MemPacket) × List MemPacket
  | [], _, s => (s, [], [])
  | v :: vs, used, s =>
    let r := procInsn translate tid isStore limit used v s
    if r.stopped then (r.state, r.remaining :: vs, r.issued)
    else
      let k := procAll translate tid isStore limit vs r.used r.state
      (k.1, k.2.1, r.issued ++ k.2.2)

/-- `MMU::processRequests(isStore)` (lines 65-107), returning the new
state and the packets issued this call. -/
def processRequests (cfg : Config) (translate : Nat → Nat → Translation)
    (tid : Nat) (isStore : Bool) (s : State) : State × List MemPacket :=
  if isStore then
    let r := procAll translate tid true cfg.storeBandwidth s.stores 0 s
    ({ r.1 with stores := r.2.1 }, r.2.2)
  else
    let r := procAll translate tid false cfg.loadBandwidth s.loads 0 s
    ({ r.1 with loads := r.2.1 }, r.2.2)

/-- `MMU::tick` (lines 44-63), returning the new state, the store
packets issued and the load packets issued this cycle. -/
def tick (cfg : Config) (translate : Nat → Nat → Translation) (tid : Nat)
    (s : State) : State × List MemPacket × List MemPacket :=
  if cfg.exclusive then
    if s.stores.length != 0 then
      let r := processRequests cfg translate tid true s
      (r.1, r.2, [])
    else
      let r := processRequests cfg translate tid false s
      (r.1, [], r.2)
  else
    let r1 := processRequests cfg translate tid true s
    let r2 := processRequests cfg translate tid false r1.1
    (r2.1, r1.2, r2.2)

/-- The admission-control invariant claimed for the in-flight sets,
with the combined cap conditioned on non-exclusive mode (see the C4
counterexample). -/
abbrev Inv (cfg : Config) (s : State) : Prop :=
  s.loads.length ≤ cfg.loadRequestLimit ∧
  s.stores.length ≤ cfg.storeRequestLimit ∧
  (cfg.exclusive = false →
    s.loads.length + s.stores.length ≤ cfg.requestLimit) ∧
  (cfg.exclusive = true → s.loads.length = 0 ∨ s.stores.length = 0)

/-- Sum of the byte sizes of a packet list. -/
def bytesOf (pkts : List MemPacket) : Nat :=
  pkts.foldl (fun n p => n + p.size) 0

/-- The property C4 claims of the admission functions as stated:
every cap, including the combined `requestLimit`, is enforced
unconditionally. -/
abbrev ClaimedCaps (cfg : Config) (s : State) : Prop :=
  s.loads.length ≤ cfg.loadRequestLimit ∧
  s.stores.length ≤ cfg.storeRequestLimit ∧
  s.loads.length + s.stores.length ≤ cfg.requestLimit ∧
  (cfg.exclusive = true → s.loads.length = 0 ∨ s.stores.length = 0)

end MMU

/-! ## DispatchIssueUnit (DispatchIssueUnit.cc)

Only the operand-forwarding machinery is modelled: `forwardOperands`'s
per-dependent branch (lines 235-265) and the two service loops at the
top of `tick()` (lines 63-114).  The scoreboard and the register file
are parameters. -/

namespace DI

/-- The slice of a dependent micro-op this unit reads and writes:
`supplyOperand` slots (`none` = still missing), `getOperandRegisters()`
and `getConsumerGroup()`.  `canExecute()` holds once every operand slot
is filled. -/
structure DIInstr where
  operands : List (Option Nat)
  operandRegisters : List Register
  consumerGroup : Nat
  deriving DecidableEq, Repr

/-- `Instruction::supplyOperand(index, value)`. -/
def supplyOperand (u : DIInstr) (idx : Nat) (v : Nat) : DIInstr :=
  { u with operands := u.operands.set idx (some v) }

/-- `Instruction::canExecute()`: all operands supplied. -/
def canExecute (u : DIInstr) : Bool := u.operands.all Option.isSome

/-- A `dependencyEntry`: the uop, its allocated issue port and the
waiting operand slot. -/
structure Entry where
  uop : DIInstr
  port : Nat
  operandIndex : Nat
  deriving DecidableEq, Repr

/-- The unit state touched by forwarding: the per-reservation-station,
per-port ready queues, `portMapping_`, `waitingInstructions_` (due
tick, entry, forwarded value), `dependantInstructions_` and the
`ticks_` counter. -/
structure DIState where
  readyQueues : List (List (List DIInstr))
  portMapping : List (Nat × Nat)
  waitingInstructions : List (Nat × Entry × Nat)
  dependantInstructions : List Entry
  ticks : Nat
  deriving DecidableEq, Repr

/-- Replace the `i`-th element by `f` of itself. -/
def listModify {α : Type} (f : α → α) : Nat → List α → List α
  | _, [] => []
  | 0, x :: xs => f x :: xs
  | n + 1, x :: xs => x :: listModify f n xs

/-- Push a now-ready uop onto
`reservationStations_[rs].ports[pi].ready` through `portMapping_`.
(The C++ indexes unconditionally; an out-of-range port is a no-op
here and never arises in the modelled states.) -/
def pushReady (s : DIState) (port : Nat) (u : DIInstr) : DIState :=
  match s.portMapping.get? port with
  | none => s
  | some (rs, pi) =>
    { s with
      readyQueues :=
        listModify (fun ports => listModify (fun q => q ++ [u]) pi ports)
          rs s.readyQueues }

/-- The source register a dependent entry waits on
(`getOperandRegisters()[operandIndex]`). -/
def entryReg (e : Entry) : Register :=
  (e.uop.operandRegisters.get? e.operandIndex).getD ⟨0, 0⟩

/-- The per-dependent branch of `forwardOperands` (lines 242-265):
`forwardLatency` is `canForward(producerGroup, consumerGroup)` when
bypass latency is enabled and `0` otherwise; latency `0` supplies and
enqueues if now executable, latency `-1` parks the entry in
`dependantInstructions_`, and any other latency parks it in
`waitingInstructions_` due at `ticks_ + forwardLatency` (a `uint64_t`
sum with a possibly negative `int8_t`, hence the wraparound). -/
def forwardEntry (enableBypass : Bool) (canForward : Nat → Nat → Int)
    (producerGroup v : Nat) (e : Entry) (s : DIState) : DIState :=
  let latency : Int :=
    if enableBypass then canForward producerGroup e.uop.consumerGroup else 0
  if latency = 0 then
    let u := supplyOperand e.uop e.operandIndex v
    if canExecute u then pushReady s e.port u else s
  else if latency = -1 then
    { s with dependantInstructions := s.dependantInstructions ++ [e] }
  else
    { s with waitingInstructions := s.waitingInstructions ++
        [((((s.ticks : Int) + latency) % 2 ^ 64).toNat, e, v)] }

/-- The `waitingInstructions_` service loop of `tick()` (lines 63-84):
an entry whose due tick equals `ticks_` is supplied its stored value,
enqueued if now executable, and removed; all others stay. -/
def scanWaiting : List (Nat × Entry × Nat) → DIState → DIState
  | [], s => s
  | (due, e, v) :: rest, s =>
    if due = s.ticks then
      let u := supplyOperand e.uop e.operandIndex v
      scanWaiting rest (if canExecute u then pushReady s e.port u else s)
    else
      scanWaiting rest
        { s with waitingInstructions := s.waitingInstructions ++
            [(due, e, v)] }

/-- The `dependantInstructions_` service loop of `tick()` (lines
87-114): when the scoreboard marks the entry's register ready, the
register file is read and supplied and the entry is removed; either
way a now-executable uop is pushed to its ready queue (the C++ checks
`canExecute` even when nothing was supplied). -/
def scanDependants (scoreboard : Register → Bool)
    (regFile : Register → Nat) : List Entry → DIState → DIState
  | [], s => s
  | e :: rest, s =>
    if scoreboard (entryReg e) then
      let u := supplyOperand e.uop e.operandIndex (regFile (entryReg e))
      scanDependants scoreboard regFile rest
        (if canExecute u then pushReady s e.port u else s)
    else
      let s1 := if canExecute e.uop then pushReady s e.port e.uop else s
      scanDependants scoreboard regFile rest
        { s1 with dependantInstructions :=
            s1.dependantInstructions ++ [e] }

end DI

/-! Concrete fixtures used by the witness theorems. -/

/-- An Exclusive configuration whose combined `requestLimit` (1) is
below the per-type load limit (2). -/
def c4Cfg : MMU.Config := ⟨64, 64, 1, 2, 1, true, 64⟩

/-- The same limits with `Exclusive` off. -/
def c4CfgB : MMU.Config := ⟨64, 64, 1, 2, 1, false, 64⟩

/-- A first 4-byte load at address 0. -/
def c4Load1 : Instruction :=
  { Instruction.blank with
    sequenceId := 1, isLoad := true, generatedAddresses := [⟨0, 4⟩] }

/-- A second 4-byte load at address 8. -/
def c4Load2 : Instruction :=
  { Instruction.blank with
    sequenceId := 2, isLoad := true, generatedAddresses := [⟨8, 4⟩] }

/-- A committable store at the ROB head (sequence id 1, 4 bytes at
address 100). -/
def c3Store : Instruction :=
  { Instruction.blank with
    sequenceId := 1, isStore := true, canCommit := true,
    generatedAddresses := [⟨100, 4⟩] }

/-- A requested load (sequence id 2) overlapping `c3Store`, at program
counter 500. -/
def c3Load : Instruction :=
  { Instruction.blank with
    sequenceId := 2, isLoad := true, generatedAddresses := [⟨100, 4⟩],
    instructionAddress := 500 }

/-- LSQ state in which committing `c3Store` detects `c3Load`. -/
def c3Lsq : LSQ.State :=
  { LSQ.State.empty with
    storeQueue := [(c3Store, [])], requestedLoads := [(2, (c3Load, 0))] }

/-- ROB state with `c3Store` at the head. -/
def c3Rob : ROB.State := ⟨[c3Store], false, 0, 0⟩

/-- A committed store writing 4 bytes at address 100. -/
def c1Store : Instruction :=
  { Instruction.blank with
    sequenceId := 1, isStore := true, generatedAddresses := [⟨100, 4⟩] }

/-- A younger in-flight load reading 2 bytes at address 102. -/
def c1Load : Instruction :=
  { Instruction.blank with
    sequenceId := 2, isLoad := true, generatedAddresses := [⟨102, 2⟩],
    instructionAddress := 80 }

/-- LSQ state with `c1Store` at the store-queue head and `c1Load`
requested. -/
def c1State : LSQ.State :=
  { LSQ.State.empty with
    storeQueue := [(c1Store, [])], requestedLoads := [(2, (c1Load, 0))] }

/-- An older store writing 4 bytes at address 100 (sequence id 1). -/
def c2Store : Instruction :=
  { Instruction.blank with
    sequenceId := 1, isStore := true, generatedAddresses := [⟨100, 4⟩] }

/-- A younger load of the same 4 bytes (sequence id 2), LSQ latency 3. -/
def c2Load : Instruction :=
  { Instruction.blank with
    sequenceId := 2, isLoad := true, generatedAddresses := [⟨100, 4⟩],
    lsqLatency := 3 }

/-- LSQ state at tick 7 with `c2Store` still in the store queue. -/
def c2State : LSQ.State :=
  { LSQ.State.empty with storeQueue := [(c2Store, [])], tickCounter := 7 }

/-- A toy MMU for the dispatch witness: a credit counter that accepts
requests while credit remains. -/
def c7Request (m : Nat) (_ : Instruction) : Bool × Nat :=
  if 0 < m then (true, m - 1) else (false, m)

/-- A queued load request. -/
def c7L1 : Instruction :=
  { Instruction.blank with sequenceId := 10, isLoad := true }

/-- A second queued load request, due later. -/
def c7L2 : Instruction :=
  { Instruction.blank with sequenceId := 12, isLoad := true }

/-- A queued store request due the same cycle as `c7L1`. -/
def c7S1 : Instruction :=
  { Instruction.blank with sequenceId := 11, isStore := true }

/-- LSQ state at tick 2 with loads due at cycles 1 and 5 and a store
due at cycle 1. -/
def c7State : LSQ.State :=
  { LSQ.State.empty with
    tickCounter := 2,
    requestLoadQueue := [(1, [c7L1]), (5, [c7L2])],
    requestStoreQueue := [(1, [c7S1])] }

/-- An admission hook that rejects every request (an exhausted MMU). -/
def c7RejectAll (m : Nat) (_ : Instruction) : Bool × Nat := (false, m)

/-- An admission hook that accepts every request. -/
def c7AcceptAll (m : Nat) (_ : Instruction) : Bool × Nat := (true, m)

/-- LSQ state at tick 2 with one load due at cycle 1 and one store due
at cycle 2: the load is chosen first and rejected, after which the
store must still be dispatched. -/
def c7StateB : LSQ.State :=
  { LSQ.State.empty with
    tickCounter := 2,
    requestLoadQueue := [(1, [c7L1])],
    requestStoreQueue := [(2, [c7S1])] }

/-- A store micro-op with no generated addresses. -/
def c9Store : Instruction := { Instruction.blank with isStore := true }

/-- LSQ state with `c9Store` queued and a stale `violatingLoad_`. -/
def c9State : LSQ.State :=
  { LSQ.State.empty with
    storeQueue := [(c9Store, [])], violatingLoad := some Instruction.blank }

/-- A dependent uop with one missing operand, waiting on register
`(0, 7)`, consumer group 4. -/
def c8Uop : DI.DIInstr := ⟨[none], [⟨0, 7⟩], 4⟩

/-- Its dependency entry on issue port 0, operand slot 0. -/
def c8Entry : DI.Entry := ⟨c8Uop, 0, 0⟩

/-- A dispatch/issue state at tick 5 with one empty ready queue. -/
def c8St : DI.DIState := ⟨[[[]]], [(0, 0)], [], [], 5⟩

/-- A 4-byte data-read response packet (sequence id 5). -/
def c10Pkt : MMU.MemPacket := MMU.MemPacket.createReadRequest 0 4 5 0

/-- An MMU state with two outstanding data packets. -/
def c10State : MMU.State :=
  { MMU.State.empty with pendingDataRequests := 2 }

/-! # Theorems -/

theorem mapFind_eq_none_of_forall_lt {α : Type} {k : Nat}
    {m : List (Nat × α)} (h : ∀ p ∈ m, k < p.1) : mapFind k m = none := by
  induction m with
  | nil => rfl
  | cons p rest ih =>
    have hk : k ≠ p.1 := Nat.ne_of_lt (h p (by simp))
    simp only [mapFind, if_neg hk]
    exact ih fun q hq => h q (by simp [hq])

theorem mem_mapPushBack {α : Type} {k : Nat} {v : α} {m : List (Nat × List α)}
    {p : Nat × List α} (hp : p ∈ mapPushBack k v m) :
    p.1 = k ∨ ∃ q ∈ m, p.1 = q.1 := by
  induction m with
  | nil =>
    simp only [mapPushBack, List.mem_singleton] at hp
    simp [hp]
  | cons q rest ih =>
    by_cases h1 : k < q.1
    · simp only [mapPushBack, if_pos h1] at hp
      rcases List.mem_cons.mp hp with h | h
      · simp [h]
      · rcases List.mem_cons.mp h with h' | h'
        · exact Or.inr ⟨q, by simp, by rw [h']⟩
        · exact Or.inr ⟨p, by simp [h'], rfl⟩
    · by_cases h2 : k = q.1
      · simp only [mapPushBack, if_neg h1, if_pos h2] at hp
        rcases List.mem_cons.mp hp with h | h
        · exact Or.inl (by rw [h, h2])
        · exact Or.inr ⟨p, by simp [h], rfl⟩
      · simp only [mapPushBack, if_neg h1, if_neg h2] at hp
        rcases List.mem_cons.mp hp with h | h
        · exact Or.inr ⟨q, by simp, by rw [h]⟩
        · rcases ih h with h' | h'
          · exact Or.inl h'
          · rcases h' with ⟨r, hr, hr1⟩
            exact Or.inr ⟨r, by simp [hr], hr1⟩

theorem mapSorted_mapPushBack {α : Type} {k : Nat} {v : α}
    {m : List (Nat × List α)} (hs : mapSorted m) :
    mapSorted (mapPushBack k v m) := by
  induction m with
  | nil => simp [mapPushBack, mapSorted]
  | cons q rest ih =>
    rw [mapSorted, List.pairwise_cons] at hs
    by_cases h1 : k < q.1
    · rw [mapSorted]
      simp only [mapPushBack, if_pos h1]
      refine List.Pairwise.cons ?_ (List.Pairwise.cons hs.1 hs.2)
      intro b hb
      rcases List.mem_cons.mp hb with h | h
      · rw [h]; exact h1
      · exact Nat.lt_trans h1 (hs.1 b h)
    · by_cases h2 : k = q.1
      · rw [mapSorted]
        simp only [mapPushBack, if_neg h1, if_pos h2]
        exact List.Pairwise.cons hs.1 hs.2
      · rw [mapSorted]
        simp only [mapPushBack, if_neg h1, if_neg h2]
        refine List.Pairwise.cons ?_ (ih hs.2)
        intro b hb
        rcases mem_mapPushBack hb with h | h
        · rw [h]; omega
        · rcases h with ⟨c, hc, hc1⟩
          rw [hc1]; exact hs.1 c hc

theorem mapFind_mapPushBack {α : Type} (k' k : Nat) (v : α)
    {m : List (Nat × List α)} (hs : mapSorted m) :
    mapFind k' (mapPushBack k v m) =
      if k' = k then some ((mapFind k m).getD [] ++ [v])
      else mapFind k' m := by
  induction m with
  | nil => by_cases hk : k' = k <;> simp [mapPushBack, mapFind, hk]
  | cons q rest ih =>
    rw [mapSorted, List.pairwise_cons] at hs
    have ihr := ih hs.2
    by_cases h1 : k < q.1
    · have hkq : ¬k = q.1 := Nat.ne_of_lt h1
      have hnone : mapFind k rest = none :=
        mapFind_eq_none_of_forall_lt fun p hp => Nat.lt_trans h1 (hs.1 p hp)
      simp [mapPushBack, if_pos h1, mapFind, hkq, hnone]
    · by_cases h2 : k = q.1
      · subst h2
        simp only [mapPushBack, if_neg h1, if_pos rfl]
        by_cases hq : k' = q.1 <;> simp [mapFind, hq]
      · have hqk : ¬q.1 = k := fun h => h2 h.symm
        simp only [mapPushBack, if_neg h1, if_neg h2]
        by_cases hq : k' = q.1
        · have hk : ¬k' = k := fun h => h2 (h.symm.trans hq)
          simp [mapFind, hq, hk, hqk]
        · simp [mapFind, hq, ihr, h2]

theorem mapFind_mapEmplace {α : Type} (k' k : Nat) (v : α)
    {m : List (Nat × α)} (hs : mapSorted m) :
    mapFind k' (mapEmplace k v m) =
      if k' = k then some ((mapFind k m).getD v)
      else mapFind k' m := by
  induction m with
  | nil => by_cases hk : k' = k <;> simp [mapEmplace, mapFind, hk]
  | cons q rest ih =>
    rw [mapSorted, List.pairwise_cons] at hs
    have ihr := ih hs.2
    by_cases h1 : k < q.1
    · have hkq : ¬k = q.1 := Nat.ne_of_lt h1
      have hnone : mapFind k rest = none :=
        mapFind_eq_none_of_forall_lt fun p hp => Nat.lt_trans h1 (hs.1 p hp)
      simp [mapEmplace, if_pos h1, mapFind, hkq, hnone]
    · by_cases h2 : k = q.1
      · subst h2
        simp only [mapEmplace, if_neg h1, if_pos rfl]
        by_cases hq : k' = q.1 <;> simp [mapFind, hq]
      · have hqk : ¬q.1 = k := fun h => h2 h.symm
        simp only [mapEmplace, if_neg h1, if_neg h2]
        by_cases hq : k' = q.1
        · have hk : ¬k' = k := fun h => h2 (h.symm.trans hq)
          simp [mapFind, hq, hk, hqk]
        · simp [mapFind, hq, ihr, h2]

theorem mapFind_mapErase {α : Type} (k' k : Nat)
    {m : List (Nat × α)} (hs : mapSorted m) :
    mapFind k' (mapErase k m) =
      if k' = k then none else mapFind k' m := by
  induction m with
  | nil => by_cases hk : k' = k <;> simp [mapErase, mapFind, hk]
  | cons q rest ih =>
    rw [mapSorted, List.pairwise_cons] at hs
    have ihr := ih hs.2
    by_cases h2 : k = q.1
    · subst h2
      have hnone : mapFind q.1 rest = none :=
        mapFind_eq_none_of_forall_lt fun p hp => hs.1 p hp
      simp only [mapErase, if_pos rfl]
      by_cases hq : k' = q.1 <;> simp [mapFind, hq, hnone]
    · have hqk : ¬q.1 = k := fun h => h2 h.symm
      simp only [mapErase, if_neg h2]
      by_cases hq : k' = q.1
      · have hk : ¬k' = k := fun h => h2 (h.symm.trans hq)
        simp [mapFind, hq, hk, hqk]
      · simp [mapFind, hq, ihr, h2]

/-! ### LoadStoreQueue: commitStore -/

/-- The scan of `commitStore` never changes a saturated accumulator: once
the oldest violating load is recorded, every strictly younger load is
skipped. -/
theorem scanViolations_saturate (uop v : Instruction) :
    ∀ loads : List (Nat × (Instruction × Nat)),
      (∀ p ∈ loads, v.sequenceId < p.2.1.sequenceId) →
      LSQ.scanViolations uop loads (some v) = some v := by
  intro loads
  induction loads with
  | nil => intro _; rfl
  | cons p rest ih =>
    intro h
    obtain ⟨k, ld, n⟩ := p
    have hlt : v.sequenceId < ld.sequenceId := h (k, (ld, n)) (by simp)
    simp only [LSQ.scanViolations, hlt, decide_True, if_pos]
    exact ih fun q hq => h q (List.mem_cons_of_mem _ hq)

/-- Over a key-sorted `requestedLoads_` whose keys are the loads'
sequence ids, the `commitStore` scan returns the first entry satisfying
`violMatch`. -/
theorem scanViolations_eq_find (uop : Instruction) :
    ∀ loads : List (Nat × (Instruction × Nat)),
      mapSorted loads →
      (∀ p ∈ loads, p.1 = p.2.1.sequenceId) →
      LSQ.scanViolations uop loads none =
        (loads.find? fun p => LSQ.violMatch uop p.2.1).map (fun p => p.2.1) := by
  intro loads
  induction loads with
  | nil => intro _ _; rfl
  | cons p rest ih =>
    intro hs hk
    obtain ⟨k, ld, n⟩ := p
    rw [mapSorted, List.pairwise_cons] at hs
    by_cases hm : LSQ.violMatch uop ld = true
    · have hm' := hm
      unfold LSQ.violMatch at hm'
      have hsat : ∀ q ∈ rest, ld.sequenceId < q.2.1.sequenceId := by
        intro q hq
        have h1 := hs.1 q hq
        have h2 := hk q (List.mem_cons_of_mem _ hq)
        have h3 := hk (k, (ld, n)) (by simp)
        simp only at h1 h2 h3
        omega
      have hm2 := @List.find?_cons_of_pos _
        (fun q : Nat × Instruction × Nat => LSQ.violMatch uop q.2.1)
        (k, ld, n) rest hm
      rw [hm2]
      simp only [LSQ.scanViolations, hm', if_pos, Option.map_some']
      exact scanViolations_saturate uop ld rest hsat
    · have hm' : ¬(decide (ld.sequenceId ≠ uop.sequenceId) &&
          LSQ.overlapsAny uop.generatedAddresses ld.generatedAddresses) = true := by
        unfold LSQ.violMatch at hm
        exact hm
      have hm2 := @List.find?_cons_of_neg _
        (fun q : Nat × Instruction × Nat => LSQ.violMatch uop q.2.1)
        (k, ld, n) rest hm
      rw [hm2]
      simp only [LSQ.scanViolations, hm']
      simp only [Bool.not_eq_true] at hm'
      simp only [hm', if_neg, Bool.false_eq_true, if_false]
      exact ih hs.2 fun q hq => hk q (List.mem_cons_of_mem _ hq)

/-- `List.find?` over a key-sorted association list returns a matching
member with the least key. -/
theorem find?_min_key {α : Type} {f : Nat × α → Bool} :
    ∀ {m : List (Nat × α)}, mapSorted m →
      ∀ {p : Nat × α}, m.find? f = some p →
        p ∈ m ∧ f p = true ∧ ∀ q ∈ m, f q = true → p.1 ≤ q.1 := by
  intro m
  induction m with
  | nil =>
    intro _ p hp
    exact absurd hp (by simp)
  | cons q rest ih =>
    intro hs p hp
    rw [mapSorted, List.pairwise_cons] at hs
    by_cases hf : f q = true
    · rw [List.find?_cons_of_pos _ hf] at hp
      injection hp with hp
      subst hp
      refine ⟨by simp, hf, ?_⟩
      intro r hr _
      rcases List.mem_cons.mp hr with h | h
      · rw [h]
      · exact Nat.le_of_lt (hs.1 r h)
    · rw [List.find?_cons_of_neg _ hf] at hp
      obtain ⟨hmem, hfp, hmin⟩ := ih hs.2 hp
      refine ⟨List.mem_cons_of_mem _ hmem, hfp, ?_⟩
      intro r hr hfr
      rcases List.mem_cons.mp hr with h | h
      · exact absurd (h ▸ hfr) hf
      · exact hmin r h hfr

/-- With a non-empty address list, `commitStore` returns whether the
scan found a violating load, and records that load in
`violatingLoad_`. -/
theorem commitStore_eval (s : LSQ.State) (uop : Instruction)
    (hne : uop.generatedAddresses ≠ []) :
    (LSQ.commitStore s uop).1 =
      (LSQ.scanViolations uop s.requestedLoads none).isSome ∧
    (LSQ.commitStore s uop).2.violatingLoad =
      LSQ.scanViolations uop s.requestedLoads none := by
  have h0 : ¬(uop.generatedAddresses.length = 0) := by
    simpa [List.length_eq_zero] using hne
  cases hfind : mapFind uop.sequenceId s.conflictionMap <;>
    simp [LSQ.commitStore, h0, hfind]

/-- **C1.** For a `commitStore(S)` call on a store with at least one
generated address, in a reachable LSQ state (the `requestedLoads_` map
is key-sorted with keys equal to the loads' sequence ids, and — by
in-order commit — no requested load is older than the committing
store): the call returns `true` iff some requested load younger than
the store has a generated address overlapping one of the store's, and
`getViolatingLoad()` (the `violatingLoad_` field) afterwards holds the
oldest such load. -/
theorem lsq_commitStore_violation_detection
    (s : LSQ.State) (uop : Instruction)
    (hne : uop.generatedAddresses ≠ [])
    (hsorted : mapSorted s.requestedLoads)
    (hkeys : ∀ p ∈ s.requestedLoads, p.1 = p.2.1.sequenceId)
    (hyoung : ∀ p ∈ s.requestedLoads, uop.sequenceId ≤ p.2.1.sequenceId) :
    ((LSQ.commitStore s uop).1 = true ↔
      ∃ p ∈ s.requestedLoads,
        uop.sequenceId < p.2.1.sequenceId ∧
        LSQ.overlapsAny uop.generatedAddresses p.2.1.generatedAddresses =
          true) ∧
    ((LSQ.commitStore s uop).1 =
      ((LSQ.commitStore s uop).2.violatingLoad).isSome) ∧
    (∀ v, (LSQ.commitStore s uop).2.violatingLoad = some v →
      (∃ p ∈ s.requestedLoads, p.2.1 = v) ∧
      uop.sequenceId < v.sequenceId ∧
      LSQ.overlapsAny uop.generatedAddresses v.generatedAddresses = true ∧
      ∀ q ∈ s.requestedLoads,
        uop.sequenceId < q.2.1.sequenceId →
        LSQ.overlapsAny uop.generatedAddresses q.2.1.generatedAddresses =
          true →
        v.sequenceId ≤ q.2.1.sequenceId) := by
  obtain ⟨he1, he2⟩ := commitStore_eval s uop hne
  have hscan := scanViolations_eq_find uop s.requestedLoads hsorted hkeys
  refine ⟨?_, by rw [he1, he2], ?_⟩
  · rw [he1, hscan, Option.isSome_map']
    rw [List.find?_isSome]
    constructor
    · rintro ⟨p, hp, hmatch⟩
      simp only [LSQ.violMatch, Bool.and_eq_true, decide_eq_true_eq] at hmatch
      refine ⟨p, hp, ?_, hmatch.2⟩
      exact Nat.lt_of_le_of_ne (hyoung p hp) fun h => hmatch.1 h.symm
    · rintro ⟨p, hp, hlt, hov⟩
      refine ⟨p, hp, ?_⟩
      simp only [LSQ.violMatch, Bool.and_eq_true, decide_eq_true_eq]
      exact ⟨Nat.ne_of_gt hlt, hov⟩
  · intro v hv
    rw [he2, hscan] at hv
    rcases Option.map_eq_some'.mp hv with ⟨p, hfind, hpv⟩
    obtain ⟨hmem, hfp, hmin⟩ := find?_min_key hsorted hfind
    simp only [LSQ.violMatch, Bool.and_eq_true, decide_eq_true_eq] at hfp
    refine ⟨⟨p, hmem, hpv⟩, ?_, ?_, ?_⟩
    · rw [← hpv]
      exact Nat.lt_of_le_of_ne (hyoung p hmem) fun h => hfp.1 h.symm
    · rw [← hpv]; exact hfp.2
    · intro q hq hlt hov
      have hfq : LSQ.violMatch uop q.2.1 = true := by
        simp only [LSQ.violMatch, Bool.and_eq_true, decide_eq_true_eq]
        exact ⟨Nat.ne_of_gt hlt, hov⟩
      have := hmin q hq hfq
      have h1 := hkeys p hmem
      have h2 := hkeys q hq
      rw [← hpv]
      omega

/-- Witness for C1: the concrete store `c1Store` commits against
requested load `c1Load`; a violation is reported. -/
theorem lsq_commitStore_violation_detection_witness :
    (LSQ.commitStore c1State c1Store).1 = true := by
  have h := lsq_commitStore_violation_detection c1State c1Store
    (by decide) (by decide) (by decide) (by decide)
  exact h.1.mpr ⟨(2, (c1Load, 0)), by decide, by decide, by decide⟩

/-! ### LoadStoreQueue: conflicting loads (C2) -/

theorem mem_mapEmplace {α : Type} {k : Nat} {v : α} {m : List (Nat × α)}
    {p : Nat × α} (hp : p ∈ mapEmplace k v m) :
    p.1 = k ∨ ∃ q ∈ m, p.1 = q.1 := by
  induction m with
  | nil =>
    simp only [mapEmplace, List.mem_singleton] at hp
    simp [hp]
  | cons q rest ih =>
    by_cases h1 : k < q.1
    · simp only [mapEmplace, if_pos h1] at hp
      rcases List.mem_cons.mp hp with h | h
      · simp [h]
      · rcases List.mem_cons.mp h with h' | h'
        · exact Or.inr ⟨q, by simp, by rw [h']⟩
        · exact Or.inr ⟨p, by simp [h'], rfl⟩
    · by_cases h2 : k = q.1
      · simp only [mapEmplace, if_neg h1, if_pos h2] at hp
        rcases List.mem_cons.mp hp with h | h
        · exact Or.inr ⟨q, by simp, by rw [h]⟩
        · exact Or.inr ⟨p, by simp [h], rfl⟩
      · simp only [mapEmplace, if_neg h1, if_neg h2] at hp
        rcases List.mem_cons.mp hp with h | h
        · exact Or.inr ⟨q, by simp, by rw [h]⟩
        · rcases ih h with h' | h'
          · exact Or.inl h'
          · rcases h' with ⟨r, hr, hr1⟩
            exact Or.inr ⟨r, by simp [hr], hr1⟩

theorem mapSorted_mapEmplace {α : Type} {k : Nat} {v : α}
    {m : List (Nat × α)} (hs : mapSorted m) :
    mapSorted (mapEmplace k v m) := by
  induction m with
  | nil => simp [mapEmplace, mapSorted]
  | cons q rest ih =>
    rw [mapSorted, List.pairwise_cons] at hs
    by_cases h1 : k < q.1
    · rw [mapSorted]
      simp only [mapEmplace, if_pos h1]
      refine List.Pairwise.cons ?_ (List.Pairwise.cons hs.1 hs.2)
      intro b hb
      rcases List.mem_cons.mp hb with h | h
      · rw [h]; exact h1
      · exact Nat.lt_trans h1 (hs.1 b h)
    · by_cases h2 : k = q.1
      · rw [mapSorted]
        simp only [mapEmplace, if_neg h1, if_pos h2]
        exact List.Pairwise.cons hs.1 hs.2
      · rw [mapSorted]
        simp only [mapEmplace, if_neg h1, if_neg h2]
        refine List.Pairwise.cons ?_ (ih hs.2)
        intro b hb
        rcases mem_mapEmplace hb with h | h
        · rw [h]; omega
        · rcases h with ⟨c, hc, hc1⟩
          rw [hc1]; exact hs.1 c hc

/-- Membership in a per-key list survives later `push_back`s into the
map. -/
theorem mem_mapFind_mapPushBack_mono {α : Type} {k' k : Nat} {v x : α}
    {m : List (Nat × List α)} (hs : mapSorted m)
    (hx : x ∈ (mapFind k' m).getD []) :
    x ∈ (mapFind k' (mapPushBack k v m)).getD [] := by
  rw [mapFind_mapPushBack k' k v hs]
  by_cases hk : k' = k
  · subst hk
    simp only [if_pos rfl, Option.getD_some]
    exact List.mem_append_left _ hx
  · rwa [if_neg hk]

theorem foldl_mapPushBack_sorted {α : Type} (key : α → Nat) :
    ∀ (l : List α) (q : List (Nat × List α)), mapSorted q →
      mapSorted (l.foldl (fun acc y => mapPushBack (key y) y acc) q) := by
  intro l
  induction l with
  | nil => intro q hq; exact hq
  | cons y rest ih =>
    intro q hq
    exact ih _ (mapSorted_mapPushBack hq)

theorem foldl_mapPushBack_mono {α : Type} (key : α → Nat) :
    ∀ (l : List α) (q : List (Nat × List α)), mapSorted q →
      ∀ (k : Nat) (x : α), x ∈ (mapFind k q).getD [] →
        x ∈ (mapFind k
            (l.foldl (fun acc y => mapPushBack (key y) y acc) q)).getD [] := by
  intro l
  induction l with
  | nil => intro q _ k x hx; exact hx
  | cons y rest ih =>
    intro q hq k x hx
    exact ih _ (mapSorted_mapPushBack hq) k x
      (mem_mapFind_mapPushBack_mono hq hx)

/-- Every element folded into the map by `push_back` is found under its
key afterwards. -/
theorem foldl_mapPushBack_mem {α : Type} (key : α → Nat) :
    ∀ (l : List α) (q : List (Nat × List α)), mapSorted q →
      ∀ x ∈ l,
        x ∈ (mapFind (key x)
            (l.foldl (fun acc y => mapPushBack (key y) y acc) q)).getD [] := by
  intro l
  induction l with
  | nil => intro q _ x hx; exact absurd hx (by simp)
  | cons y rest ih =>
    intro q hq x hx
    rcases List.mem_cons.mp hx with h | h
    · subst h
      refine foldl_mapPushBack_mono key rest _ (mapSorted_mapPushBack hq)
        (key x) x ?_
      rw [mapFind_mapPushBack (key x) (key x) x hq, if_pos rfl,
        Option.getD_some]
      exact List.mem_append_right _ (by simp)
    · exact ih _ (mapSorted_mapPushBack hq) x h

theorem foldl_mapEmplace_sorted {α β : Type} (key : α → Nat) (val : α → β) :
    ∀ (l : List α) (m : List (Nat × β)), mapSorted m →
      mapSorted (l.foldl (fun acc y => mapEmplace (key y) (val y) acc) m) := by
  intro l
  induction l with
  | nil => intro m hm; exact hm
  | cons y rest ih =>
    intro m hm
    exact ih _ (mapSorted_mapEmplace hm)

/-- A key not emplaced by the fold keeps its binding. -/
theorem foldl_mapEmplace_preserve {α β : Type} (key : α → Nat) (val : α → β) :
    ∀ (l : List α) (m : List (Nat × β)), mapSorted m →
      ∀ (k : Nat), (∀ y ∈ l, key y ≠ k) →
        mapFind k (l.foldl (fun acc y => mapEmplace (key y) (val y) acc) m) =
          mapFind k m := by
  intro l
  induction l with
  | nil => intro m _ k _; rfl
  | cons y rest ih =>
    intro m hm k hk
    have hstep : mapFind k (mapEmplace (key y) (val y) m) = mapFind k m := by
      rw [mapFind_mapEmplace k (key y) (val y) hm,
        if_neg fun h => hk y (by simp) h.symm]
    rw [List.foldl_cons,
      ih _ (mapSorted_mapEmplace hm) k fun z hz => hk z (by simp [hz]),
      hstep]

/-- Emplacing a list of entries with pairwise-distinct keys, none of
which is present, binds each element to its key. -/
theorem foldl_mapEmplace_find {α β : Type} (key : α → Nat) (val : α → β) :
    ∀ (l : List α) (m : List (Nat × β)), mapSorted m →
      (l.map key).Nodup →
      (∀ y ∈ l, mapFind (key y) m = none) →
      ∀ x ∈ l,
        mapFind (key x)
            (l.foldl (fun acc y => mapEmplace (key y) (val y) acc) m) =
          some (val x) := by
  intro l
  induction l with
  | nil => intro m _ _ _ x hx; exact absurd hx (by simp)
  | cons y rest ih =>
    intro m hm hnd habs x hx
    rw [List.map_cons, List.nodup_cons] at hnd
    rcases List.mem_cons.mp hx with h | h
    · subst h
      rw [List.foldl_cons,
        foldl_mapEmplace_preserve key val rest _ (mapSorted_mapEmplace hm)
          (key x) (fun z hz hzx => hnd.1 (by
            rw [← hzx]; exact List.mem_map_of_mem key hz)),
        mapFind_mapEmplace (key x) (key x) (val x) hm, if_pos rfl,
        habs x (by simp), Option.getD_none]
    · rw [List.foldl_cons]
      refine ih _ (mapSorted_mapEmplace hm) hnd.2 ?_ x h
      intro z hz
      rw [mapFind_mapEmplace (key z) (key y) (val y) hm]
      rw [if_neg fun hzy => hnd.1 (by
        rw [← hzy]; exact List.mem_map_of_mem key hz)]
      exact habs z (by simp [hz])

/-- The conflict found by `startLoad`'s reverse store-queue walk is an
older store with an overlapping address still in the store queue. -/
theorem findConflict_spec {seqId : Nat} {lds : List MemoryAccessTarget}
    {sq : List LSQ.StoreEntry} {B : Instruction}
    (h : LSQ.findConflict seqId lds sq = some B) :
    B.sequenceId < seqId ∧ LSQ.overlapsAny B.generatedAddresses lds = true ∧
      ∃ d, (B, d) ∈ sq := by
  unfold LSQ.findConflict at h
  rcases Option.map_eq_some'.mp h with ⟨e, hfind, he⟩
  have hpred := List.find?_some hfind
  simp only [Bool.and_eq_true, decide_eq_true_eq] at hpred
  have hmem : e ∈ sq := List.mem_reverse.mp (List.mem_of_find?_eq_some hfind)
  exact ⟨he ▸ hpred.1, he ▸ hpred.2, e.2, by rw [← he]; simpa using hmem⟩

/-- **C2.** A load whose addresses overlap those of an older store in
the store queue is not issued by `startLoad`: the request queues and
`requestedLoads_` are untouched and the load is recorded in
`conflictionMap_` under the blocking (youngest older overlapping)
store.  When that store later commits via `commitStore` at tick `now`,
each blocked load is scheduled in `requestLoadQueue_` at cycle
`now + 1 + lsqLatency` and registered in `requestedLoads_`, and the
confliction entry is erased. -/
theorem lsq_conflicting_load_delayed :
    (∀ (inorder : Bool) (s : LSQ.State) (insn B : Instruction),
      insn.generatedAddresses ≠ [] →
      LSQ.findConflict insn.sequenceId insn.generatedAddresses s.storeQueue =
        some B →
      (LSQ.startLoad inorder s insn).requestLoadQueue = s.requestLoadQueue ∧
      (LSQ.startLoad inorder s insn).requestedLoads = s.requestedLoads ∧
      B.sequenceId < insn.sequenceId ∧
      LSQ.overlapsAny B.generatedAddresses insn.generatedAddresses = true ∧
      (∃ d, (B, d) ∈ s.storeQueue) ∧
      (mapSorted s.conflictionMap →
        insn ∈
          (mapFind B.sequenceId
            (LSQ.startLoad inorder s insn).conflictionMap).getD [])) ∧
    (∀ (s : LSQ.State) (uop : Instruction) (ldVec : List Instruction),
      uop.generatedAddresses ≠ [] →
      mapFind uop.sequenceId s.conflictionMap = some ldVec →
      mapSorted s.conflictionMap →
      mapSorted s.requestLoadQueue →
      mapSorted s.requestedLoads →
      (ldVec.map Instruction.sequenceId).Nodup →
      (∀ ld ∈ ldVec, mapFind ld.sequenceId s.requestedLoads = none) →
      (∀ ld ∈ ldVec,
        ld ∈ (mapFind (s.tickCounter + 1 + ld.lsqLatency)
            ((LSQ.commitStore s uop).2.requestLoadQueue)).getD [] ∧
        mapFind ld.sequenceId ((LSQ.commitStore s uop).2.requestedLoads) =
          some (ld, 0)) ∧
      mapFind uop.sequenceId ((LSQ.commitStore s uop).2.conflictionMap) =
        none) := by
  constructor
  · intro inorder s insn B hne hconf
    have hlen : ¬(insn.generatedAddresses.length = 0) := by
      simpa [List.length_eq_zero] using hne
    obtain ⟨hseq, hov, hmem⟩ := findConflict_spec hconf
    refine ⟨?_, ?_, hseq, hov, hmem, ?_⟩
    · cases inorder <;> simp [LSQ.startLoad, hlen, hconf]
    · cases inorder <;> simp [LSQ.startLoad, hlen, hconf]
    · intro hsorted
      have hself :
          insn ∈ (mapFind B.sequenceId
            (mapPushBack B.sequenceId insn s.conflictionMap)).getD [] := by
        rw [mapFind_mapPushBack B.sequenceId B.sequenceId insn hsorted,
          if_pos rfl, Option.getD_some]
        exact List.mem_append_right _ (by simp)
      cases inorder <;> simpa [LSQ.startLoad, hlen, hconf] using hself
  · intro s uop ldVec hne hfind hscm hsrl hsreq hnd habs
    have hlen : ¬(uop.generatedAddresses.length = 0) := by
      simpa [List.length_eq_zero] using hne
    refine ⟨?_, ?_⟩
    · intro ld hld
      constructor
      · have := foldl_mapPushBack_mem
          (fun ld : Instruction => s.tickCounter + 1 + ld.lsqLatency) ldVec
          s.requestLoadQueue hsrl ld hld
        simpa [LSQ.commitStore, hlen, hfind] using this
      · have := foldl_mapEmplace_find Instruction.sequenceId
          (fun ld : Instruction => (ld, (0 : Nat))) ldVec s.requestedLoads
          hsreq hnd habs ld hld
        simpa [LSQ.commitStore, hlen, hfind] using this
    · have := mapFind_mapErase uop.sequenceId uop.sequenceId
        (m := s.conflictionMap) hscm
      simp only [if_pos rfl] at this
      simpa [LSQ.commitStore, hlen, hfind] using this

/-- Witness for C2: `c2Load` conflicts with `c2Store`; after the store
commits at tick 7 the load is scheduled for cycle 11. -/
theorem lsq_conflicting_load_delayed_witness :
    (LSQ.startLoad true c2State c2Load).requestedLoads =
      c2State.requestedLoads ∧
    c2Load ∈ (mapFind 11
        ((LSQ.commitStore (LSQ.startLoad true c2State c2Load)
          c2Store).2.requestLoadQueue)).getD [] := by
  have h1 := lsq_conflicting_load_delayed.1 true c2State c2Load c2Store
    (by decide) (by decide)
  have h2 := lsq_conflicting_load_delayed.2
    (LSQ.startLoad true c2State c2Load) c2Store [c2Load]
    (by decide) (by decide) (by decide) (by decide) (by decide)
    (by decide) (by decide)
  exact ⟨h1.2.1, (h2.1 c2Load (by simp)).1⟩

/-! ### ReorderBuffer: commit stops on a memory-order violation (C3) -/

/-- If `commitStore` reports a violation, a violating load was
recorded. -/
theorem commitStore_true_violating (s : LSQ.State) (uop : Instruction)
    (h : (LSQ.commitStore s uop).1 = true) :
    ∃ v, (LSQ.commitStore s uop).2.violatingLoad = some v := by
  by_cases haddr : uop.generatedAddresses = []
  · rw [show LSQ.commitStore s uop =
        (false, { s with storeQueue := s.storeQueue.tail }) by
      simp [LSQ.commitStore, haddr]] at h
    exact absurd h (by simp)
  · obtain ⟨h1, h2⟩ := commitStore_eval s uop haddr
    rw [h1] at h
    rw [h2]
    exact Option.isSome_iff_exists.mp h

/-- If a commit walk ends with `shouldFlush_` set while it started
clear, the walk committed `k` instructions normally, then popped a
store whose `commitStore` recorded a violating load, stopped there, and
took the flush-after id and PC from that load. -/
theorem commitLoop_flush {ρ : Type} (ratCommit : ρ → Register → ρ) :
    ∀ (fuel count : Nat) (rob : ROB.State) (lsq : LSQ.State) (rat : ρ),
      rob.shouldFlush = false →
      (ROB.commitLoop ratCommit fuel count rob lsq rat).rob.shouldFlush =
        true →
      ∃ k S load,
        rob.buffer.get? k = some S ∧ S.isStore = true ∧
        (ROB.commitLoop ratCommit fuel count rob lsq rat).n =
          count + k + 1 ∧
        (ROB.commitLoop ratCommit fuel count rob lsq rat).rob.buffer =
          rob.buffer.drop (k + 1) ∧
        (ROB.commitLoop ratCommit fuel count rob lsq rat).lsq.violatingLoad =
          some load ∧
        (ROB.commitLoop ratCommit fuel count rob lsq rat).rob.flushAfter =
          (load.sequenceId + (2 ^ 64 - 1)) % 2 ^ 64 ∧
        (ROB.commitLoop ratCommit fuel count rob lsq rat).rob.pc =
          load.instructionAddress := by
  intro fuel
  induction fuel with
  | zero =>
    intro count rob lsq rat h0 hres
    rw [ROB.commitLoop] at hres
    exact absurd (h0 ▸ hres) (by simp)
  | succ fuel ih =>
    intro count rob lsq rat h0 hres
    rcases hb : rob.buffer with _ | ⟨uop, rest⟩
    · rw [ROB.commitLoop, hb] at hres
      exact absurd (h0 ▸ hres) (by simp)
    · by_cases hc : uop.canCommit
      · by_cases hex : uop.exceptionEncountered
        · rw [ROB.commitLoop, hb] at hres
          simp [hc, hex] at hres
          exact absurd (h0 ▸ hres) (by simp)
        · by_cases hst : uop.isStore
          · by_cases hviol : (LSQ.commitStore lsq uop).1 = true
            · obtain ⟨load, hload⟩ := commitStore_true_violating lsq uop hviol
              refine ⟨0, uop, load, by simp [hb], hst, ?_⟩
              rw [ROB.commitLoop, hb]
              simp [hc, hex, hst, hviol, hload, List.drop]
            · have hres' :
                  ROB.commitLoop ratCommit (fuel + 1) count rob lsq rat =
                    ROB.commitLoop ratCommit fuel (count + 1)
                      { rob with buffer := rest }
                      (LSQ.commitStore lsq uop).2
                      (uop.destinationRegisters.foldl ratCommit rat) := by
                rw [ROB.commitLoop, hb]
                simp [hc, hex, hst, hviol]
              rw [hres'] at hres ⊢
              obtain ⟨k, S, load, hget, hS, hn, hbuf, hv, hfa, hpc⟩ :=
                ih (count + 1) { rob with buffer := rest }
                  (LSQ.commitStore lsq uop).2
                  (uop.destinationRegisters.foldl ratCommit rat) h0 hres
              refine ⟨k + 1, S, load, ?_, hS, by omega, ?_, hv, hfa, hpc⟩
              · simpa using hget
              · rw [hbuf]
                simp [List.drop_succ_cons]
          · have hres' :
                ROB.commitLoop ratCommit (fuel + 1) count rob lsq rat =
                  ROB.commitLoop ratCommit fuel (count + 1)
                    { rob with buffer := rest }
                    (if uop.isLoad then LSQ.commitLoad lsq uop else lsq)
                    (uop.destinationRegisters.foldl ratCommit rat) := by
              rw [ROB.commitLoop, hb]
              by_cases hld : uop.isLoad <;> simp [hc, hex, hst, hld]
            rw [hres'] at hres ⊢
            obtain ⟨k, S, load, hget, hS, hn, hbuf, hv, hfa, hpc⟩ :=
              ih (count + 1) { rob with buffer := rest }
                (if uop.isLoad then LSQ.commitLoad lsq uop else lsq)
                (uop.destinationRegisters.foldl ratCommit rat) h0 hres
            refine ⟨k + 1, S, load, ?_, hS, by omega, ?_, hv, hfa, hpc⟩
            · simpa using hget
            · rw [hbuf]
              simp [List.drop_succ_cons]
      · rw [ROB.commitLoop, hb] at hres
        simp [hc] at hres
        exact absurd (h0 ▸ hres) (by simp)

/-- **C3.** When, during `ReorderBuffer::commit(maxCommitSize)`, the
head store's `commitStore` reports a violation, the walk stops
immediately after popping that store: the return count stops there,
`shouldFlush()` returns `true`, `getFlushSeqId()` is the violating
load's sequence id minus one (`uint64_t` arithmetic), and
`getFlushAddress()` is the violating load's instruction address.  The
first conjunct settles the head-store case exactly (even when more
committable instructions follow); the second shows every flushing walk
has this shape. -/
theorem rob_commit_violation_stops :
    (∀ (ρ : Type) (ratCommit : ρ → Register → ρ) (m : Nat)
        (rob : ROB.State) (lsq : LSQ.State) (rat : ρ)
        (uop : Instruction) (rest : List Instruction),
      rob.buffer = uop :: rest → 1 ≤ m →
      uop.canCommit = true → uop.exceptionEncountered = false →
      uop.isStore = true → (LSQ.commitStore lsq uop).1 = true →
      ∃ load, (LSQ.commitStore lsq uop).2.violatingLoad = some load ∧
        (ROB.commit ratCommit m rob lsq rat).n = 1 ∧
        (ROB.commit ratCommit m rob lsq rat).rob.buffer = rest ∧
        (ROB.commit ratCommit m rob lsq rat).rob.shouldFlush = true ∧
        (ROB.commit ratCommit m rob lsq rat).rob.flushAfter =
          (load.sequenceId + (2 ^ 64 - 1)) % 2 ^ 64 ∧
        (1 ≤ load.sequenceId → load.sequenceId < 2 ^ 64 →
          (ROB.commit ratCommit m rob lsq rat).rob.flushAfter =
            load.sequenceId - 1) ∧
        (ROB.commit ratCommit m rob lsq rat).rob.pc =
          load.instructionAddress ∧
        (ROB.commit ratCommit m rob lsq rat).lsq =
          (LSQ.commitStore lsq uop).2) ∧
    (∀ (ρ : Type) (ratCommit : ρ → Register → ρ) (m : Nat)
        (rob : ROB.State) (lsq : LSQ.State) (rat : ρ),
      (ROB.commit ratCommit m rob lsq rat).rob.shouldFlush = true →
      ∃ k S load,
        rob.buffer.get? k = some S ∧ S.isStore = true ∧
        (ROB.commit ratCommit m rob lsq rat).n = k + 1 ∧
        (ROB.commit ratCommit m rob lsq rat).rob.buffer =
          rob.buffer.drop (k + 1) ∧
        (ROB.commit ratCommit m rob lsq rat).lsq.violatingLoad = some load ∧
        (ROB.commit ratCommit m rob lsq rat).rob.flushAfter =
          (load.sequenceId + (2 ^ 64 - 1)) % 2 ^ 64 ∧
        (ROB.commit ratCommit m rob lsq rat).rob.pc =
          load.instructionAddress) := by
  constructor
  · intro ρ ratCommit m rob lsq rat uop rest hb hm hc hex hst hviol
    obtain ⟨load, hload⟩ := commitStore_true_violating lsq uop hviol
    have hfuel : ∃ f, min m rob.buffer.length = f + 1 := by
      refine ⟨min m rob.buffer.length - 1, ?_⟩
      rw [hb]
      simp only [List.length_cons]
      omega
    obtain ⟨f, hf⟩ := hfuel
    have hres :
        ROB.commit ratCommit m rob lsq rat =
          ⟨1,
            { buffer := rest, shouldFlush := true,
              flushAfter := (load.sequenceId + (2 ^ 64 - 1)) % 2 ^ 64,
              pc := load.instructionAddress },
            (LSQ.commitStore lsq uop).2,
            uop.destinationRegisters.foldl ratCommit rat, []⟩ := by
      rw [ROB.commit, hf, ROB.commitLoop]
      simp [hb, hc, hex, hst, hviol, hload]
    refine ⟨load, hload, ?_, ?_, ?_, ?_, ?_, ?_, ?_⟩ <;> rw [hres]
    · intro h1 h2
      show (load.sequenceId + (2 ^ 64 - 1)) % 2 ^ 64 = load.sequenceId - 1
      omega
  · intro ρ ratCommit m rob lsq rat hres
    have h := commitLoop_flush ratCommit (min m rob.buffer.length) 0
      { rob with shouldFlush := false } lsq rat rfl hres
    simpa [ROB.commit] using h

/-- Witness for C3: committing `c3Rob` (head store `c3Store`) against
`c3Lsq` flushes to `c3Load`: flush-after id 1, PC 500. -/
theorem rob_commit_violation_stops_witness :
    (ROB.commit (fun (u : Unit) (_ : Register) => u) 4 c3Rob c3Lsq
        ()).rob.shouldFlush = true ∧
    (ROB.commit (fun (u : Unit) (_ : Register) => u) 4 c3Rob c3Lsq
        ()).rob.pc = 500 := by
  obtain ⟨load, hload, _, _, hflush, _, _, hpc, _⟩ :=
    rob_commit_violation_stops.1 Unit (fun u _ => u) 4 c3Rob c3Lsq ()
      c3Store [] (by rfl) (by omega) (by decide) (by decide) (by decide)
      (by decide)
  have : load = c3Load := by
    have : some load = some c3Load := by rw [← hload]; decide
    exact Option.some_injective _ this.symm ▸ rfl
  subst this
  exact ⟨hflush, hpc.trans (by decide)⟩

/-! ### LoadStoreQueue: per-tick request dispatch (C7) -/

/-- Events produced by draining one queue entry: all of the entry's
type and due cycle; all accepted when no rejection occurred; only the
last can be unaccepted. -/
theorem sendEntry_events {μ : Type} (request : μ → Instruction → Bool × μ)
    (isStore : Bool) (due : Nat) :
    ∀ (insns : List Instruction) (mmu : μ),
      (∀ e ∈ (LSQ.sendEntry request isStore due mmu insns).events,
        e.isStore = isStore ∧ e.due = due) ∧
      ((LSQ.sendEntry request isStore due mmu insns).rejected = false →
        ∀ e ∈ (LSQ.sendEntry request isStore due mmu insns).events,
          e.accepted = true) ∧
      List.Pairwise (fun e _ => e.accepted = true)
        (LSQ.sendEntry request isStore due mmu insns).events := by
  intro insns
  induction insns with
  | nil =>
    intro mmu
    refine ⟨?_, ?_, ?_⟩ <;> simp [LSQ.sendEntry]
  | cons i rest ih =>
    intro mmu
    obtain ⟨ih1, ih2, ih3⟩ := ih (request mmu i).2
    by_cases hr : (request mmu i).1 = true
    · have hred : LSQ.sendEntry request isStore due mmu (i :: rest) =
          ⟨(LSQ.sendEntry request isStore due (request mmu i).2 rest).remaining,
            (LSQ.sendEntry request isStore due (request mmu i).2 rest).mmu,
            ⟨isStore, due, i, true⟩ ::
              (LSQ.sendEntry request isStore due (request mmu i).2 rest).events,
            (LSQ.sendEntry request isStore due
              (request mmu i).2 rest).rejected⟩ := by
        simp [LSQ.sendEntry, hr]
      rw [hred]
      refine ⟨?_, ?_, ?_⟩
      · intro e he
        rcases List.mem_cons.mp he with h | h
        · rw [h]; exact ⟨rfl, rfl⟩
        · exact ih1 e h
      · intro hrj e he
        rcases List.mem_cons.mp he with h | h
        · rw [h]
        · exact ih2 hrj e h
      · exact List.Pairwise.cons (fun e' _ => rfl) ih3
    · have hred : LSQ.sendEntry request isStore due mmu (i :: rest) =
          ⟨i :: rest, (request mmu i).2, [⟨isStore, due, i, false⟩], true⟩ := by
        simp [LSQ.sendEntry, hr]
      rw [hred]
      refine ⟨?_, ?_, ?_⟩
      · intro e he
        rcases List.mem_singleton.mp he with h
        rw [h]; exact ⟨rfl, rfl⟩
      · intro hrj
        exact absurd hrj (by simp)
      · exact List.pairwise_singleton _ _

/-- The head key of a sorted association list is minimal. -/
theorem mapSorted_head_le {α : Type} {e : Nat × α} {rest : List (Nat × α)}
    (hs : mapSorted (e :: rest)) :
    ∀ k ∈ ((e :: rest).map Prod.fst), e.1 ≤ k := by
  intro k hk
  rcases List.mem_map.mp hk with ⟨p, hp, hpk⟩
  rcases List.mem_cons.mp hp with h | h
  · rw [← hpk, h]
  · rw [mapSorted, List.pairwise_cons] at hs
    rw [← hpk]
    exact Nat.le_of_lt (hs.1 p h)

/-- The empty trace satisfies the dispatch specification. -/
theorem dispatchSpec_nil {μ : Type} (now : Nat) (s : LSQ.DispatchState μ) :
    LSQ.DispatchSpec now s [] :=
  ⟨by simp, by simp, by simp, List.Pairwise.nil⟩

/-- One load-side iteration of the dispatch loop preserves the
specification: the drained entry's events are loads at its due cycle,
and the recursive trace (from the updated state) stays within the
claim's discipline. -/
theorem dispatch_step_load {μ : Type} (read write : μ → Instruction → Bool × μ)
    (now fuel : Nat) (s : LSQ.DispatchState μ) (due : Nat)
    (insns : List Instruction) (qrest : List (Nat × List Instruction))
    (hq : s.loadQ = (due, insns) :: qrest)
    (hsl : mapSorted s.loadQ) (hss : mapSorted s.storeQ)
    (hnow : due ≤ now) (hexl : s.exceededLoad = false)
    (hnostore : ∀ k ∈ s.storeQ.map Prod.fst, s.exceededStore = true ∨ due < k)
    (ih : ∀ t : LSQ.DispatchState μ, mapSorted t.loadQ → mapSorted t.storeQ →
      LSQ.DispatchSpec now t (LSQ.dispatchLoop read write now fuel t).2)
    (s' : LSQ.DispatchState μ)
    (hloadq : s'.loadQ =
      if (LSQ.sendEntry read false due s.mmu insns).remaining.length = 0
      then qrest
      else (due, (LSQ.sendEntry read false due s.mmu insns).remaining) ::
        qrest)
    (hstoreq : s'.storeQ = s.storeQ)
    (hexlrej : (LSQ.sendEntry read false due s.mmu insns).rejected = true →
      s'.exceededLoad = true)
    (hexs' : s'.exceededStore = s.exceededStore) :
    LSQ.DispatchSpec now s
      ((LSQ.sendEntry read false due s.mmu insns).events ++
        (LSQ.dispatchLoop read write now fuel s').2) := by
  obtain ⟨hb1, hb2, hb3⟩ := sendEntry_events read false due insns s.mmu
  have htail : mapSorted qrest := by
    have h := hsl
    rw [hq, mapSorted, List.pairwise_cons] at h
    exact h.2
  have hheads : ∀ b ∈ qrest, due < b.1 := by
    have h := hsl
    rw [hq, mapSorted, List.pairwise_cons] at h
    exact h.1
  have hsl' : mapSorted s'.loadQ := by
    rw [hloadq]
    by_cases hrem :
        (LSQ.sendEntry read false due s.mmu insns).remaining.length = 0
    · rw [if_pos hrem]; exact htail
    · rw [if_neg hrem]
      exact List.Pairwise.cons hheads htail
  have hss' : mapSorted s'.storeQ := by rw [hstoreq]; exact hss
  obtain ⟨hn1, hn2, hn3, hn4⟩ := ih s' hsl' hss'
  have hkeysub : ∀ k, k ∈ s'.loadQ.map Prod.fst →
      k ∈ s.loadQ.map Prod.fst := by
    intro k hk
    rw [hloadq] at hk
    rw [hq]
    by_cases hrem :
        (LSQ.sendEntry read false due s.mmu insns).remaining.length = 0
    · rw [if_pos hrem] at hk
      simp only [List.map_cons, List.mem_cons]
      exact Or.inr hk
    · rw [if_neg hrem] at hk
      simp only [List.map_cons, List.mem_cons] at hk ⊢
      exact hk
  refine ⟨?_, ?_, ?_, ?_⟩
  · intro e he
    rcases List.mem_append.mp he with h | h
    · obtain ⟨hes, hed⟩ := hb1 e h
      refine ⟨hed ▸ hnow, fun _ => ?_, fun hc => ?_⟩
      · rw [hed, hq]; simp
      · rw [hes] at hc; exact absurd hc (by simp)
    · obtain ⟨hd, hl, hsm⟩ := hn1 e h
      exact ⟨hd, fun he' => hkeysub _ (hl he'),
        fun he' => hstoreq ▸ hsm he'⟩
  · intro hc
    rw [hexl] at hc
    exact absurd hc (by simp)
  · intro hst e he
    rcases List.mem_append.mp he with h | h
    · exact (hb1 e h).1
    · exact hn3 (by rw [hexs']; exact hst) e h
  · rw [List.pairwise_append]
    refine ⟨?_, hn4, ?_⟩
    · refine List.Pairwise.imp_of_mem ?_ hb3
      intro a b ha hb hacc
      obtain ⟨has, _⟩ := hb1 a ha
      obtain ⟨hbs, _⟩ := hb1 b hb
      refine ⟨fun _ h => ?_, fun h _ => ?_, fun _ => hacc⟩
      · rw [hbs] at h; exact absurd h (by simp)
      · rw [has] at h; exact absurd h (by simp)
    · intro a ha b hb
      obtain ⟨has, hadue⟩ := hb1 a ha
      obtain ⟨hbd, hbl, hbs⟩ := hn1 b hb
      refine ⟨?_, ?_, ?_⟩
      · intro _ hbst
        have hbk := hbs hbst
        rw [hstoreq] at hbk
        rcases hnostore b.due hbk with hexc | hlt
        · have hall := hn3 (by rw [hexs']; exact hexc) b hb
          rw [hbst] at hall
          exact absurd hall (by simp)
        · rw [hadue]; exact hlt
      · intro h _
        rw [has] at h
        exact absurd h (by simp)
      · intro hsame
        by_cases hacc : a.accepted = true
        · exact hacc
        · exfalso
          have hrj : (LSQ.sendEntry read false due s.mmu insns).rejected =
              true := by
            by_contra hrj
            have hrj' :
                (LSQ.sendEntry read false due s.mmu insns).rejected = false := by
              revert hrj
              cases (LSQ.sendEntry read false due s.mmu insns).rejected <;> simp
            exact hacc (hb2 hrj' a ha)
          have hall := hn2 (hexlrej hrj) b hb
          rw [← hsame, has] at hall
          exact absurd hall (by simp)

/-- One store-side iteration of the dispatch loop preserves the
specification. -/
theorem dispatch_step_store {μ : Type}
    (read write : μ → Instruction → Bool × μ)
    (now fuel : Nat) (s : LSQ.DispatchState μ) (due : Nat)
    (insns : List Instruction) (qrest : List (Nat × List Instruction))
    (hq : s.storeQ = (due, insns) :: qrest)
    (hsl : mapSorted s.loadQ) (hss : mapSorted s.storeQ)
    (hnow : due ≤ now) (hexs : s.exceededStore = false)
    (hnoload : ∀ k ∈ s.loadQ.map Prod.fst, s.exceededLoad = true ∨ due ≤ k)
    (ih : ∀ t : LSQ.DispatchState μ, mapSorted t.loadQ → mapSorted t.storeQ →
      LSQ.DispatchSpec now t (LSQ.dispatchLoop read write now fuel t).2)
    (s' : LSQ.DispatchState μ)
    (hstoreq : s'.storeQ =
      if (LSQ.sendEntry write true due s.mmu insns).remaining.length = 0
      then qrest
      else (due, (LSQ.sendEntry write true due s.mmu insns).remaining) ::
        qrest)
    (hloadq : s'.loadQ = s.loadQ)
    (hexsrej : (LSQ.sendEntry write true due s.mmu insns).rejected = true →
      s'.exceededStore = true)
    (hexl' : s'.exceededLoad = s.exceededLoad) :
    LSQ.DispatchSpec now s
      ((LSQ.sendEntry write true due s.mmu insns).events ++
        (LSQ.dispatchLoop read write now fuel s').2) := by
  obtain ⟨hb1, hb2, hb3⟩ := sendEntry_events write true due insns s.mmu
  have htail : mapSorted qrest := by
    have h := hss
    rw [hq, mapSorted, List.pairwise_cons] at h
    exact h.2
  have hheads : ∀ b ∈ qrest, due < b.1 := by
    have h := hss
    rw [hq, mapSorted, List.pairwise_cons] at h
    exact h.1
  have hss'' : mapSorted s'.storeQ := by
    rw [hstoreq]
    by_cases hrem :
        (LSQ.sendEntry write true due s.mmu insns).remaining.length = 0
    · rw [if_pos hrem]; exact htail
    · rw [if_neg hrem]
      exact List.Pairwise.cons hheads htail
  have hsl' : mapSorted s'.loadQ := by rw [hloadq]; exact hsl
  obtain ⟨hn1, hn2, hn3, hn4⟩ := ih s' hsl' hss''
  have hkeysub : ∀ k, k ∈ s'.storeQ.map Prod.fst →
      k ∈ s.storeQ.map Prod.fst := by
    intro k hk
    rw [hstoreq] at hk
    rw [hq]
    by_cases hrem :
        (LSQ.sendEntry write true due s.mmu insns).remaining.length = 0
    · rw [if_pos hrem] at hk
      simp only [List.map_cons, List.mem_cons]
      exact Or.inr hk
    · rw [if_neg hrem] at hk
      simp only [List.map_cons, List.mem_cons] at hk ⊢
      exact hk
  refine ⟨?_, ?_, ?_, ?_⟩
  · intro e he
    rcases List.mem_append.mp he with h | h
    · obtain ⟨hes, hed⟩ := hb1 e h
      refine ⟨hed ▸ hnow, fun hc => ?_, fun _ => ?_⟩
      · rw [hes] at hc; exact absurd hc (by simp)
      · rw [hed, hq]; simp
    · obtain ⟨hd, hl, hsm⟩ := hn1 e h
      exact ⟨hd, fun he' => hloadq ▸ hl he',
        fun he' => hkeysub _ (hsm he')⟩
  · intro hlt e he
    rcases List.mem_append.mp he with h | h
    · exact (hb1 e h).1
    · exact hn2 (by rw [hexl']; exact hlt) e h
  · intro hc
    rw [hexs] at hc
    exact absurd hc (by simp)
  · rw [List.pairwise_append]
    refine ⟨?_, hn4, ?_⟩
    · refine List.Pairwise.imp_of_mem ?_ hb3
      intro a b ha hb hacc
      obtain ⟨has, _⟩ := hb1 a ha
      obtain ⟨hbs, _⟩ := hb1 b hb
      refine ⟨fun h _ => ?_, fun _ h => ?_, fun _ => hacc⟩
      · rw [has] at h; exact absurd h (by simp)
      · rw [hbs] at h; exact absurd h (by simp)
    · intro a ha b hb
      obtain ⟨has, hadue⟩ := hb1 a ha
      obtain ⟨hbd, hbl, hbs⟩ := hn1 b hb
      refine ⟨?_, ?_, ?_⟩
      · intro h _
        rw [has] at h
        exact absurd h (by simp)
      · intro _ hbld
        have hbk := hbl hbld
        rw [hloadq] at hbk
        rcases hnoload b.due hbk with hexc | hle
        · have hall := hn2 (by rw [hexl']; exact hexc) b hb
          rw [hbld] at hall
          exact absurd hall (by simp)
        · rw [hadue]; exact hle
      · intro hsame
        by_cases hacc : a.accepted = true
        · exact hacc
        · exfalso
          have hrj : (LSQ.sendEntry write true due s.mmu insns).rejected =
              true := by
            by_contra hrj
            have hrj' :
                (LSQ.sendEntry write true due s.mmu insns).rejected = false := by
              revert hrj
              cases (LSQ.sendEntry write true due s.mmu insns).rejected <;> simp
            exact hacc (hb2 hrj' a ha)
          have hall := hn3 (hexsrej hrj) b hb
          rw [← hsame, has] at hall
          exact absurd hall (by simp)

/-- The dispatch loop obeys the specification from every state with
sorted request queues, for every iteration budget. -/
theorem dispatchLoop_spec {μ : Type} (read write : μ → Instruction → Bool × μ)
    (now : Nat) :
    ∀ (fuel : Nat) (s : LSQ.DispatchState μ),
      mapSorted s.loadQ → mapSorted s.storeQ →
      LSQ.DispatchSpec now s (LSQ.dispatchLoop read write now fuel s).2 := by
  intro fuel
  induction fuel with
  | zero =>
    intro s _ _
    rw [LSQ.dispatchLoop]
    exact dispatchSpec_nil now s
  | succ fuel ih =>
    intro s hsl hss
    rw [LSQ.dispatchLoop]
    rcases hlq : s.loadQ with _ | ⟨⟨dl, il⟩, lrest⟩ <;>
      rcases hsq : s.storeQ with _ | ⟨⟨ds, sl⟩, srest⟩
    · simpa using dispatchSpec_nil now s
    · by_cases hexs : s.exceededStore = true
      · simpa [hexs] using dispatchSpec_nil now s
      · have hexs' : s.exceededStore = false := by
          revert hexs; cases s.exceededStore <;> simp
        by_cases hnows : ds ≤ now
        · simp only [hexs', hnows]
          simp
          exact dispatch_step_store read write now fuel s ds sl srest hsq hsl
            hss hnows hexs'
            (fun k hk => by rw [hlq] at hk; exact absurd hk (by simp))
            ih _ (by simp [List.length_eq_zero]) (by simp [hlq])
            (fun h => by simp [h]) rfl
        · simpa [hexs', hnows] using dispatchSpec_nil now s
    · by_cases hexl : s.exceededLoad = true
      · simpa [hexl] using dispatchSpec_nil now s
      · have hexl' : s.exceededLoad = false := by
          revert hexl; cases s.exceededLoad <;> simp
        by_cases hnowl : dl ≤ now
        · simp only [hexl', hnowl]
          simp
          exact dispatch_step_load read write now fuel s dl il lrest hlq hsl
            hss hnowl hexl'
            (fun k hk => by rw [hsq] at hk; exact absurd hk (by simp))
            ih _ (by simp [List.length_eq_zero]) (by simp [hsq])
            (fun h => by simp [h]) rfl
        · simpa [hexl', hnowl] using dispatchSpec_nil now s
    · by_cases hexl : s.exceededLoad = true
      · by_cases hexs : s.exceededStore = true
        · simpa [hexl, hexs] using dispatchSpec_nil now s
        · have hexs' : s.exceededStore = false := by
            revert hexs; cases s.exceededStore <;> simp
          by_cases hnows : ds ≤ now
          · simp only [hexl, hexs', hnows]
            simp
            exact dispatch_step_store read write now fuel s ds sl srest hsq
              hsl hss hnows hexs' (fun k _ => Or.inl hexl)
              ih _ (by simp [List.length_eq_zero]) (by simp [hlq])
              (fun h => by simp [h]) (by simp [hexl])
          · simpa [hexl, hexs', hnows] using dispatchSpec_nil now s
      · have hexl' : s.exceededLoad = false := by
          revert hexl; cases s.exceededLoad <;> simp
        by_cases hexs : s.exceededStore = true
        · by_cases hnowl : dl ≤ now
          · simp only [hexl', hexs, hnowl]
            simp
            exact dispatch_step_load read write now fuel s dl il lrest hlq
              hsl hss hnowl hexl' (fun k _ => Or.inl hexs)
              ih _ (by simp [List.length_eq_zero]) (by simp [hsq])
              (fun h => by simp [h]) (by simp [hexs])
          · simpa [hexl', hexs, hnowl] using dispatchSpec_nil now s
        · have hexs' : s.exceededStore = false := by
            revert hexs; cases s.exceededStore <;> simp
          by_cases hcmp : ds ≤ dl
          · by_cases hnows : ds ≤ now
            · simp only [hexl', hexs', hcmp, hnows]
              simp [hcmp]
              exact dispatch_step_store read write now fuel s ds sl srest
                hsq hsl hss hnows hexs'
                (fun k hk => by
                  refine Or.inr (Nat.le_trans hcmp ?_)
                  rw [hlq] at hk
                  exact mapSorted_head_le (hlq ▸ hsl) k hk)
                ih _ (by simp [List.length_eq_zero]) (by simp [hlq])
                (fun h => by simp [h]) (by simp [hexl'])
            · simpa [hexl', hexs', hcmp, hnows] using dispatchSpec_nil now s
          · have hlt : dl < ds := Nat.lt_of_not_le fun h => hcmp h
            by_cases hnowl : dl ≤ now
            · simp only [hexl', hexs', hcmp, hnowl]
              simp [hcmp]
              exact dispatch_step_load read write now fuel s dl il lrest hlq
                hsl hss hnowl hexl'
                (fun k hk => by
                  refine Or.inr (Nat.lt_of_lt_of_le hlt ?_)
                  rw [hsq] at hk
                  exact mapSorted_head_le (hsq ▸ hss) k hk)
                ih _ (by simp [List.length_eq_zero]) (by simp [hsq])
                (fun h => by simp [h]) (by simp [hexs'])
            · simpa [hexl', hexs', hcmp, hnowl] using dispatchSpec_nil now s

/-- The head entry of a sorted queue bounds every entry: if it is not
yet due, nothing in the queue is. -/
theorem mapSorted_all_gt {α : Type} {now due : Nat} {x : α}
    {rest : List (Nat × α)} (hs : mapSorted ((due, x) :: rest))
    (h : now < due) : ∀ p ∈ (due, x) :: rest, now < p.1 := by
  intro p hp
  rcases List.mem_cons.mp hp with h1 | h1
  · rw [h1]; exact h
  · rw [mapSorted, List.pairwise_cons] at hs
    exact Nat.lt_trans h (hs.1 p h1)

/-- Draining one queue entry: no rejection means the entry was fully
dispatched (nothing remains); a rejection leaves an actual rejected
admission call of this type in the events. -/
theorem sendEntry_remaining {μ : Type}
    (request : μ → Instruction → Bool × μ) (isStore : Bool) (due : Nat) :
    ∀ (insns : List Instruction) (mmu : μ),
      ((LSQ.sendEntry request isStore due mmu insns).rejected = false →
        (LSQ.sendEntry request isStore due mmu insns).remaining = []) ∧
      ((LSQ.sendEntry request isStore due mmu insns).rejected = true →
        ∃ e ∈ (LSQ.sendEntry request isStore due mmu insns).events,
          e.isStore = isStore ∧ e.accepted = false) := by
  intro insns
  induction insns with
  | nil =>
    intro mmu
    exact ⟨fun _ => rfl, fun h => absurd h (by simp [LSQ.sendEntry])⟩
  | cons i rest ih =>
    intro mmu
    obtain ⟨ih1, ih2⟩ := ih (request mmu i).2
    by_cases hr : (request mmu i).1 = true
    · have hred : LSQ.sendEntry request isStore due mmu (i :: rest) =
          ⟨(LSQ.sendEntry request isStore due (request mmu i).2
              rest).remaining,
            (LSQ.sendEntry request isStore due (request mmu i).2 rest).mmu,
            ⟨isStore, due, i, true⟩ ::
              (LSQ.sendEntry request isStore due (request mmu i).2
                rest).events,
            (LSQ.sendEntry request isStore due
              (request mmu i).2 rest).rejected⟩ := by
        simp [LSQ.sendEntry, hr]
      rw [hred]
      refine ⟨ih1, ?_⟩
      intro hrj
      obtain ⟨e, he, hp⟩ := ih2 hrj
      exact ⟨e, List.mem_cons_of_mem _ he, hp⟩
    · have hred : LSQ.sendEntry request isStore due mmu (i :: rest) =
          ⟨i :: rest, (request mmu i).2, [⟨isStore, due, i, false⟩],
            true⟩ := by
        simp [LSQ.sendEntry, hr]
      rw [hred]
      refine ⟨fun h => absurd h (by simp), ?_⟩
      intro _
      exact ⟨⟨isStore, due, i, false⟩, by simp, rfl, rfl⟩

/-- A loop exit with no admission calls is complete whenever each
still-unflagged queue holds only not-yet-due entries. -/
theorem dispatchComplete_stop {μ : Type} (now : Nat)
    (s : LSQ.DispatchState μ)
    (hA : s.exceededLoad = false → ∀ p ∈ s.loadQ, now < p.1)
    (hB : s.exceededStore = false → ∀ p ∈ s.storeQ, now < p.1) :
    LSQ.DispatchComplete now s s [] :=
  ⟨hA, hB, fun h => Or.inl h, fun h => Or.inl h⟩

/-- One load-side iteration preserves completeness: the measure (queue
lengths plus clear flags) drops, and a set load flag traces back
either to this entry's rejected call or deeper into the trace. -/
theorem dispatch_complete_step_load {μ : Type}
    (read write : μ → Instruction → Bool × μ) (now fuel : Nat)
    (s : LSQ.DispatchState μ) (due : Nat) (insns : List Instruction)
    (qrest : List (Nat × List Instruction))
    (hq : s.loadQ = (due, insns) :: qrest)
    (hsl : mapSorted s.loadQ) (hss : mapSorted s.storeQ)
    (hexl : s.exceededLoad = false)
    (hfuel : s.loadQ.length + s.storeQ.length +
      ((if s.exceededLoad = true then 0 else 1) +
        (if s.exceededStore = true then 0 else 1)) ≤ fuel + 1)
    (ih : ∀ t : LSQ.DispatchState μ, mapSorted t.loadQ →
      mapSorted t.storeQ →
      t.loadQ.length + t.storeQ.length +
        ((if t.exceededLoad = true then 0 else 1) +
          (if t.exceededStore = true then 0 else 1)) ≤ fuel →
      LSQ.DispatchComplete now t
        (LSQ.dispatchLoop read write now fuel t).1
        (LSQ.dispatchLoop read write now fuel t).2)
    (s' : LSQ.DispatchState μ)
    (hloadq : s'.loadQ =
      if (LSQ.sendEntry read false due s.mmu insns).remaining.length = 0
      then qrest
      else (due, (LSQ.sendEntry read false due s.mmu insns).remaining) ::
        qrest)
    (hstoreq : s'.storeQ = s.storeQ)
    (hexlr : s'.exceededLoad =
      (LSQ.sendEntry read false due s.mmu insns).rejected)
    (hexs2 : s'.exceededStore = s.exceededStore) :
    LSQ.DispatchComplete now s
      (LSQ.dispatchLoop read write now fuel s').1
      ((LSQ.sendEntry read false due s.mmu insns).events ++
        (LSQ.dispatchLoop read write now fuel s').2) := by
  obtain ⟨hrem, hrevent⟩ := sendEntry_remaining read false due insns s.mmu
  have htail : mapSorted qrest := by
    have h := hsl
    rw [hq, mapSorted, List.pairwise_cons] at h
    exact h.2
  have hheads : ∀ b ∈ qrest, due < b.1 := by
    have h := hsl
    rw [hq, mapSorted, List.pairwise_cons] at h
    exact h.1
  have hsl' : mapSorted s'.loadQ := by
    rw [hloadq]
    by_cases hr0 :
        (LSQ.sendEntry read false due s.mmu insns).remaining.length = 0
    · rw [if_pos hr0]; exact htail
    · rw [if_neg hr0]
      exact List.Pairwise.cons hheads htail
  have hss' : mapSorted s'.storeQ := by rw [hstoreq]; exact hss
  have hlen1 : s'.loadQ.length ≤ qrest.length + 1 := by
    rw [hloadq]
    by_cases hr0 :
        (LSQ.sendEntry read false due s.mmu insns).remaining.length = 0
    · rw [if_pos hr0]; omega
    · rw [if_neg hr0]; simp
  have hlen2 : (LSQ.sendEntry read false due s.mmu insns).rejected =
      false → s'.loadQ.length ≤ qrest.length := by
    intro hrj
    rw [hloadq, if_pos (by rw [hrem hrj]; rfl)]
  have hmeas : s'.loadQ.length + s'.storeQ.length +
      ((if s'.exceededLoad = true then 0 else 1) +
        (if s'.exceededStore = true then 0 else 1)) ≤ fuel := by
    rw [hstoreq, hexs2, hexlr]
    rw [hq, hexl] at hfuel
    simp only [List.length_cons] at hfuel
    by_cases hrj :
        (LSQ.sendEntry read false due s.mmu insns).rejected = true
    · rw [hrj]
      have hif0 : (if (true : Bool) = true then (0 : Nat) else 1) = 0 := by
        simp
      rw [hif0]
      have hif : (if (false : Bool) = true then (0 : Nat) else 1) = 1 := by
        simp
      rw [hif] at hfuel
      omega
    · have hrj' : (LSQ.sendEntry read false due s.mmu insns).rejected =
          false := by
        revert hrj
        cases (LSQ.sendEntry read false due s.mmu insns).rejected <;> simp
      have h2 := hlen2 hrj'
      rw [hrj']
      have hif : (if (false : Bool) = true then 0 else 1) = 1 := by simp
      rw [hif] at hfuel ⊢
      omega
  obtain ⟨ca, cb, cc, cd⟩ := ih s' hsl' hss' hmeas
  refine ⟨ca, cb, ?_, ?_⟩
  · intro hfl
    rcases cc hfl with h | ⟨e, he, hp⟩
    · rw [hexlr] at h
      obtain ⟨e, he, hp⟩ := hrevent h
      exact Or.inr ⟨e, List.mem_append_left _ he, hp⟩
    · exact Or.inr ⟨e, List.mem_append_right _ he, hp⟩
  · intro hfs
    rcases cd hfs with h | ⟨e, he, hp⟩
    · rw [hexs2] at h
      exact Or.inl h
    · exact Or.inr ⟨e, List.mem_append_right _ he, hp⟩

/-- One store-side iteration preserves completeness. -/
theorem dispatch_complete_step_store {μ : Type}
    (read write : μ → Instruction → Bool × μ) (now fuel : Nat)
    (s : LSQ.DispatchState μ) (due : Nat) (insns : List Instruction)
    (qrest : List (Nat × List Instruction))
    (hq : s.storeQ = (due, insns) :: qrest)
    (hsl : mapSorted s.loadQ) (hss : mapSorted s.storeQ)
    (hexs : s.exceededStore = false)
    (hfuel : s.loadQ.length + s.storeQ.length +
      ((if s.exceededLoad = true then 0 else 1) +
        (if s.exceededStore = true then 0 else 1)) ≤ fuel + 1)
    (ih : ∀ t : LSQ.DispatchState μ, mapSorted t.loadQ →
      mapSorted t.storeQ →
      t.loadQ.length + t.storeQ.length +
        ((if t.exceededLoad = true then 0 else 1) +
          (if t.exceededStore = true then 0 else 1)) ≤ fuel →
      LSQ.DispatchComplete now t
        (LSQ.dispatchLoop read write now fuel t).1
        (LSQ.dispatchLoop read write now fuel t).2)
    (s' : LSQ.DispatchState μ)
    (hstoreq : s'.storeQ =
      if (LSQ.sendEntry write true due s.mmu insns).remaining.length = 0
      then qrest
      else (due, (LSQ.sendEntry write true due s.mmu insns).remaining) ::
        qrest)
    (hloadq : s'.loadQ = s.loadQ)
    (hexsr : s'.exceededStore =
      (LSQ.sendEntry write true due s.mmu insns).rejected)
    (hexl2 : s'.exceededLoad = s.exceededLoad) :
    LSQ.DispatchComplete now s
      (LSQ.dispatchLoop read write now fuel s').1
      ((LSQ.sendEntry write true due s.mmu insns).events ++
        (LSQ.dispatchLoop read write now fuel s').2) := by
  obtain ⟨hrem, hrevent⟩ := sendEntry_remaining write true due insns s.mmu
  have htail : mapSorted qrest := by
    have h := hss
    rw [hq, mapSorted, List.pairwise_cons] at h
    exact h.2
  have hheads : ∀ b ∈ qrest, due < b.1 := by
    have h := hss
    rw [hq, mapSorted, List.pairwise_cons] at h
    exact h.1
  have hss' : mapSorted s'.storeQ := by
    rw [hstoreq]
    by_cases hr0 :
        (LSQ.sendEntry write true due s.mmu insns).remaining.length = 0
    · rw [if_pos hr0]; exact htail
    · rw [if_neg hr0]
      exact List.Pairwise.cons hheads htail
  have hsl' : mapSorted s'.loadQ := by rw [hloadq]; exact hsl
  have hlen1 : s'.storeQ.length ≤ qrest.length + 1 := by
    rw [hstoreq]
    by_cases hr0 :
        (LSQ.sendEntry write true due s.mmu insns).remaining.length = 0
    · rw [if_pos hr0]; omega
    · rw [if_neg hr0]; simp
  have hlen2 : (LSQ.sendEntry write true due s.mmu insns).rejected =
      false → s'.storeQ.length ≤ qrest.length := by
    intro hrj
    rw [hstoreq, if_pos (by rw [hrem hrj]; rfl)]
  have hmeas : s'.loadQ.length + s'.storeQ.length +
      ((if s'.exceededLoad = true then 0 else 1) +
        (if s'.exceededStore = true then 0 else 1)) ≤ fuel := by
    rw [hloadq, hexl2, hexsr]
    rw [hq, hexs] at hfuel
    simp only [List.length_cons] at hfuel
    by_cases hrj :
        (LSQ.sendEntry write true due s.mmu insns).rejected = true
    · rw [hrj]
      have hif0 : (if (true : Bool) = true then (0 : Nat) else 1) = 0 := by
        simp
      rw [hif0]
      have hif : (if (false : Bool) = true then (0 : Nat) else 1) = 1 := by
        simp
      rw [hif] at hfuel
      omega
    · have hrj' : (LSQ.sendEntry write true due s.mmu insns).rejected =
          false := by
        revert hrj
        cases (LSQ.sendEntry write true due s.mmu insns).rejected <;> simp
      have h2 := hlen2 hrj'
      rw [hrj']
      have hif : (if (false : Bool) = true then 0 else 1) = 1 := by simp
      rw [hif] at hfuel ⊢
      omega
  obtain ⟨ca, cb, cc, cd⟩ := ih s' hsl' hss' hmeas
  refine ⟨ca, cb, ?_, ?_⟩
  · intro hfl
    rcases cc hfl with h | ⟨e, he, hp⟩
    · rw [hexl2] at h
      exact Or.inl h
    · exact Or.inr ⟨e, List.mem_append_right _ he, hp⟩
  · intro hfs
    rcases cd hfs with h | ⟨e, he, hp⟩
    · rw [hexsr] at h
      obtain ⟨e, he, hp⟩ := hrevent h
      exact Or.inr ⟨e, List.mem_append_left _ he, hp⟩
    · exact Or.inr ⟨e, List.mem_append_right _ he, hp⟩

/-- Completeness of the dispatch loop: given fuel at least the total
queue length plus the number of clear flags, the loop ends in a state
where an unflagged type retains no due entries, and each set flag is
witnessed by a rejected call in the trace. -/
theorem dispatchLoop_complete {μ : Type}
    (read write : μ → Instruction → Bool × μ) (now : Nat) :
    ∀ (fuel : Nat) (s : LSQ.DispatchState μ),
      mapSorted s.loadQ → mapSorted s.storeQ →
      s.loadQ.length + s.storeQ.length +
        ((if s.exceededLoad = true then 0 else 1) +
          (if s.exceededStore = true then 0 else 1)) ≤ fuel →
      LSQ.DispatchComplete now s
        (LSQ.dispatchLoop read write now fuel s).1
        (LSQ.dispatchLoop read write now fuel s).2 := by
  intro fuel
  induction fuel with
  | zero =>
    intro s hsl hss hfuel
    rw [LSQ.dispatchLoop]
    have hLT : s.exceededLoad = true := by
      by_cases h : s.exceededLoad = true
      · exact h
      · exfalso
        rw [if_neg h] at hfuel
        omega
    have hST : s.exceededStore = true := by
      by_cases h : s.exceededStore = true
      · exact h
      · exfalso
        rw [if_neg h] at hfuel
        omega
    refine dispatchComplete_stop now s ?_ ?_
    · intro h; rw [h] at hLT; exact absurd hLT (by simp)
    · intro h; rw [h] at hST; exact absurd hST (by simp)
  | succ fuel ih =>
    intro s hsl hss hfuel
    rw [LSQ.dispatchLoop]
    rcases hlq : s.loadQ with _ | ⟨⟨dl, il⟩, lrest⟩ <;>
      rcases hsq : s.storeQ with _ | ⟨⟨ds, sl⟩, srest⟩
    · simpa using dispatchComplete_stop now s
        (by intro _ p hp; rw [hlq] at hp; simp at hp)
        (by intro _ p hp; rw [hsq] at hp; simp at hp)
    · by_cases hexs : s.exceededStore = true
      · simpa [hexs] using dispatchComplete_stop now s
          (by intro _ p hp; rw [hlq] at hp; simp at hp)
          (by intro h; rw [h] at hexs; exact absurd hexs (by simp))
      · have hexs' : s.exceededStore = false := by
          revert hexs; cases s.exceededStore <;> simp
        by_cases hnows : ds ≤ now
        · simp only [hexs', hnows]
          simp
          exact dispatch_complete_step_store read write now fuel s ds sl
            srest hsq hsl hss hexs' hfuel
            ih _ (by simp [List.length_eq_zero]) (by simp [hlq])
            (by simp [hexs']) rfl
        · simpa [hexs', hnows] using dispatchComplete_stop now s
            (by intro _ p hp; rw [hlq] at hp; simp at hp)
            (by
              intro _
              rw [hsq]
              exact mapSorted_all_gt (hsq ▸ hss) (Nat.lt_of_not_le hnows))
    · by_cases hexl : s.exceededLoad = true
      · simpa [hexl] using dispatchComplete_stop now s
          (by intro h; rw [h] at hexl; exact absurd hexl (by simp))
          (by intro _ p hp; rw [hsq] at hp; simp at hp)
      · have hexl' : s.exceededLoad = false := by
          revert hexl; cases s.exceededLoad <;> simp
        by_cases hnowl : dl ≤ now
        · simp only [hexl', hnowl]
          simp
          exact dispatch_complete_step_load read write now fuel s dl il
            lrest hlq hsl hss hexl' hfuel
            ih _ (by simp [List.length_eq_zero]) (by simp [hsq])
            (by simp [hexl']) rfl
        · simpa [hexl', hnowl] using dispatchComplete_stop now s
            (by
              intro _
              rw [hlq]
              exact mapSorted_all_gt (hlq ▸ hsl) (Nat.lt_of_not_le hnowl))
            (by intro _ p hp; rw [hsq] at hp; simp at hp)
    · by_cases hexl : s.exceededLoad = true
      · by_cases hexs : s.exceededStore = true
        · simpa [hexl, hexs] using dispatchComplete_stop now s
            (by intro h; rw [h] at hexl; exact absurd hexl (by simp))
            (by intro h; rw [h] at hexs; exact absurd hexs (by simp))
        · have hexs' : s.exceededStore = false := by
            revert hexs; cases s.exceededStore <;> simp
          by_cases hnows : ds ≤ now
          · simp only [hexl, hexs', hnows]
            simp
            exact dispatch_complete_step_store read write now fuel s ds sl
              srest hsq hsl hss hexs' hfuel
              ih _ (by simp [List.length_eq_zero]) (by simp [hlq])
              (by simp [hexs']) (by simp [hexl])
          · simpa [hexl, hexs', hnows] using dispatchComplete_stop now s
              (by intro h; rw [h] at hexl; exact absurd hexl (by simp))
              (by
                intro _
                rw [hsq]
                exact mapSorted_all_gt (hsq ▸ hss)
                  (Nat.lt_of_not_le hnows))
      · have hexl' : s.exceededLoad = false := by
          revert hexl; cases s.exceededLoad <;> simp
        by_cases hexs : s.exceededStore = true
        · by_cases hnowl : dl ≤ now
          · simp only [hexl', hexs, hnowl]
            simp
            exact dispatch_complete_step_load read write now fuel s dl il
              lrest hlq hsl hss hexl' hfuel
              ih _ (by simp [List.length_eq_zero]) (by simp [hsq])
              (by simp [hexl']) (by simp [hexs])
          · simpa [hexl', hexs, hnowl] using dispatchComplete_stop now s
              (by
                intro _
                rw [hlq]
                exact mapSorted_all_gt (hlq ▸ hsl)
                  (Nat.lt_of_not_le hnowl))
              (by intro h; rw [h] at hexs; exact absurd hexs (by simp))
        · have hexs' : s.exceededStore = false := by
            revert hexs; cases s.exceededStore <;> simp
          by_cases hcmp : ds ≤ dl
          · by_cases hnows : ds ≤ now
            · simp only [hexl', hexs', hcmp, hnows]
              simp [hcmp]
              exact dispatch_complete_step_store read write now fuel s ds
                sl srest hsq hsl hss hexs' hfuel
                ih _ (by simp [List.length_eq_zero]) (by simp [hlq])
                (by simp [hexs']) (by simp [hexl'])
            · simpa [hexl', hexs', hcmp, hnows] using
                dispatchComplete_stop now s
                (by
                  intro _
                  rw [hlq]
                  exact mapSorted_all_gt (hlq ▸ hsl) (by omega))
                (by
                  intro _
                  rw [hsq]
                  exact mapSorted_all_gt (hsq ▸ hss)
                    (Nat.lt_of_not_le hnows))
          · have hlt : dl < ds := Nat.lt_of_not_le fun h => hcmp h
            by_cases hnowl : dl ≤ now
            · simp only [hexl', hexs', hcmp, hnowl]
              simp [hcmp]
              exact dispatch_complete_step_load read write now fuel s dl
                il lrest hlq hsl hss hexl' hfuel
                ih _ (by simp [List.length_eq_zero]) (by simp [hsq])
                (by simp [hexl']) (by simp [hexs'])
            · simpa [hexl', hexs', hcmp, hnowl] using
                dispatchComplete_stop now s
                (by
                  intro _
                  rw [hlq]
                  exact mapSorted_all_gt (hlq ▸ hsl)
                    (Nat.lt_of_not_le hnowl))
                (by
                  intro _
                  rw [hsq]
                  exact mapSorted_all_gt (hsq ▸ hss) (by omega))

/-- **C7.** In each `LoadStoreQueue::tick`, ready memory requests *are*
dispatched, by repeatedly picking the request queue with the earliest
due cycle — the store queue on ties — and an MMU rejection of one type
stops further dispatch of that type for the cycle without stopping the
other.  Safety (`DispatchSpec`): every admission call is for a due
entry of its queue, pairwise a load precedes a store only when strictly
earlier-due, a store precedes a load only when at-or-before it, and a
rejected call is the last of its type.  Completeness
(`DispatchComplete`, with fuel covering the loop's iteration bound): a
type whose `exceededLimits` flag is clear at the end of the tick has no
due entry left — all its ready requests were dispatched, even if the
other type was rejected meanwhile — and a set flag is explained by an
actual rejected admission call of that type in the trace. -/
theorem lsq_tick_dispatch_order {μ : Type}
    (read write : μ → Instruction → Bool × μ)
    (fuel : Nat) (s : LSQ.State) (mmu : μ)
    (hl : mapSorted s.requestLoadQueue)
    (hs : mapSorted s.requestStoreQueue)
    (hfuel : s.requestLoadQueue.length + s.requestStoreQueue.length + 2 ≤
      fuel) :
    LSQ.DispatchSpec (s.tickCounter + 1)
      ⟨s.requestLoadQueue, s.requestStoreQueue, false, false, mmu⟩
      (LSQ.tickDispatch read write fuel s mmu).2 ∧
    LSQ.DispatchComplete (s.tickCounter + 1)
      ⟨s.requestLoadQueue, s.requestStoreQueue, false, false, mmu⟩
      (LSQ.tickDispatch read write fuel s mmu).1
      (LSQ.tickDispatch read write fuel s mmu).2 :=
  ⟨dispatchLoop_spec read write (s.tickCounter + 1) fuel
      ⟨s.requestLoadQueue, s.requestStoreQueue, false, false, mmu⟩ hl hs,
    dispatchLoop_complete read write (s.tickCounter + 1) fuel
      ⟨s.requestLoadQueue, s.requestStoreQueue, false, false, mmu⟩ hl hs
      (by simpa using hfuel)⟩

/-- Witness for C7 at `c7StateB` (tick 2, a load due at cycle 1, a
store due at cycle 2) with an MMU rejecting every load and accepting
every store: the tick's trace is exactly the rejected load call
followed by the accepted store call — the store is still dispatched
after the load rejection — the load flag ends set with its rejection in
the trace, the store queue is fully drained, and the trace satisfies
both the ordering and the completeness discipline. -/
theorem lsq_tick_dispatch_order_witness :
    (LSQ.tickDispatch c7RejectAll c7AcceptAll 4 c7StateB 0).2 =
      [⟨false, 1, c7L1, false⟩, ⟨true, 2, c7S1, true⟩] ∧
    (LSQ.tickDispatch c7RejectAll c7AcceptAll 4 c7StateB
      0).1.exceededLoad = true ∧
    (LSQ.tickDispatch c7RejectAll c7AcceptAll 4 c7StateB 0).1.storeQ =
      [] ∧
    (LSQ.DispatchSpec (c7StateB.tickCounter + 1)
      ⟨c7StateB.requestLoadQueue, c7StateB.requestStoreQueue, false,
        false, (0 : Nat)⟩
      (LSQ.tickDispatch c7RejectAll c7AcceptAll 4 c7StateB 0).2 ∧
    LSQ.DispatchComplete (c7StateB.tickCounter + 1)
      ⟨c7StateB.requestLoadQueue, c7StateB.requestStoreQueue, false,
        false, (0 : Nat)⟩
      (LSQ.tickDispatch c7RejectAll c7AcceptAll 4 c7StateB 0).1
      (LSQ.tickDispatch c7RejectAll c7AcceptAll 4 c7StateB 0).2) :=
  ⟨by decide, by decide, by decide,
    lsq_tick_dispatch_order c7RejectAll c7AcceptAll 4 c7StateB 0
      (by decide) (by decide) (by decide)⟩

/-- **C9.** `commitStore(uop)` on a store with no generated addresses
returns `false`, pops exactly the front of the store queue and leaves
every other component of the state — in particular `requestedLoads_`,
`conflictionMap_` and the previously recorded `violatingLoad_` —
unchanged. -/
theorem lsq_commitStore_no_addresses
    (s : LSQ.State) (uop : Instruction)
    (h : uop.generatedAddresses = []) :
    LSQ.commitStore s uop =
      (false, { s with storeQueue := s.storeQueue.tail }) := by
  simp [LSQ.commitStore, h]

/-- Witness for C9 at a concrete state with a stale `violatingLoad_`. -/
theorem lsq_commitStore_no_addresses_witness :
    LSQ.commitStore c9State c9Store =
      (false, { c9State with storeQueue := c9State.storeQueue.tail }) :=
  lsq_commitStore_no_addresses c9State c9Store rfl

/-- **C6.** For every pipeline buffer and slot index `i` within the
buffer's width: a value written to tail slot `i` while the buffer is not
stalled is exactly the value at head slot `i` after `tick()`; and when
the buffer is stalled, `tick()` is the identity, so head and tail
contents and roles are unchanged. -/
theorem pipelineBuffer_shift :
    (∀ (T : Type) (b : PipelineBuffer.State T) (i : Nat) (v : T),
      b.isStalled = false → i < (PipelineBuffer.getTailSlots b).length →
      (PipelineBuffer.getHeadSlots
          (PipelineBuffer.tick (PipelineBuffer.writeTail b i v))).get? i =
        some v) ∧
    (∀ (T : Type) (b : PipelineBuffer.State T),
      b.isStalled = true →
      PipelineBuffer.tick b = b ∧
      PipelineBuffer.getHeadSlots (PipelineBuffer.tick b) =
        PipelineBuffer.getHeadSlots b ∧
      PipelineBuffer.getTailSlots (PipelineBuffer.tick b) =
        PipelineBuffer.getTailSlots b) := by
  constructor
  · intro T b i v hns hi
    unfold PipelineBuffer.tick PipelineBuffer.writeTail
      PipelineBuffer.getHeadSlots PipelineBuffer.getTailSlots at *
    cases hhead : b.headIsStart <;>
      simp [hns, hhead] at hi ⊢ <;>
      simp [List.get?_eq_getElem?, List.getElem?_set_self', hi,
        Nat.lt_iff_add_one_le, hi.le]
  · intro T b hs
    unfold PipelineBuffer.tick
    simp [hs]

/-- Witness for C6 at a concrete two-slot buffer of naturals. -/
theorem pipelineBuffer_shift_witness :
    (PipelineBuffer.getHeadSlots
        (PipelineBuffer.tick
          (PipelineBuffer.writeTail
            (⟨[10, 11], [20, 21], false, false⟩ : PipelineBuffer.State Nat) 1
            99))).get? 1 =
      some 99 :=
  pipelineBuffer_shift.1 Nat ⟨[10, 11], [20, 21], false, false⟩ 1 99 rfl
    (by decide)

/-! ### MMU: request caps and per-tick bandwidth (C4) -/

theorem bytesOf_foldl :
    ∀ (l : List MMU.MemPacket) (a : Nat),
      List.foldl (fun n p => n + p.size) a l = a + MMU.bytesOf l := by
  intro l
  induction l with
  | nil => intro a; simp [MMU.bytesOf]
  | cons p rest ih =>
    intro a
    show List.foldl _ (a + p.size) rest = _
    rw [ih]
    have h0 : MMU.bytesOf (p :: rest) = p.size + MMU.bytesOf rest := by
      show List.foldl _ (0 + p.size) rest = _
      rw [ih]
      omega
    rw [h0]
    omega

theorem bytesOf_cons (p : MMU.MemPacket) (l : List MMU.MemPacket) :
    MMU.bytesOf (p :: l) = p.size + MMU.bytesOf l := by
  show List.foldl _ (0 + p.size) l = _
  rw [bytesOf_foldl]
  omega

theorem bytesOf_append (l1 l2 : List MMU.MemPacket) :
    MMU.bytesOf (l1 ++ l2) = MMU.bytesOf l1 + MMU.bytesOf l2 := by
  show List.foldl _ 0 (l1 ++ l2) = _
  rw [List.foldl_append, bytesOf_foldl]
  rfl

/-- The response receiver never touches the in-flight buckets. -/
theorem portReceive_buckets (s : MMU.State) (pkt : MMU.MemPacket) :
    (MMU.portReceive s pkt).loads = s.loads ∧
    (MMU.portReceive s pkt).stores = s.stores := by
  unfold MMU.portReceive
  refine ⟨?_, ?_⟩ <;> (repeat' (first | rfl | dsimp only | split))

/-- `issueRequest` never touches the in-flight buckets. -/
theorem issueRequest_buckets (translate : Nat → Nat → MMU.Translation)
    (tid : Nat) (s : MMU.State) (pkt : MMU.MemPacket) :
    (MMU.issueRequest translate tid s pkt).loads = s.loads ∧
    (MMU.issueRequest translate tid s pkt).stores = s.stores := by
  unfold MMU.issueRequest
  cases translate pkt.vaddr tid
  · refine ⟨?_, ?_⟩ <;> (repeat' (first | rfl | dsimp only | split))
  · exact portReceive_buckets s _
  · exact ⟨rfl, rfl⟩
  · refine ⟨?_, ?_⟩ <;> (repeat' (first | rfl | dsimp only | split))

/-- Store-commit bookkeeping never touches the in-flight buckets. -/
theorem lastStorePacket_buckets (s : MMU.State) (pkt : MMU.MemPacket) :
    (MMU.lastStorePacket s pkt).loads = s.loads ∧
    (MMU.lastStorePacket s pkt).stores = s.stores := by
  unfold MMU.lastStorePacket
  refine ⟨?_, ?_⟩ <;> (repeat' (first | rfl | dsimp only | split))

/-- The inner packet loop: its running byte counter accounts exactly
for the issued packets, never exceeds the limit, and the buckets are
untouched. -/
theorem procInsn_spec (translate : Nat → Nat → MMU.Translation) (tid : Nat)
    (isStore : Bool) (limit : Nat) :
    ∀ (pkts : List MMU.MemPacket) (used : Nat) (s : MMU.State),
      (MMU.procInsn translate tid isStore limit used pkts s).used =
        used + MMU.bytesOf
          (MMU.procInsn translate tid isStore limit used pkts s).issued ∧
      (used ≤ limit →
        (MMU.procInsn translate tid isStore limit used pkts s).used ≤
          limit) ∧
      (MMU.procInsn translate tid isStore limit used pkts s).state.loads =
        s.loads ∧
      (MMU.procInsn translate tid isStore limit used pkts s).state.stores =
        s.stores := by
  intro pkts
  induction pkts with
  | nil =>
    intro used s
    refine ⟨?_, fun h => h, rfl, rfl⟩
    simp [MMU.procInsn, MMU.bytesOf]
  | cons pkt rest ih =>
    intro used s
    by_cases hband : used + pkt.size ≤ limit
    · have hred : MMU.procInsn translate tid isStore limit used (pkt :: rest)
          s =
          ⟨(MMU.procInsn translate tid isStore limit (used + pkt.size) rest
              (MMU.issueRequest translate tid
                (if isStore && rest.isEmpty then MMU.lastStorePacket s pkt
                  else s) pkt)).state,
            (MMU.procInsn translate tid isStore limit (used + pkt.size) rest
              (MMU.issueRequest translate tid
                (if isStore && rest.isEmpty then MMU.lastStorePacket s pkt
                  else s) pkt)).used,
            (MMU.procInsn translate tid isStore limit (used + pkt.size) rest
              (MMU.issueRequest translate tid
                (if isStore && rest.isEmpty then MMU.lastStorePacket s pkt
                  else s) pkt)).remaining,
            pkt ::
              (MMU.procInsn translate tid isStore limit (used + pkt.size)
                rest
                (MMU.issueRequest translate tid
                  (if isStore && rest.isEmpty then MMU.lastStorePacket s pkt
                    else s) pkt)).issued,
            (MMU.procInsn translate tid isStore limit (used + pkt.size) rest
              (MMU.issueRequest translate tid
                (if isStore && rest.isEmpty then MMU.lastStorePacket s pkt
                  else s) pkt)).stopped⟩ := by
        rw [MMU.procInsn, if_pos hband]
      obtain ⟨ih1, ih2, ih3, ih4⟩ := ih (used + pkt.size)
        (MMU.issueRequest translate tid
          (if isStore && rest.isEmpty then MMU.lastStorePacket s pkt else s)
          pkt)
      rw [hred]
      have hmid :
          (MMU.issueRequest translate tid
            (if isStore && rest.isEmpty then MMU.lastStorePacket s pkt
              else s) pkt).loads = s.loads ∧
          (MMU.issueRequest translate tid
            (if isStore && rest.isEmpty then MMU.lastStorePacket s pkt
              else s) pkt).stores = s.stores := by
        obtain ⟨hi1, hi2⟩ := issueRequest_buckets translate tid
          (if isStore && rest.isEmpty then MMU.lastStorePacket s pkt else s)
          pkt
        obtain ⟨hl1, hl2⟩ := lastStorePacket_buckets s pkt
        by_cases hlast : (isStore && rest.isEmpty) = true
        · rw [if_pos hlast] at hi1 hi2 ⊢
          exact ⟨hi1.trans hl1, hi2.trans hl2⟩
        · rw [if_neg hlast] at hi1 hi2 ⊢
          exact ⟨hi1, hi2⟩
      refine ⟨?_, ?_, ih3.trans hmid.1, ih4.trans hmid.2⟩
      · rw [ih1, bytesOf_cons]
        omega
      · intro _
        exact ih2 hband
    · have hred : MMU.procInsn translate tid isStore limit used (pkt :: rest)
          s = ⟨s, used, pkt :: rest, [], true⟩ := by
        rw [MMU.procInsn, if_neg hband]
      rw [hred]
      refine ⟨?_, fun h => h, rfl, rfl⟩
      simp [MMU.bytesOf]

/-- The outer instruction loop: the surviving entry list never grows,
issued bytes stay within the remaining budget, and the buckets are
untouched. -/
theorem procAll_spec (translate : Nat → Nat → MMU.Translation) (tid : Nat)
    (isStore : Bool) (limit : Nat) :
    ∀ (vecs : List (List MMU.MemPacket)) (used : Nat) (s : MMU.State),
      (MMU.procAll translate tid isStore limit vecs used s).2.1.length ≤
        vecs.length ∧
      (used ≤ limit →
        used + MMU.bytesOf
          (MMU.procAll translate tid isStore limit vecs used s).2.2 ≤
          limit) ∧
      (MMU.procAll translate tid isStore limit vecs used s).1.loads =
        s.loads ∧
      (MMU.procAll translate tid isStore limit vecs used s).1.stores =
        s.stores := by
  intro vecs
  induction vecs with
  | nil =>
    intro used s
    refine ⟨by simp [MMU.procAll], ?_, rfl, rfl⟩
    intro h
    simpa [MMU.procAll, MMU.bytesOf] using h
  | cons v vs ih =>
    intro used s
    obtain ⟨hp1, hp2, hp3, hp4⟩ := procInsn_spec translate tid isStore limit
      v used s
    by_cases hstop :
        (MMU.procInsn translate tid isStore limit used v s).stopped = true
    · have hred : MMU.procAll translate tid isStore limit (v :: vs) used s =
          ((MMU.procInsn translate tid isStore limit used v s).state,
            (MMU.procInsn translate tid isStore limit used v s).remaining ::
              vs,
            (MMU.procInsn translate tid isStore limit used v s).issued) := by
        rw [MMU.procAll, if_pos hstop]
      rw [hred]
      refine ⟨by simp, ?_, hp3, hp4⟩
      intro hu
      have h1 := hp2 hu
      dsimp only
      omega
    · obtain ⟨ihl, ihb, ih3, ih4⟩ := ih
        (MMU.procInsn translate tid isStore limit used v s).used
        (MMU.procInsn translate tid isStore limit used v s).state
      have hred : MMU.procAll translate tid isStore limit (v :: vs) used s =
          ((MMU.procAll translate tid isStore limit vs
              (MMU.procInsn translate tid isStore limit used v s).used
              (MMU.procInsn translate tid isStore limit used v s).state).1,
            (MMU.procAll translate tid isStore limit vs
              (MMU.procInsn translate tid isStore limit used v s).used
              (MMU.procInsn translate tid isStore limit used v s).state).2.1,
            (MMU.procInsn translate tid isStore limit used v s).issued ++
              (MMU.procAll translate tid isStore limit vs
                (MMU.procInsn translate tid isStore limit used v s).used
                (MMU.procInsn translate tid isStore limit used v
                  s).state).2.2) := by
        rw [MMU.procAll, if_neg hstop]
      rw [hred]
      refine ⟨by simpa using Nat.le_succ_of_le ihl, ?_, ih3.trans hp3,
        ih4.trans hp4⟩
      intro hu
      have h1 := ihb (hp2 hu)
      dsimp only
      rw [bytesOf_append]
      omega

/-- `processRequests` keeps the untouched bucket, never grows the
processed one, and issues at most the type's bandwidth in bytes. -/
theorem processRequests_spec (cfg : MMU.Config)
    (translate : Nat → Nat → MMU.Translation) (tid : Nat) (s : MMU.State) :
    ((MMU.processRequests cfg translate tid true s).1.loads = s.loads ∧
      (MMU.processRequests cfg translate tid true s).1.stores.length ≤
        s.stores.length ∧
      MMU.bytesOf (MMU.processRequests cfg translate tid true s).2 ≤
        cfg.storeBandwidth) ∧
    ((MMU.processRequests cfg translate tid false s).1.stores = s.stores ∧
      (MMU.processRequests cfg translate tid false s).1.loads.length ≤
        s.loads.length ∧
      MMU.bytesOf (MMU.processRequests cfg translate tid false s).2 ≤
        cfg.loadBandwidth) := by
  obtain ⟨ha1, ha2, ha3, ha4⟩ := procAll_spec translate tid true
    cfg.storeBandwidth s.stores 0 s
  obtain ⟨hb1, hb2, hb3, hb4⟩ := procAll_spec translate tid false
    cfg.loadBandwidth s.loads 0 s
  refine ⟨⟨?_, ?_, ?_⟩, ⟨?_, ?_, ?_⟩⟩
  · simpa [MMU.processRequests] using ha3
  · simpa [MMU.processRequests] using ha1
  · have := ha2 (Nat.zero_le _)
    simpa [MMU.processRequests] using this
  · simpa [MMU.processRequests] using hb4
  · simpa [MMU.processRequests] using hb1
  · have := hb2 (Nat.zero_le _)
    simpa [MMU.processRequests] using this

/-- Counterexample to C4 as stated: under the `Exclusive`
configuration `c4Cfg` (combined `requestLimit` 1, load limit 2), two
`requestRead` calls are both accepted, leaving a combined in-flight
count of 2 above `requestLimit` — `requestRead` skips the combined cap
when `Exclusive` is set. -/
theorem mmu_caps_counterexample :
    (MMU.requestRead c4Cfg MMU.State.empty c4Load1).1 = true ∧
    (MMU.requestRead c4Cfg
      (MMU.requestRead c4Cfg MMU.State.empty c4Load1).2 c4Load2).1 = true ∧
    ¬MMU.ClaimedCaps c4Cfg
      (MMU.requestRead c4Cfg
        (MMU.requestRead c4Cfg MMU.State.empty c4Load1).2 c4Load2).2 := by
  decide

/-- **C4 (amended).** The MMU enforces: at most `loadRequestLimit`
in-flight load instructions and `storeRequestLimit` stores; the
combined count stays within `requestLimit` whenever `Exclusive` is off
(under `Exclusive` the combined check is skipped — see the
counterexample); under `Exclusive`, loads and stores never coexist;
and within each `tick`, issued store packets total at most
`storeBandwidth` bytes and issued load packets at most
`loadBandwidth`. -/
theorem mmu_caps_and_bandwidth :
    (∀ (cfg : MMU.Config) (s : MMU.State) (uop : Instruction),
      MMU.Inv cfg s → MMU.Inv cfg (MMU.requestRead cfg s uop).2) ∧
    (∀ (cfg : MMU.Config) (s : MMU.State) (uop : Instruction)
        (data : List (List Nat)),
      MMU.Inv cfg s → MMU.Inv cfg (MMU.requestWrite cfg s uop data).2) ∧
    (∀ (cfg : MMU.Config) (translate : Nat → Nat → MMU.Translation)
        (tid : Nat) (s : MMU.State),
      MMU.Inv cfg s → MMU.Inv cfg (MMU.tick cfg translate tid s).1) ∧
    (∀ (cfg : MMU.Config) (translate : Nat → Nat → MMU.Translation)
        (tid : Nat) (s : MMU.State),
      MMU.bytesOf (MMU.tick cfg translate tid s).2.1 ≤ cfg.storeBandwidth ∧
      MMU.bytesOf (MMU.tick cfg translate tid s).2.2 ≤ cfg.loadBandwidth) := by
  refine ⟨?_, ?_, ?_, ?_⟩
  · intro cfg s uop hinv
    obtain ⟨h1, h2, h3, h4⟩ := hinv
    by_cases hc1 : (cfg.exclusive && s.stores.length != 0) = true
    · rw [MMU.requestRead, if_pos hc1]
      exact ⟨h1, h2, h3, h4⟩
    · rw [MMU.requestRead, if_neg hc1]
      by_cases hc2 : (!cfg.exclusive &&
          decide (s.loads.length + s.stores.length ≥ cfg.requestLimit)) =
          true
      · rw [if_pos hc2]
        exact ⟨h1, h2, h3, h4⟩
      · rw [if_neg hc2]
        by_cases hc3 : s.loads.length ≥ cfg.loadRequestLimit
        · rw [if_pos hc3]
          exact ⟨h1, h2, h3, h4⟩
        · rw [if_neg hc3]
          by_cases hx : cfg.exclusive = true
          · have hst0 : s.stores.length = 0 := by
              rw [hx] at hc1
              simpa using hc1
            refine ⟨?_, h2, ?_, ?_⟩
            · simp only [List.length_append, List.length_cons,
                List.length_nil]
              omega
            · intro hx2
              rw [hx2] at hx
              exact absurd hx (by simp)
            · intro _
              exact Or.inr hst0
          · have hx' : cfg.exclusive = false := by
              revert hx; cases cfg.exclusive <;> simp
            have hcomb : s.loads.length + s.stores.length <
                cfg.requestLimit := by
              rw [hx'] at hc2
              simp only [Bool.not_false, Bool.true_and,
                decide_eq_true_eq] at hc2
              omega
            refine ⟨?_, h2, ?_, ?_⟩
            · simp only [List.length_append, List.length_cons,
                List.length_nil]
              omega
            · intro _
              simp only [List.length_append, List.length_cons,
                List.length_nil]
              omega
            · intro hx2
              rw [hx2] at hx'
              exact absurd hx' (by simp)
  · intro cfg s uop data hinv
    obtain ⟨h1, h2, h3, h4⟩ := hinv
    by_cases hc1 : (cfg.exclusive && s.loads.length != 0) = true
    · rw [MMU.requestWrite, if_pos hc1]
      exact ⟨h1, h2, h3, h4⟩
    · rw [MMU.requestWrite, if_neg hc1]
      by_cases hc2 : (!cfg.exclusive &&
          decide (s.loads.length + s.stores.length ≥ cfg.requestLimit)) =
          true
      · rw [if_pos hc2]
        exact ⟨h1, h2, h3, h4⟩
      · rw [if_neg hc2]
        by_cases hc3 : s.stores.length ≥ cfg.storeRequestLimit
        · rw [if_pos hc3]
          exact ⟨h1, h2, h3, h4⟩
        · rw [if_neg hc3]
          by_cases hx : cfg.exclusive = true
          · have hld0 : s.loads.length = 0 := by
              rw [hx] at hc1
              simpa using hc1
            refine ⟨h1, ?_, ?_, ?_⟩
            · simp only [List.length_append, List.length_cons,
                List.length_nil]
              omega
            · intro hx2
              rw [hx2] at hx
              exact absurd hx (by simp)
            · intro _
              exact Or.inl hld0
          · have hx' : cfg.exclusive = false := by
              revert hx; cases cfg.exclusive <;> simp
            have hcomb : s.loads.length + s.stores.length <
                cfg.requestLimit := by
              rw [hx'] at hc2
              simp only [Bool.not_false, Bool.true_and,
                decide_eq_true_eq] at hc2
              omega
            refine ⟨h1, ?_, ?_, ?_⟩
            · simp only [List.length_append, List.length_cons,
                List.length_nil]
              omega
            · intro _
              simp only [List.length_append, List.length_cons,
                List.length_nil]
              omega
            · intro hx2
              rw [hx2] at hx'
              exact absurd hx' (by simp)
  · intro cfg translate tid s hinv
    obtain ⟨h1, h2, h3, h4⟩ := hinv
    obtain ⟨⟨hs1, hs2, _⟩, ⟨hl1, hl2, _⟩⟩ :=
      processRequests_spec cfg translate tid s
    by_cases hex : cfg.exclusive = true
    · by_cases hne : (s.stores.length != 0) = true
      · have ht : (MMU.tick cfg translate tid s).1 =
            (MMU.processRequests cfg translate tid true s).1 := by
          rw [MMU.tick, if_pos (by rw [hex]), if_pos hne]
        rw [ht]
        refine ⟨by rw [hs1]; exact h1, Nat.le_trans hs2 h2, ?_, ?_⟩
        · intro hx2
          rw [hx2] at hex
          exact absurd hex (by simp)
        · intro _
          rcases h4 hex with h | h
          · exact Or.inl (by rw [hs1]; exact h)
          · exact absurd h (by simpa using hne)
      · have ht : (MMU.tick cfg translate tid s).1 =
            (MMU.processRequests cfg translate tid false s).1 := by
          rw [MMU.tick, if_pos (by rw [hex]), if_neg hne]
        rw [ht]
        refine ⟨Nat.le_trans hl2 h1, by rw [hl1]; exact h2, ?_, ?_⟩
        · intro hx2
          rw [hx2] at hex
          exact absurd hex (by simp)
        · intro _
          refine Or.inr ?_
          rw [hl1]
          simpa using hne
    · have hex' : cfg.exclusive = false := by
        revert hex; cases cfg.exclusive <;> simp
      have ht : (MMU.tick cfg translate tid s).1 =
          (MMU.processRequests cfg translate tid false
            (MMU.processRequests cfg translate tid true s).1).1 := by
        rw [MMU.tick, if_neg (by rw [hex']; simp)]
      rw [ht]
      obtain ⟨⟨_, _, _⟩, ⟨hl1', hl2', _⟩⟩ :=
        processRequests_spec cfg translate tid
          (MMU.processRequests cfg translate tid true s).1
      have hld : (MMU.processRequests cfg translate tid false
          (MMU.processRequests cfg translate tid true s).1).1.loads.length ≤
          s.loads.length := by
        refine Nat.le_trans hl2' ?_
        rw [hs1]
      have hst : (MMU.processRequests cfg translate tid false
          (MMU.processRequests cfg translate tid true
            s).1).1.stores.length ≤ s.stores.length := by
        rw [hl1']
        exact hs2
      refine ⟨Nat.le_trans hld h1, Nat.le_trans hst h2, ?_, ?_⟩
      · intro _
        have hcomb := h3 hex'
        omega
      · intro hx2
        rw [hx2] at hex'
        exact absurd hex' (by simp)
  · intro cfg translate tid s
    obtain ⟨⟨_, _, hsb⟩, ⟨_, _, hlb⟩⟩ :=
      processRequests_spec cfg translate tid s
    by_cases hex : cfg.exclusive = true
    · by_cases hne : (s.stores.length != 0) = true
      · have ht : (MMU.tick cfg translate tid s).2 =
            ((MMU.processRequests cfg translate tid true s).2, []) := by
          rw [MMU.tick, if_pos (by rw [hex]), if_pos hne]
        rw [ht]
        exact ⟨hsb, by simp [MMU.bytesOf]⟩
      · have ht : (MMU.tick cfg translate tid s).2 =
            ([], (MMU.processRequests cfg translate tid false s).2) := by
          rw [MMU.tick, if_pos (by rw [hex]), if_neg hne]
        rw [ht]
        exact ⟨by simp [MMU.bytesOf], hlb⟩
    · have hex' : cfg.exclusive = false := by
        revert hex; cases cfg.exclusive <;> simp
      have ht : (MMU.tick cfg translate tid s).2 =
          ((MMU.processRequests cfg translate tid true s).2,
            (MMU.processRequests cfg translate tid false
              (MMU.processRequests cfg translate tid true s).1).2) := by
        rw [MMU.tick, if_neg (by rw [hex']; simp)]
      rw [ht]
      obtain ⟨_, ⟨_, _, hlb'⟩⟩ :=
        processRequests_spec cfg translate tid
          (MMU.processRequests cfg translate tid true s).1
      exact ⟨hsb, hlb'⟩

/-- Witness for C4 (amended): the invariant is preserved by an accepted
`requestRead` from the empty state under the non-exclusive limits. -/
theorem mmu_caps_and_bandwidth_witness :
    MMU.Inv c4CfgB (MMU.requestRead c4CfgB MMU.State.empty c4Load1).2 :=
  mmu_caps_and_bandwidth.1 c4CfgB MMU.State.empty c4Load1 (by decide)

/-! ### MMU: cache-line splitting and reassembly (C5) -/

/-- Adding less than the distance to the next cache-line boundary does
not change the down-aligned line base. -/
theorem downAlign_add_lt (clw a k : Nat) (h1 : 0 < clw)
    (hk : k < clw - a % clw) :
    MMU.downAlign (a + k) clw = MMU.downAlign a clw := by
  have hma : a % clw < clw := Nat.mod_lt a h1
  have hle : a % clw ≤ a := Nat.mod_le a clw
  have hkc : k < clw := by omega
  have hm : (a + k) % clw = a % clw + k := by
    rw [Nat.add_mod, Nat.mod_eq_of_lt hkc, Nat.mod_eq_of_lt (by omega)]
  unfold MMU.downAlign
  omega

/-- The read-splitting loop: every packet is non-empty, within one
cache line, the sizes sum to the remaining size, addresses are
contiguous from the start address, and split ids count up from
`splitId`. -/
theorem createReadGo_spec (clw seqId orderId : Nat) (h1 : 0 < clw) :
    ∀ (fuel nextAddr remSize splitId : Nat), remSize ≤ fuel →
      (∀ p ∈ MMU.createReadMemPacketsGo clw seqId orderId fuel nextAddr
          remSize splitId,
        0 < p.size ∧ p.size ≤ clw ∧
        MMU.downAlign p.vaddr clw =
          MMU.downAlign (p.vaddr + p.size - 1) clw) ∧
      MMU.bytesOf (MMU.createReadMemPacketsGo clw seqId orderId fuel
        nextAddr remSize splitId) = remSize ∧
      MMU.contiguousFrom nextAddr (MMU.createReadMemPacketsGo clw seqId
        orderId fuel nextAddr remSize splitId) = true ∧
      (MMU.createReadMemPacketsGo clw seqId orderId fuel nextAddr remSize
          splitId).map (fun p => p.packetSplitId) =
        List.range' splitId (MMU.createReadMemPacketsGo clw seqId orderId
          fuel nextAddr remSize splitId).length := by
  intro fuel
  induction fuel with
  | zero =>
    intro nextAddr remSize splitId hle
    rw [MMU.createReadMemPacketsGo]
    refine ⟨by simp, ?_, by rw [MMU.contiguousFrom], by simp⟩
    simp [MMU.bytesOf]
    omega
  | succ fuel ih =>
    intro nextAddr remSize splitId hle
    by_cases hz : remSize = 0
    · have hred : MMU.createReadMemPacketsGo clw seqId orderId (fuel + 1)
          nextAddr remSize splitId = [] := by
        rw [MMU.createReadMemPacketsGo, if_pos hz]
      rw [hred]
      refine ⟨by simp, ?_, by rw [MMU.contiguousFrom], by simp⟩
      simp [MMU.bytesOf]
      omega
    · have hma : nextAddr % clw < clw := Nat.mod_lt nextAddr h1
      have hle2 : nextAddr % clw ≤ nextAddr := Nat.mod_le nextAddr clw
      have hA : MMU.downAlign nextAddr clw + clw - nextAddr =
          clw - nextAddr % clw := by
        unfold MMU.downAlign
        omega
      have hfacts : 1 ≤ min (MMU.downAlign nextAddr clw + clw - nextAddr)
          remSize ∧
          min (MMU.downAlign nextAddr clw + clw - nextAddr) remSize ≤
            clw - nextAddr % clw ∧
          min (MMU.downAlign nextAddr clw + clw - nextAddr) remSize ≤
            remSize := by
        rw [hA]
        omega
      have hred : MMU.createReadMemPacketsGo clw seqId orderId (fuel + 1)
          nextAddr remSize splitId =
          { MMU.MemPacket.createReadRequest nextAddr
              (min (MMU.downAlign nextAddr clw + clw - nextAddr) remSize)
              seqId orderId with packetSplitId := splitId } ::
            MMU.createReadMemPacketsGo clw seqId orderId fuel
              (nextAddr +
                min (MMU.downAlign nextAddr clw + clw - nextAddr) remSize)
              (remSize -
                min (MMU.downAlign nextAddr clw + clw - nextAddr) remSize)
              (splitId + 1) := by
        rw [MMU.createReadMemPacketsGo, if_neg hz]
      obtain ⟨ihall, ihsum, ihcont, ihsplit⟩ :=
        ih (nextAddr +
            min (MMU.downAlign nextAddr clw + clw - nextAddr) remSize)
          (remSize -
            min (MMU.downAlign nextAddr clw + clw - nextAddr) remSize)
          (splitId + 1) (by omega)
      rw [hred]
      refine ⟨?_, ?_, ?_, ?_⟩
      · intro p hp
        rcases List.mem_cons.1 hp with hp | hp
        · subst hp
          dsimp only [MMU.MemPacket.createReadRequest]
          refine ⟨hfacts.1, by omega, ?_⟩
          have h3 : nextAddr +
              min (MMU.downAlign nextAddr clw + clw - nextAddr) remSize -
              1 =
              nextAddr +
                (min (MMU.downAlign nextAddr clw + clw - nextAddr) remSize -
                  1) := by
            omega
          rw [h3]
          exact (downAlign_add_lt clw nextAddr _ h1 (by omega)).symm
        · exact ihall p hp
      · rw [bytesOf_cons, ihsum]
        simp only [MMU.MemPacket.createReadRequest]
        omega
      · rw [MMU.contiguousFrom]
        simp only [MMU.MemPacket.createReadRequest]
        rw [ihcont]
        simp
      · simp only [List.map_cons, List.length_cons, List.range'_succ,
          MMU.MemPacket.createReadRequest]
        rw [ihsplit]

/-- The write-splitting loop: read-splitting geometry, plus each
packet carries exactly its own region's slice of the data, and the
payloads concatenate back to the data. -/
theorem createWriteGo_spec (clw seqId orderId : Nat) (h1 : 0 < clw) :
    ∀ (fuel nextAddr remSize splitId : Nat) (remData : List Nat),
      remSize ≤ fuel → remData.length = remSize →
      (∀ p ∈ MMU.createWriteMemPacketsGo clw seqId orderId fuel nextAddr
          remSize splitId remData,
        0 < p.size ∧ p.size ≤ clw ∧
        MMU.downAlign p.vaddr clw =
          MMU.downAlign (p.vaddr + p.size - 1) clw ∧
        p.payload.length = p.size) ∧
      MMU.bytesOf (MMU.createWriteMemPacketsGo clw seqId orderId fuel
        nextAddr remSize splitId remData) = remSize ∧
      MMU.contiguousFrom nextAddr (MMU.createWriteMemPacketsGo clw seqId
        orderId fuel nextAddr remSize splitId remData) = true ∧
      (MMU.createWriteMemPacketsGo clw seqId orderId fuel nextAddr remSize
          splitId remData).map (fun p => p.packetSplitId) =
        List.range' splitId (MMU.createWriteMemPacketsGo clw seqId orderId
          fuel nextAddr remSize splitId remData).length ∧
      ((MMU.createWriteMemPacketsGo clw seqId orderId fuel nextAddr remSize
          splitId remData).map (fun p => p.payload)).flatten = remData := by
  intro fuel
  induction fuel with
  | zero =>
    intro nextAddr remSize splitId remData hle hlen
    rw [MMU.createWriteMemPacketsGo]
    refine ⟨by simp, ?_, by rw [MMU.contiguousFrom], by simp, ?_⟩
    · simp [MMU.bytesOf]
      omega
    · have hnil : remData = [] := List.length_eq_zero.mp (by omega)
      simp [hnil]
  | succ fuel ih =>
    intro nextAddr remSize splitId remData hle hlen
    by_cases hz : remSize = 0
    · have hred : MMU.createWriteMemPacketsGo clw seqId orderId (fuel + 1)
          nextAddr remSize splitId remData = [] := by
        rw [MMU.createWriteMemPacketsGo, if_pos hz]
      rw [hred]
      refine ⟨by simp, ?_, by rw [MMU.contiguousFrom], by simp, ?_⟩
      · simp [MMU.bytesOf]
        omega
      · have hnil : remData = [] := List.length_eq_zero.mp (by omega)
        simp [hnil]
    · have hma : nextAddr % clw < clw := Nat.mod_lt nextAddr h1
      have hle2 : nextAddr % clw ≤ nextAddr := Nat.mod_le nextAddr clw
      have hA : MMU.downAlign nextAddr clw + clw - nextAddr =
          clw - nextAddr % clw := by
        unfold MMU.downAlign
        omega
      have hfacts : 1 ≤ min (MMU.downAlign nextAddr clw + clw - nextAddr)
          remSize ∧
          min (MMU.downAlign nextAddr clw + clw - nextAddr) remSize ≤
            clw - nextAddr % clw ∧
          min (MMU.downAlign nextAddr clw + clw - nextAddr) remSize ≤
            remSize := by
        rw [hA]
        omega
      have hred : MMU.createWriteMemPacketsGo clw seqId orderId (fuel + 1)
          nextAddr remSize splitId remData =
          { MMU.MemPacket.createWriteRequest nextAddr
              (min (MMU.downAlign nextAddr clw + clw - nextAddr) remSize)
              seqId orderId
              (remData.take
                (min (MMU.downAlign nextAddr clw + clw - nextAddr)
                  remSize)) with packetSplitId := splitId } ::
            MMU.createWriteMemPacketsGo clw seqId orderId fuel
              (nextAddr +
                min (MMU.downAlign nextAddr clw + clw - nextAddr) remSize)
              (remSize -
                min (MMU.downAlign nextAddr clw + clw - nextAddr) remSize)
              (splitId + 1)
              (remData.drop
                (min (MMU.downAlign nextAddr clw + clw - nextAddr)
                  remSize)) := by
        rw [MMU.createWriteMemPacketsGo, if_neg hz]
      obtain ⟨ihall, ihsum, ihcont, ihsplit, ihflat⟩ :=
        ih (nextAddr +
            min (MMU.downAlign nextAddr clw + clw - nextAddr) remSize)
          (remSize -
            min (MMU.downAlign nextAddr clw + clw - nextAddr) remSize)
          (splitId + 1)
          (remData.drop
            (min (MMU.downAlign nextAddr clw + clw - nextAddr) remSize))
          (by omega) (by rw [List.length_drop]; omega)
      rw [hred]
      refine ⟨?_, ?_, ?_, ?_, ?_⟩
      · intro p hp
        rcases List.mem_cons.1 hp with hp | hp
        · subst hp
          dsimp only [MMU.MemPacket.createWriteRequest]
          refine ⟨hfacts.1, by omega, ?_, ?_⟩
          · have h3 : nextAddr +
                min (MMU.downAlign nextAddr clw + clw - nextAddr) remSize -
                1 =
                nextAddr +
                  (min (MMU.downAlign nextAddr clw + clw - nextAddr)
                    remSize - 1) := by
              omega
            rw [h3]
            exact (downAlign_add_lt clw nextAddr _ h1 (by omega)).symm
          · rw [List.length_take]
            omega
        · exact ihall p hp
      · rw [bytesOf_cons, ihsum]
        simp only [MMU.MemPacket.createWriteRequest]
        omega
      · rw [MMU.contiguousFrom]
        simp only [MMU.MemPacket.createWriteRequest]
        rw [ihcont]
        simp
      · simp only [List.map_cons, List.length_cons, List.range'_succ,
          MMU.MemPacket.createWriteRequest]
        rw [ihsplit]
      · simp only [List.map_cons, List.flatten_cons,
          MMU.MemPacket.createWriteRequest]
        rw [ihflat]
        exact List.take_append_drop _ remData

/-- `createReadMemPackets`: the emitted packets partition the target
into per-cache-line regions with ascending split ids. -/
theorem createReadMemPackets_spec (clw : Nat) (t : MemoryAccessTarget)
    (seqId orderId : Nat) (h1 : 0 < clw) (h2 : 0 < t.size) :
    (∀ p ∈ MMU.createReadMemPackets clw t seqId orderId,
      0 < p.size ∧ p.size ≤ clw ∧
      MMU.downAlign p.vaddr clw =
        MMU.downAlign (p.vaddr + p.size - 1) clw) ∧
    MMU.bytesOf (MMU.createReadMemPackets clw t seqId orderId) = t.size ∧
    MMU.contiguousFrom t.vaddr
      (MMU.createReadMemPackets clw t seqId orderId) = true ∧
    (MMU.createReadMemPackets clw t seqId orderId).map
        (fun p => p.packetSplitId) =
      List.range (MMU.createReadMemPackets clw t seqId orderId).length := by
  unfold MMU.createReadMemPackets
  by_cases ha : MMU.isAligned clw t = true
  · rw [if_pos ha]
    have he : MMU.downAlign t.vaddr clw =
        MMU.downAlign (t.vaddr + t.size - 1) clw := by
      unfold MMU.isAligned at ha
      exact beq_iff_eq.mp ha
    have hszle : t.size ≤ clw := by
      have hm1 : (t.vaddr + t.size - 1) % clw < clw := Nat.mod_lt _ h1
      have hm2 : t.vaddr % clw ≤ t.vaddr := Nat.mod_le _ _
      unfold MMU.downAlign at he
      omega
    refine ⟨?_, ?_, ?_, ?_⟩
    · intro p hp
      rw [List.mem_singleton] at hp
      subst hp
      exact ⟨h2, hszle, he⟩
    · rw [bytesOf_cons]
      simp [MMU.bytesOf, MMU.MemPacket.createReadRequest]
    · rw [MMU.contiguousFrom]
      simp [MMU.contiguousFrom, MMU.MemPacket.createReadRequest]
    · simp [MMU.MemPacket.createReadRequest, List.range_succ]
  · rw [if_neg ha]
    obtain ⟨a, b, c, d⟩ := createReadGo_spec clw seqId orderId h1 t.size
      t.vaddr t.size 0 le_rfl
    exact ⟨a, b, c, by rw [d]; exact (List.range_eq_range' _).symm⟩

/-- `createWriteMemPackets`: the read geometry plus exact payload
slicing. -/
theorem createWriteMemPackets_spec (clw : Nat) (t : MemoryAccessTarget)
    (data : List Nat) (seqId orderId : Nat) (h1 : 0 < clw)
    (h2 : 0 < t.size) (hd : data.length = t.size) :
    (∀ p ∈ MMU.createWriteMemPackets clw t data seqId orderId,
      0 < p.size ∧ p.size ≤ clw ∧
      MMU.downAlign p.vaddr clw =
        MMU.downAlign (p.vaddr + p.size - 1) clw ∧
      p.payload.length = p.size) ∧
    MMU.bytesOf (MMU.createWriteMemPackets clw t data seqId orderId) =
      t.size ∧
    MMU.contiguousFrom t.vaddr
      (MMU.createWriteMemPackets clw t data seqId orderId) = true ∧
    (MMU.createWriteMemPackets clw t data seqId orderId).map
        (fun p => p.packetSplitId) =
      List.range
        (MMU.createWriteMemPackets clw t data seqId orderId).length ∧
    ((MMU.createWriteMemPackets clw t data seqId orderId).map
        (fun p => p.payload)).flatten = data := by
  unfold MMU.createWriteMemPackets
  by_cases ha : MMU.isAligned clw t = true
  · rw [if_pos ha]
    have he : MMU.downAlign t.vaddr clw =
        MMU.downAlign (t.vaddr + t.size - 1) clw := by
      unfold MMU.isAligned at ha
      exact beq_iff_eq.mp ha
    have hszle : t.size ≤ clw := by
      have hm1 : (t.vaddr + t.size - 1) % clw < clw := Nat.mod_lt _ h1
      have hm2 : t.vaddr % clw ≤ t.vaddr := Nat.mod_le _ _
      unfold MMU.downAlign at he
      omega
    refine ⟨?_, ?_, ?_, ?_, ?_⟩
    · intro p hp
      rw [List.mem_singleton] at hp
      subst hp
      exact ⟨h2, hszle, he, hd⟩
    · rw [bytesOf_cons]
      simp [MMU.bytesOf, MMU.MemPacket.createWriteRequest]
    · rw [MMU.contiguousFrom]
      simp [MMU.contiguousFrom, MMU.MemPacket.createWriteRequest]
    · simp [MMU.MemPacket.createWriteRequest, List.range_succ]
    · simp [MMU.MemPacket.createWriteRequest]
  · rw [if_neg ha]
    obtain ⟨a, b, c, d, e⟩ := createWriteGo_spec clw seqId orderId h1 t.size
      t.vaddr t.size 0 data le_rfl hd
    exact ⟨a, b, c, by rw [d]; exact (List.range_eq_range' _).symm, e⟩

/-- The merge loop concatenates when no split is faulty. -/
theorem mergePayloadsGo_ok :
    ∀ (ps : List MMU.MemPacket) (acc : List Nat),
      (∀ p ∈ ps, p.faulty = false) →
      MMU.mergePayloadsGo ps acc =
        some (acc ++ (ps.map (fun p => p.payload)).flatten) := by
  intro ps
  induction ps with
  | nil => intro acc _; simp [MMU.mergePayloadsGo]
  | cons p rest ih =>
    intro acc hnf
    rw [MMU.mergePayloadsGo,
      if_neg (by rw [hnf p (List.mem_cons_self p rest)]; simp),
      ih (acc ++ p.payload) (fun q hq => hnf q (List.mem_cons_of_mem p hq))]
    simp

/-- The merge loop aborts on any faulty split. -/
theorem mergePayloadsGo_none :
    ∀ (ps : List MMU.MemPacket) (acc : List Nat),
      (∃ p ∈ ps, p.faulty = true) →
      MMU.mergePayloadsGo ps acc = none := by
  intro ps
  induction ps with
  | nil => intro acc h; simp at h
  | cons p rest ih =>
    intro acc h
    by_cases hp : p.faulty = true
    · rw [MMU.mergePayloadsGo, if_pos hp]
    · rw [MMU.mergePayloadsGo, if_neg hp]
      obtain ⟨q, hq, hqf⟩ := h
      rcases List.mem_cons.1 hq with hq | hq
      · subst hq; exact absurd hqf hp
      · exact ih (acc ++ p.payload) ⟨q, hq, hqf⟩

/-- **C5.** For every memory target with positive size and a positive
cache-line width: read and write splitting produce packets that each
lie within a single cache line (`size ≤ cacheLineWidth`, start and end
down-align to the same line base), whose sizes sum to the target size
over contiguous ascending addresses with split ids `0, 1, 2, …`; each
write packet carries exactly its region's slice of the data, and
concatenating the write packets' payloads in split-id order reproduces
the original payload; a response vector with no faulty split reassembles
to the concatenation of its payloads at the first packet's address,
any faulty split yields `none` (the empty `RegisterValue`), and
`supplyLoadInsnData` applies this reassembly per `packetOrderId`. -/
theorem mmu_packet_splitting (clw : Nat) (t : MemoryAccessTarget)
    (data : List Nat) (seqId orderId : Nat)
    (h1 : 0 < clw) (h2 : 0 < t.size) (hd : data.length = t.size) :
    (∀ p ∈ MMU.createReadMemPackets clw t seqId orderId,
      0 < p.size ∧ p.size ≤ clw ∧
      MMU.downAlign p.vaddr clw =
        MMU.downAlign (p.vaddr + p.size - 1) clw) ∧
    MMU.bytesOf (MMU.createReadMemPackets clw t seqId orderId) = t.size ∧
    MMU.contiguousFrom t.vaddr
      (MMU.createReadMemPackets clw t seqId orderId) = true ∧
    (MMU.createReadMemPackets clw t seqId orderId).map
        (fun p => p.packetSplitId) =
      List.range (MMU.createReadMemPackets clw t seqId orderId).length ∧
    (∀ p ∈ MMU.createWriteMemPackets clw t data seqId orderId,
      0 < p.size ∧ p.size ≤ clw ∧
      MMU.downAlign p.vaddr clw =
        MMU.downAlign (p.vaddr + p.size - 1) clw ∧
      p.payload.length = p.size) ∧
    MMU.bytesOf (MMU.createWriteMemPackets clw t data seqId orderId) =
      t.size ∧
    MMU.contiguousFrom t.vaddr
      (MMU.createWriteMemPackets clw t data seqId orderId) = true ∧
    (MMU.createWriteMemPackets clw t data seqId orderId).map
        (fun p => p.packetSplitId) =
      List.range
        (MMU.createWriteMemPackets clw t data seqId orderId).length ∧
    ((MMU.createWriteMemPackets clw t data seqId orderId).map
        (fun p => p.payload)).flatten = data ∧
    (∀ (p0 : MMU.MemPacket) (pkts : List MMU.MemPacket),
      (∀ p ∈ p0 :: pkts, p.faulty = false) →
      MMU.mergeResponses (p0 :: pkts) =
        (p0.vaddr,
          some (((p0 :: pkts).map (fun p => p.payload)).flatten))) ∧
    (∀ (p0 : MMU.MemPacket) (pkts : List MMU.MemPacket),
      (∃ p ∈ p0 :: pkts, p.faulty = true) →
      (MMU.mergeResponses (p0 :: pkts)).2 = none) ∧
    (∀ responses, MMU.supplyLoadInsnData responses =
      responses.map MMU.mergeResponses) := by
  obtain ⟨r1, r2, r3, r4⟩ :=
    createReadMemPackets_spec clw t seqId orderId h1 h2
  obtain ⟨w1, w2, w3, w4, w5⟩ :=
    createWriteMemPackets_spec clw t data seqId orderId h1 h2 hd
  refine ⟨r1, r2, r3, r4, w1, w2, w3, w4, w5, ?_, ?_, fun _ => rfl⟩
  · intro p0 pkts hnf
    rw [MMU.mergeResponses,
      if_neg (by rw [hnf p0 (List.mem_cons_self p0 pkts)]; simp),
      mergePayloadsGo_ok pkts p0.payload
        (fun q hq => hnf q (List.mem_cons_of_mem p0 hq))]
    simp
  · intro p0 pkts h
    by_cases hp0 : p0.faulty = true
    · rw [MMU.mergeResponses, if_pos hp0]
    · rw [MMU.mergeResponses, if_neg hp0]
      obtain ⟨q, hq, hqf⟩ := h
      rcases List.mem_cons.1 hq with hq | hq
      · subst hq; exact absurd hqf hp0
      · exact mergePayloadsGo_none pkts p0.payload ⟨q, hq, hqf⟩

/-- Witness for C5: a 6-byte target at address 2 under a 4-byte cache
line splits into contiguous packets whose sizes sum to 6, and the write
packets' payloads concatenate back to the original data. -/
theorem mmu_packet_splitting_witness :
    MMU.bytesOf (MMU.createReadMemPackets 4 ⟨2, 6⟩ 9 0) = 6 ∧
    MMU.contiguousFrom 2 (MMU.createReadMemPackets 4 ⟨2, 6⟩ 9 0) = true ∧
    ((MMU.createWriteMemPackets 4 ⟨2, 6⟩ [10, 11, 12, 13, 14, 15] 9 0).map
        (fun p => p.payload)).flatten = [10, 11, 12, 13, 14, 15] :=
  ⟨(mmu_packet_splitting 4 ⟨2, 6⟩ [10, 11, 12, 13, 14, 15] 9 0 (by decide)
      (by decide) (by decide)).2.1,
    (mmu_packet_splitting 4 ⟨2, 6⟩ [10, 11, 12, 13, 14, 15] 9 0 (by decide)
      (by decide) (by decide)).2.2.1,
    (mmu_packet_splitting 4 ⟨2, 6⟩ [10, 11, 12, 13, 14, 15] 9 0 (by decide)
      (by decide) (by decide)).2.2.2.2.2.2.2.2.1⟩

/-! ### MMU: the pending-data-request counter (C10) -/

/-- Instruction-read responses never touch `pendingDataRequests_`. -/
theorem portReceive_instr_counter (s : MMU.State) (pkt : MMU.MemPacket)
    (h : pkt.instrRead = true) :
    (MMU.portReceive s pkt).pendingDataRequests = s.pendingDataRequests := by
  rw [MMU.portReceive, if_pos h]
  split <;> rfl

/-- Every data response decrements `pendingDataRequests_` (as a
`uint64_t`). -/
theorem portReceive_data_counter (s : MMU.State) (pkt : MMU.MemPacket)
    (h : pkt.instrRead = false) :
    (MMU.portReceive s pkt).pendingDataRequests =
      MMU.dec64 s.pendingDataRequests := by
  rw [MMU.portReceive, if_neg (by rw [h]; simp)]
  dsimp only
  repeat' split
  all_goals rfl

/-- `issueRequest` leaves the counter alone for instruction reads, and
for any packet whose translation does not data-abort. -/
theorem issueRequest_counter (translate : Nat → Nat → MMU.Translation)
    (tid : Nat) (s : MMU.State) (pkt : MMU.MemPacket)
    (h : pkt.instrRead = true ∨
      translate pkt.vaddr tid ≠ MMU.Translation.dataAbort) :
    (MMU.issueRequest translate tid s pkt).pendingDataRequests =
      s.pendingDataRequests := by
  unfold MMU.issueRequest
  cases htr : translate pkt.vaddr tid
  · repeat' (first | rfl | dsimp only | split)
  · rcases h with h | h
    · exact portReceive_instr_counter s _ h
    · exact absurd htr h
  · rfl
  · repeat' (first | rfl | dsimp only | split)

/-- Folding `issueRequest` over abort-free packets preserves the
counter. -/
theorem foldl_issueRequest_counter (translate : Nat → Nat → MMU.Translation)
    (tid : Nat) :
    ∀ (pkts : List MMU.MemPacket) (s : MMU.State),
      (∀ p ∈ pkts, p.instrRead = true ∨
        translate p.vaddr tid ≠ MMU.Translation.dataAbort) →
      (pkts.foldl (MMU.issueRequest translate tid)
        s).pendingDataRequests = s.pendingDataRequests := by
  intro pkts
  induction pkts with
  | nil => intro s _; rfl
  | cons p rest ih =>
    intro s h
    show (rest.foldl _ (MMU.issueRequest translate tid s p)).pendingDataRequests = _
    rw [ih (MMU.issueRequest translate tid s p)
      (fun q hq => h q (List.mem_cons_of_mem p hq))]
    exact issueRequest_counter translate tid s p
      (h p (List.mem_cons_self p rest))

/-- **C10.** `hasPendingRequests()` is true exactly when
`pendingDataRequests_` is non-zero; that counter is raised only by the
data-side entry points — an accepted `requestRead` or `requestWrite`
adds its packet count, and the untimed target/data `requestWrite` adds
its split count — and lowered only by data responses arriving at the
port; `requestInstrRead` and instruction-read responses never touch it,
so `hasPendingRequests()` can be false with instruction reads still
outstanding. -/
theorem mmu_pending_data_requests :
    (∀ s : MMU.State, MMU.hasPendingRequests s = true ↔
      s.pendingDataRequests ≠ 0) ∧
    (∀ (translate : Nat → Nat → MMU.Translation) (tid : Nat)
        (s : MMU.State) (t : MemoryAccessTarget),
      (MMU.requestInstrRead translate tid s t).pendingDataRequests =
        s.pendingDataRequests) ∧
    (∀ (s : MMU.State) (pkt : MMU.MemPacket), pkt.instrRead = true →
      (MMU.portReceive s pkt).pendingDataRequests =
        s.pendingDataRequests) ∧
    (∀ (s : MMU.State) (pkt : MMU.MemPacket), pkt.instrRead = false →
      0 < s.pendingDataRequests → s.pendingDataRequests < 2 ^ 64 →
      (MMU.portReceive s pkt).pendingDataRequests =
        s.pendingDataRequests - 1) ∧
    (∀ (cfg : MMU.Config) (s : MMU.State) (uop : Instruction),
      (MMU.requestRead cfg s uop).1 = true →
      (MMU.requestRead cfg s uop).2.pendingDataRequests =
        MMU.add64 s.pendingDataRequests
          (MMU.readPacketsOf cfg.cacheLineWidth uop).length) ∧
    (∀ (cfg : MMU.Config) (s : MMU.State) (uop : Instruction),
      (MMU.requestRead cfg s uop).1 = false →
      (MMU.requestRead cfg s uop).2 = s) ∧
    (∀ (cfg : MMU.Config) (s : MMU.State) (uop : Instruction)
        (data : List (List Nat)),
      (MMU.requestWrite cfg s uop data).1 = true →
      (MMU.requestWrite cfg s uop data).2.pendingDataRequests =
        MMU.add64 s.pendingDataRequests
          (MMU.writePacketsOf cfg.cacheLineWidth uop data).length) ∧
    (∀ (cfg : MMU.Config) (s : MMU.State) (uop : Instruction)
        (data : List (List Nat)),
      (MMU.requestWrite cfg s uop data).1 = false →
      (MMU.requestWrite cfg s uop data).2 = s) ∧
    (∀ (cfg : MMU.Config) (translate : Nat → Nat → MMU.Translation)
        (tid : Nat) (s : MMU.State) (t : MemoryAccessTarget)
        (data : List Nat),
      (∀ (v tid2 : Nat), translate v tid2 ≠ MMU.Translation.dataAbort) →
      (MMU.requestWriteUntimed cfg translate tid s t
          data).pendingDataRequests =
        MMU.add64 s.pendingDataRequests
          (MMU.createWriteMemPackets cfg.cacheLineWidth t (data.take t.size)
            0 0).length) := by
  refine ⟨?_, ?_, portReceive_instr_counter, ?_, ?_, ?_, ?_, ?_, ?_⟩
  · intro s
    simp [MMU.hasPendingRequests]
  · intro translate tid s t
    exact issueRequest_counter translate tid s _ (Or.inl rfl)
  · intro s pkt h h0 hlt
    rw [portReceive_data_counter s pkt h]
    unfold MMU.dec64
    omega
  · intro cfg s uop h
    rw [MMU.requestRead] at h ⊢
    by_cases hc1 : (cfg.exclusive && s.stores.length != 0) = true
    · rw [if_pos hc1] at h
      simp at h
    · rw [if_neg hc1] at h ⊢
      by_cases hc2 : (!cfg.exclusive &&
          decide (s.loads.length + s.stores.length ≥ cfg.requestLimit)) =
          true
      · rw [if_pos hc2] at h
        simp at h
      · rw [if_neg hc2] at h ⊢
        by_cases hc3 : s.loads.length ≥ cfg.loadRequestLimit
        · rw [if_pos hc3] at h
          simp at h
        · rw [if_neg hc3]
          dsimp only
          by_cases hlr : uop.isLoadReserved = true
          · rw [if_pos hlr]
            simp [List.length_map]
          · rw [if_neg hlr]
  · intro cfg s uop h
    rw [MMU.requestRead] at h ⊢
    by_cases hc1 : (cfg.exclusive && s.stores.length != 0) = true
    · rw [if_pos hc1]
    · rw [if_neg hc1] at h ⊢
      by_cases hc2 : (!cfg.exclusive &&
          decide (s.loads.length + s.stores.length ≥ cfg.requestLimit)) =
          true
      · rw [if_pos hc2]
      · rw [if_neg hc2] at h ⊢
        by_cases hc3 : s.loads.length ≥ cfg.loadRequestLimit
        · rw [if_pos hc3]
        · rw [if_neg hc3] at h
          simp at h
  · intro cfg s uop data h
    rw [MMU.requestWrite] at h ⊢
    by_cases hc1 : (cfg.exclusive && s.loads.length != 0) = true
    · rw [if_pos hc1] at h
      simp at h
    · rw [if_neg hc1] at h ⊢
      by_cases hc2 : (!cfg.exclusive &&
          decide (s.loads.length + s.stores.length ≥ cfg.requestLimit)) =
          true
      · rw [if_pos hc2] at h
        simp at h
      · rw [if_neg hc2] at h ⊢
        by_cases hc3 : s.stores.length ≥ cfg.storeRequestLimit
        · rw [if_pos hc3] at h
          simp at h
        · rw [if_neg hc3]
          dsimp only
          by_cases hsc : uop.isStoreCond = true
          · rw [if_pos hsc]
            simp [List.length_map]
          · rw [if_neg hsc]
  · intro cfg s uop data h
    rw [MMU.requestWrite] at h ⊢
    by_cases hc1 : (cfg.exclusive && s.loads.length != 0) = true
    · rw [if_pos hc1]
    · rw [if_neg hc1] at h ⊢
      by_cases hc2 : (!cfg.exclusive &&
          decide (s.loads.length + s.stores.length ≥ cfg.requestLimit)) =
          true
      · rw [if_pos hc2]
      · rw [if_neg hc2] at h ⊢
        by_cases hc3 : s.stores.length ≥ cfg.storeRequestLimit
        · rw [if_pos hc3]
        · rw [if_neg hc3] at h
          simp at h
  · intro cfg translate tid s t data h
    unfold MMU.requestWriteUntimed
    dsimp only
    rw [foldl_issueRequest_counter translate tid _ s
      (fun p _ => Or.inr (h p.vaddr tid))]

/-- Witness for C10: a data response at a state with two outstanding
data packets drops the counter to one. -/
theorem mmu_pending_data_requests_witness :
    (MMU.portReceive c10State c10Pkt).pendingDataRequests =
      c10State.pendingDataRequests - 1 :=
  mmu_pending_data_requests.2.2.2.1 c10State c10Pkt (by decide) (by decide)
    (by decide)

/-! ### DispatchIssueUnit: operand forwarding (C8) -/

/-- `pushReady` only touches the ready queues. -/
theorem pushReady_preserves (s : DI.DIState) (port : Nat)
    (u : DI.DIInstr) :
    (DI.pushReady s port u).waitingInstructions = s.waitingInstructions ∧
    (DI.pushReady s port u).dependantInstructions =
      s.dependantInstructions ∧
    (DI.pushReady s port u).ticks = s.ticks := by
  unfold DI.pushReady
  split <;> exact ⟨rfl, rfl, rfl⟩

/-- The supply-and-maybe-push step only touches the ready queues. -/
theorem supplyStep_preserves (s : DI.DIState) (port : Nat)
    (u : DI.DIInstr) :
    (if DI.canExecute u then DI.pushReady s port u
      else s).waitingInstructions = s.waitingInstructions ∧
    (if DI.canExecute u then DI.pushReady s port u
      else s).dependantInstructions = s.dependantInstructions ∧
    (if DI.canExecute u then DI.pushReady s port u else s).ticks =
      s.ticks := by
  by_cases hce : DI.canExecute u = true
  · rw [if_pos hce]
    exact pushReady_preserves s port u
  · rw [if_neg hce]
    exact ⟨rfl, rfl, rfl⟩

/-- The waiting-instruction service loop keeps `ticks_` and retains
exactly the entries not yet due. -/
theorem scanWaiting_spec :
    ∀ (l : List (Nat × DI.Entry × Nat)) (s : DI.DIState),
      (DI.scanWaiting l s).ticks = s.ticks ∧
      (DI.scanWaiting l s).waitingInstructions =
        s.waitingInstructions ++ l.filter (fun x => x.1 != s.ticks) := by
  intro l
  induction l with
  | nil => intro s; exact ⟨rfl, by simp [DI.scanWaiting]⟩
  | cons x rest ih =>
    intro s
    obtain ⟨due, e, v⟩ := x
    by_cases hdue : due = s.ticks
    · rw [DI.scanWaiting, if_pos hdue]
      obtain ⟨hw, _, ht⟩ := supplyStep_preserves s e.port
        (DI.supplyOperand e.uop e.operandIndex v)
      obtain ⟨iht, ihw⟩ := ih
        (if DI.canExecute (DI.supplyOperand e.uop e.operandIndex v) then
          DI.pushReady s e.port (DI.supplyOperand e.uop e.operandIndex v)
        else s)
      refine ⟨iht.trans ht, ?_⟩
      rw [ihw, hw, ht, List.filter_cons]
      simp [hdue]
    · rw [DI.scanWaiting, if_neg hdue]
      obtain ⟨iht, ihw⟩ := ih
        { s with waitingInstructions := s.waitingInstructions ++
            [(due, e, v)] }
      refine ⟨iht, ?_⟩
      rw [ihw, List.filter_cons]
      simp [hdue]

/-- The dependant-instruction service loop keeps `ticks_` and retains
exactly the entries whose register the scoreboard still marks busy. -/
theorem scanDependants_spec (scoreboard : Register → Bool)
    (regFile : Register → Nat) :
    ∀ (l : List DI.Entry) (s : DI.DIState),
      (DI.scanDependants scoreboard regFile l s).ticks = s.ticks ∧
      (DI.scanDependants scoreboard regFile l s).dependantInstructions =
        s.dependantInstructions ++
          l.filter (fun e => !scoreboard (DI.entryReg e)) := by
  intro l
  induction l with
  | nil => intro s; exact ⟨rfl, by simp [DI.scanDependants]⟩
  | cons e rest ih =>
    intro s
    by_cases hsb : scoreboard (DI.entryReg e) = true
    · rw [DI.scanDependants, if_pos hsb]
      obtain ⟨_, hdp, ht⟩ := supplyStep_preserves s e.port
        (DI.supplyOperand e.uop e.operandIndex
          (regFile (DI.entryReg e)))
      obtain ⟨iht, ihd⟩ := ih
        (if DI.canExecute (DI.supplyOperand e.uop e.operandIndex
            (regFile (DI.entryReg e))) then
          DI.pushReady s e.port
            (DI.supplyOperand e.uop e.operandIndex
              (regFile (DI.entryReg e)))
        else s)
      refine ⟨iht.trans ht, ?_⟩
      rw [ihd, hdp, List.filter_cons]
      simp [hsb]
    · rw [DI.scanDependants, if_neg hsb]
      obtain ⟨_, hdp, ht⟩ := supplyStep_preserves s e.port e.uop
      obtain ⟨iht, ihd⟩ := ih
        { (if DI.canExecute e.uop then DI.pushReady s e.port e.uop
            else s) with
          dependantInstructions :=
            (if DI.canExecute e.uop then DI.pushReady s e.port e.uop
              else s).dependantInstructions ++ [e] }
      refine ⟨iht.trans ht, ?_⟩
      rw [ihd]
      dsimp only
      rw [hdp, List.filter_cons]
      simp [hsb]

/-- Counterexample to C8 as stated: with bypass enabled and a
forwarding latency of `-2`, the dependent entry is *not* parked in
`dependantInstructions_` (the register-file path); it lands in
`waitingInstructions_` due at tick `5 - 2 = 3`, already in the past,
because only latency exactly `-1` takes the register-file-wait
branch. -/
theorem di_negative_latency_counterexample :
    (DI.forwardEntry true (fun _ _ => -2) 0 7 c8Entry
        c8St).dependantInstructions = [] ∧
    (DI.forwardEntry true (fun _ _ => -2) 0 7 c8Entry
        c8St).waitingInstructions = [(3, c8Entry, 7)] ∧
    3 < c8St.ticks := by
  decide

/-- **C8 (amended).** In `forwardOperands` with bypass latency
enabled, for each dependent entry: latency `0` supplies the operand
and enqueues the uop once executable (likewise whenever bypass latency
is disabled); latency exactly `-1` parks the entry in
`dependantInstructions_`, where a later `tick()` supplies it from the
register file once the scoreboard marks its register ready; any other
latency `L` parks it in `waitingInstructions_` due at the `uint64_t`
sum `ticks_ + L` — for `L > 0` (no wraparound) that is `ticks_ + L`,
served by the waiting-loop at exactly that tick. -/
theorem di_forward_operands :
    (∀ (cf : Nat → Nat → Int) (pg v : Nat) (e : DI.Entry)
        (s : DI.DIState),
      cf pg e.uop.consumerGroup = 0 →
      DI.forwardEntry true cf pg v e s =
        (if DI.canExecute (DI.supplyOperand e.uop e.operandIndex v) then
          DI.pushReady s e.port (DI.supplyOperand e.uop e.operandIndex v)
        else s)) ∧
    (∀ (cf : Nat → Nat → Int) (pg v : Nat) (e : DI.Entry)
        (s : DI.DIState),
      DI.forwardEntry false cf pg v e s =
        (if DI.canExecute (DI.supplyOperand e.uop e.operandIndex v) then
          DI.pushReady s e.port (DI.supplyOperand e.uop e.operandIndex v)
        else s)) ∧
    (∀ (cf : Nat → Nat → Int) (pg v : Nat) (e : DI.Entry)
        (s : DI.DIState),
      cf pg e.uop.consumerGroup = -1 →
      DI.forwardEntry true cf pg v e s =
        { s with dependantInstructions :=
            s.dependantInstructions ++ [e] }) ∧
    (∀ (cf : Nat → Nat → Int) (pg v : Nat) (e : DI.Entry)
        (s : DI.DIState) (L : Int),
      cf pg e.uop.consumerGroup = L → L ≠ 0 → L ≠ -1 →
      DI.forwardEntry true cf pg v e s =
        { s with waitingInstructions := s.waitingInstructions ++
            [((((s.ticks : Int) + L) % 2 ^ 64).toNat, e, v)] }) ∧
    (∀ (cf : Nat → Nat → Int) (pg v : Nat) (e : DI.Entry)
        (s : DI.DIState) (L : Int),
      cf pg e.uop.consumerGroup = L → 0 < L →
      (s.ticks : Int) + L < 2 ^ 64 →
      DI.forwardEntry true cf pg v e s =
        { s with waitingInstructions := s.waitingInstructions ++
            [(s.ticks + L.toNat, e, v)] }) ∧
    (∀ (l : List (Nat × DI.Entry × Nat)) (s : DI.DIState),
      (DI.scanWaiting l s).ticks = s.ticks ∧
      (DI.scanWaiting l s).waitingInstructions =
        s.waitingInstructions ++ l.filter (fun x => x.1 != s.ticks)) ∧
    (∀ (scoreboard : Register → Bool) (regFile : Register → Nat)
        (l : List DI.Entry) (s : DI.DIState),
      (DI.scanDependants scoreboard regFile l s).ticks = s.ticks ∧
      (DI.scanDependants scoreboard regFile l s).dependantInstructions =
        s.dependantInstructions ++
          l.filter (fun e => !scoreboard (DI.entryReg e))) ∧
    (∀ (scoreboard : Register → Bool) (regFile : Register → Nat)
        (e : DI.Entry) (s : DI.DIState),
      scoreboard (DI.entryReg e) = true →
      DI.scanDependants scoreboard regFile [e] s =
        (if DI.canExecute (DI.supplyOperand e.uop e.operandIndex
            (regFile (DI.entryReg e))) then
          DI.pushReady s e.port
            (DI.supplyOperand e.uop e.operandIndex
              (regFile (DI.entryReg e)))
        else s)) := by
  refine ⟨?_, ?_, ?_, ?_, ?_, scanWaiting_spec, scanDependants_spec, ?_⟩
  · intro cf pg v e s h
    simp only [DI.forwardEntry, h]
    simp
  · intro cf pg v e s
    simp only [DI.forwardEntry]
    simp
  · intro cf pg v e s h
    simp only [DI.forwardEntry, h]
    simp
  · intro cf pg v e s L h h0 h1
    simp only [DI.forwardEntry, if_true, h]
    rw [if_neg h0, if_neg h1]
  · intro cf pg v e s L h h0 hnw
    simp only [DI.forwardEntry, if_true, h]
    rw [if_neg (by omega), if_neg (by omega)]
    have hdue : (((s.ticks : Int) + L) % 2 ^ 64).toNat =
        s.ticks + L.toNat := by
      omega
    rw [hdue]
  · intro scoreboard regFile e s hsb
    rw [DI.scanDependants, if_pos hsb]
    rw [show ∀ s2 : DI.DIState,
      DI.scanDependants scoreboard regFile [] s2 = s2 from fun _ => rfl]

/-- Witness for C8 (amended): a zero-latency forward at the concrete
entry supplies the operand and pushes the uop into the port's ready
queue. -/
theorem di_forward_operands_witness :
    DI.forwardEntry true (fun _ _ => 0) 0 7 c8Entry c8St =
      (if DI.canExecute (DI.supplyOperand c8Entry.uop c8Entry.operandIndex
          7) then
        DI.pushReady c8St c8Entry.port
          (DI.supplyOperand c8Entry.uop c8Entry.operandIndex 7)
      else c8St) :=
  di_forward_operands.1 (fun _ _ => 0) 0 7 c8Entry c8St (by decide)

end SimEng
